import Mathlib

/-!
Verification development for the storage / concurrency core of the bustub-15445
repository: LRU-K replacer, extendible hash table, buffer pool manager,
lock manager (mode legality and deadlock detection) and the B+Tree index.

Each component is embedded shallowly: the C++ member functions become pure Lean
functions over explicit state records.  Latches and mutexes have no functional
content in a single-threaded execution and are dropped; everything else follows
the source line by line.  Machine integers of the source (int, size_t) only hold
small nonnegative quantities on the executions considered, so they are modelled
as Nat; INVALID_PAGE_ID becomes Option.none.
-/

namespace BusTub

/-! ## LRU-K replacer, from src/buffer/lru_k_replacer.cpp

State fields mirror the data members of LRUKReplacer:
access_cnt_, access_hist_, evictable_, frames_new_ (the "young"/visit list),
frames_k_ (the "mature"/cache list, pairs of frame id and cached k-th
timestamp), curr_size_, current_timestamp_.  The locale_new_ / locale_k_
maps only cache list iterators and are represented by list search. -/

namespace LRUK

structure State where
  k : Nat
  numFrames : Nat
  accessCnt : Nat → Nat
  accessHist : Nat → List Nat
  evictable : Nat → Bool
  framesNew : List Nat
  framesK : List (Nat × Nat)
  currSize : Nat
  currTimestamp : Nat

/-- Constructor LRUKReplacer(num_frames, k). -/
def init (numFrames k : Nat) : State :=
  ⟨k, numFrames, fun _ => 0, fun _ => [], fun _ => false, [], [], 0, 0⟩

/-- Ordered insertion into frames_k_ via std::upper_bound with CmpTimeStamp
(compare the cached k-th timestamps). -/
def insertByKthTime (x : Nat × Nat) : List (Nat × Nat) → List (Nat × Nat)
  | [] => [x]
  | y :: ys => if x.2 < y.2 then x :: y :: ys else y :: insertByKthTime x ys

/-- Erase the entry of frame f from the frames_k_ list. -/
def eraseK (l : List (Nat × Nat)) (f : Nat) : List (Nat × Nat) :=
  l.eraseP (fun p => p.1 == f)

/-- LRUKReplacer::RecordAccess.  The C++ branch conditions cnt < k-1,
cnt == k-1, cnt >= k (size_t arithmetic, k ≥ 1) appear here as
cnt + 1 < k, cnt + 1 = k and the remaining case. -/
def recordAccess (s : State) (f : Nat) : State :=
  let cnt := s.accessCnt f
  let hist1 :=
    (if s.k ≤ (s.accessHist f).length then (s.accessHist f).tail
     else s.accessHist f) ++ [s.currTimestamp]
  let s1 : State :=
    { s with
      accessCnt := Function.update s.accessCnt f (cnt + 1)
      accessHist := Function.update s.accessHist f hist1
      currTimestamp := s.currTimestamp + 1 }
  if ¬ s.evictable f then s1
  else if cnt + 1 < s.k then
    { s1 with framesNew := s1.framesNew.erase f ++ [f] }
  else if cnt + 1 = s.k then
    { s1 with
      framesNew := s1.framesNew.erase f
      framesK := insertByKthTime (f, hist1.headD 0) s1.framesK }
  else
    { s1 with framesK := insertByKthTime (f, hist1.headD 0) (eraseK s1.framesK f) }

/-- LRUKReplacer::SetEvictable. -/
def setEvictable (s : State) (f : Nat) (b : Bool) : State :=
  if s.evictable f = b then s
  else if s.evictable f then
    let s1 : State :=
      { s with evictable := Function.update s.evictable f false
               currSize := s.currSize - 1 }
    if s.accessCnt f < s.k then { s1 with framesNew := s1.framesNew.erase f }
    else { s1 with framesK := eraseK s1.framesK f }
  else
    let s1 : State :=
      { s with evictable := Function.update s.evictable f true
               currSize := s.currSize + 1 }
    if s.accessCnt f < s.k then { s1 with framesNew := s1.framesNew ++ [f] }
    else { s1 with framesK := insertByKthTime (f, (s.accessHist f).headD 0) s1.framesK }

/-- LRUKReplacer::Evict: the young (visit) list is drained from the front
first; only when it is empty is the mature (cache) list consulted. -/
def evict (s : State) : Option (Nat × State) :=
  if s.currSize = 0 then none
  else
    match s.framesNew with
    | f :: rest =>
      some (f, { s with
        framesNew := rest
        accessCnt := Function.update s.accessCnt f 0
        accessHist := Function.update s.accessHist f []
        currSize := s.currSize - 1
        evictable := Function.update s.evictable f false })
    | [] =>
      match s.framesK with
      | (f, _) :: rest =>
        some (f, { s with
          framesK := rest
          accessCnt := Function.update s.accessCnt f 0
          accessHist := Function.update s.accessHist f []
          currSize := s.currSize - 1
          evictable := Function.update s.evictable f false })
      | [] => none

/-- LRUKReplacer::Remove. -/
def remove (s : State) (f : Nat) : State :=
  if ¬ s.evictable f then s
  else
    let s1 : State :=
      if s.k ≤ s.accessCnt f then { s with framesK := eraseK s.framesK f }
      else { s with framesNew := s.framesNew.erase f }
    { s1 with
      accessCnt := Function.update s1.accessCnt f 0
      accessHist := Function.update s1.accessHist f []
      evictable := Function.update s1.evictable f false
      currSize := s1.currSize - 1 }

/-- The boundary scenario state of §8.2 of the spec: 7 frames, k = 2,
record_access(1..6), set_evictable(1..6, true), record_access(1). -/
def scenarioState : State :=
  recordAccess
    ((List.range 6).foldl (fun s i => setEvictable s (i + 1) true)
      ((List.range 6).foldl (fun s i => recordAccess s (i + 1)) (init 7 2)))
    1

/-- Evict n times, collecting the returned frame ids. -/
def evictList (s : State) : Nat → List Nat × State
  | 0 => ([], s)
  | n + 1 =>
    match evict s with
    | none => ([], s)
    | some (f, s1) =>
      let r := evictList s1 n
      (f :: r.1, r.2)

/-- Structural invariant tying the two eviction lists to the per-frame
tracker state (the part needed for the young-before-mature policy). -/
def Inv (s : State) : Prop :=
  s.currSize = s.framesNew.length + s.framesK.length ∧
  (∀ f ∈ s.framesNew, s.accessCnt f < s.k) ∧
  (∀ f : Nat, f < s.numFrames → s.evictable f = true → s.accessCnt f < s.k →
    f ∈ s.framesNew)

instance (s : State) : Decidable (Inv s) := by
  unfold Inv; infer_instance

/-- Under the structural invariant, whenever some in-range frame is evictable
with fewer than k accesses, Evict succeeds and the victim has fewer than k
accesses (the young list is consulted strictly before the mature list). -/
theorem evict_prefers_young (s : State) (hInv : Inv s)
    (h : ∃ f, f < s.numFrames ∧ s.evictable f = true ∧ s.accessCnt f < s.k) :
    ∃ f s2, evict s = some (f, s2) ∧ s.accessCnt f < s.k := by
  obtain ⟨f, hf, hev, hcnt⟩ := h
  have hmem := hInv.2.2 f hf hev hcnt
  rcases hn : s.framesNew with _ | ⟨g, rest⟩
  · rw [hn] at hmem; exact absurd hmem (List.not_mem_nil f)
  · have hsz : ¬ s.currSize = 0 := by
      rw [hInv.1, hn]; simp
    have hx : ∃ s2, evict s = some (g, s2) := by
      unfold evict
      rw [if_neg hsz, hn]
      exact ⟨_, rfl⟩
    obtain ⟨s2, hs2⟩ := hx
    exact ⟨g, s2, hs2, hInv.2.1 g (by rw [hn]; exact List.mem_cons_self g rest)⟩

/-- C4: LRU-K boundary scenario with 7 frames and k = 2: after accessing
frames 1..6, marking 1..6 evictable and accessing frame 1 again, the six
evictions return 2, 3, 4, 5, 6 and finally 1; and in general (under the list
invariant) a frame with fewer than k accesses is evicted before any frame
with at least k accesses. -/
theorem claim_C4 :
    ((evict scenarioState).map (fun p => p.1) = some 2 ∧
      (evictList scenarioState 6).1 = [2, 3, 4, 5, 6, 1]) ∧
    (∀ s : State, Inv s →
      (∃ f, f < s.numFrames ∧ s.evictable f = true ∧ s.accessCnt f < s.k) →
      ∃ f s2, evict s = some (f, s2) ∧ s.accessCnt f < s.k) :=
  ⟨by decide, evict_prefers_young⟩

/-- C4 witness: the general young-before-mature statement applied to the
concrete scenario state. -/
theorem claim_C4_witness :
    ∃ f s2, evict scenarioState = some (f, s2) ∧
      scenarioState.accessCnt f < scenarioState.k :=
  claim_C4.2 scenarioState (by decide) ⟨2, by decide, by decide, by decide⟩

/-- C5 counterexample: on a fresh replacer (7 frames, k = 2) frame 3 has zero
recorded accesses, yet set_evictable(3, true) increments size from 0 to 1,
inserts 3 into the young list, and the next evict() returns 3 — contradicting
the claim that this is a no-op. -/
theorem claim_C5_counterexample :
    ¬ (setEvictable (init 7 2) 3 true).currSize = (init 7 2).currSize ∧
    (setEvictable (init 7 2) 3 true).framesNew = [3] ∧
    (evict (setEvictable (init 7 2) 3 true)).map (fun p => p.1) = some 3 := by
  decide

/-- C5 amended: setting a not-yet-evictable frame with zero recorded accesses
to evictable is NOT a no-op: SetEvictable takes the generic flag-toggle path,
increments size, appends the frame to the young list, and if the young list
was empty a subsequent evict() returns exactly that frame. -/
theorem claim_C5_amended (s : State) (f : Nat) (hev : s.evictable f = false)
    (hcnt : s.accessCnt f = 0) (hk : 0 < s.k) :
    (setEvictable s f true).currSize = s.currSize + 1 ∧
    (setEvictable s f true).framesNew = s.framesNew ++ [f] ∧
    (s.framesNew = [] → ∃ s2, evict (setEvictable s f true) = some (f, s2)) := by
  have hlt : s.accessCnt f < s.k := by rw [hcnt]; exact hk
  have hne : ¬ s.evictable f = true := by rw [hev]; simp
  constructor
  · unfold setEvictable
    rw [if_neg hne, if_neg (by rw [hev]; simp), if_pos hlt]
  constructor
  · unfold setEvictable
    rw [if_neg hne, if_neg (by rw [hev]; simp), if_pos hlt]
  · intro hnil
    have h1 : (setEvictable s f true).framesNew = [f] := by
      unfold setEvictable
      rw [if_neg hne, if_neg (by rw [hev]; simp), if_pos hlt, hnil]
      rfl
    have h2 : (setEvictable s f true).currSize = s.currSize + 1 := by
      unfold setEvictable
      rw [if_neg hne, if_neg (by rw [hev]; simp), if_pos hlt]
    unfold evict
    rw [h2, if_neg (Nat.succ_ne_zero s.currSize), h1]
    exact ⟨_, rfl⟩

/-- C5 amended witness: the amended statement applied to the fresh replacer
and frame 3. -/
theorem claim_C5_amended_witness :
    (setEvictable (init 7 2) 3 true).currSize = (init 7 2).currSize + 1 ∧
    (setEvictable (init 7 2) 3 true).framesNew = (init 7 2).framesNew ++ [3] ∧
    ((init 7 2).framesNew = [] →
      ∃ s2, evict (setEvictable (init 7 2) 3 true) = some (3, s2)) :=
  claim_C5_amended (init 7 2) 3 (by decide) (by decide) (by decide)

end LRUK

/-! ## Extendible hash table, from src/container/hash/extendible_hash_table.cpp

Keys and values are specialised to Nat (matching the int,int instantiation);
std::hash is an explicit parameter of every operation (the identity on the
int instantiations of libstdc++).  Buckets are kept in a list; a directory
entry is an index into that list, which models the shared_ptr aliasing of
dir_ (two equal indices alias one bucket). -/

namespace EHT

structure Bucket where
  depth : Nat
  items : List (Nat × Nat)
  deriving DecidableEq

structure Table where
  globalDepth : Nat
  bucketSize : Nat
  numBuckets : Nat
  dir : List Nat
  buckets : List Bucket
  deriving DecidableEq

/-- Constructor: one empty bucket of local depth 0, global depth 0. -/
def init (bucketSize : Nat) : Table := ⟨0, bucketSize, 1, [0], [⟨0, []⟩]⟩

/-- IndexOf: mask the hash by 2^global_depth - 1. -/
def indexOf (hash : Nat → Nat) (t : Table) (key : Nat) : Nat :=
  hash key % 2 ^ t.globalDepth

def bucketAt (t : Table) (b : Nat) : Bucket := t.buckets.getD b ⟨0, []⟩

def dirAt (t : Table) (i : Nat) : Nat := t.dir.getD i 0

/-- Bucket::Find — linear scan over the first curr_size_ entries. -/
def bucketFind (items : List (Nat × Nat)) (key : Nat) : Option Nat :=
  (items.find? (fun p => p.1 == key)).map (fun p => p.2)

/-- The in-place value overwrite of Bucket::Insert on the first entry whose
key matches. -/
def overwriteFirst (key val : Nat) : List (Nat × Nat) → List (Nat × Nat)
  | [] => []
  | p :: ps => if p.1 == key then (p.1, val) :: ps else p :: overwriteFirst key val ps

/-- Bucket::Insert: overwrite an existing key in place, otherwise fail when
full, otherwise append at curr_size_.  The IsFull member is declared in a
header missing from the sources; modelled from the spec: a bucket has a
fixed capacity of bucket_size entries. -/
def bucketInsert (cap : Nat) (items : List (Nat × Nat)) (key val : Nat) :
    Option (List (Nat × Nat)) :=
  if items.any (fun p => p.1 == key) then some (overwriteFirst key val items)
  else if cap ≤ items.length then none
  else some (items ++ [(key, val)])

/-- Bucket::Remove: overwrite the found entry with the last one and shrink
curr_size_ by one. -/
def bucketRemove (items : List (Nat × Nat)) (key : Nat) :
    Option (List (Nat × Nat)) :=
  match items.findIdx? (fun p => p.1 == key) with
  | none => none
  | some i => some ((items.set i (items.getLast?.getD (0, 0))).dropLast)

/-- ExtendibleHashTable::Find via FindInternal. -/
def find (hash : Nat → Nat) (t : Table) (key : Nat) : Option Nat :=
  bucketFind (bucketAt t (dirAt t (indexOf hash t key))).items key

/-- ExtendibleHashTable::Remove via RemoveInternal. -/
def remove (hash : Nat → Nat) (t : Table) (key : Nat) : Bool × Table :=
  let b := dirAt t (indexOf hash t key)
  match bucketRemove (bucketAt t b).items key with
  | none => (false, t)
  | some items1 =>
    (true, { t with buckets := t.buckets.set b { bucketAt t b with items := items1 } })

/-- The swap-with-last partition loop of RedistributeBucket: index i scans
items_old; an entry whose masked hash equals index_new is appended to the new
bucket and its slot is overwritten by the current last entry.  The gas
argument only bounds the loop for structural recursion; every iteration
decreases old.length - i, so gas = old.length - i + 1 runs the C++ loop to
completion. -/
def redistLoop (pred : Nat → Bool) : Nat → Nat → List (Nat × Nat) →
    List (Nat × Nat) → List (Nat × Nat) × List (Nat × Nat)
  | 0, _, old, moved => (old, moved)
  | gas + 1, i, old, moved =>
    if h : i < old.length then
      let e := old.get ⟨i, h⟩
      if pred e.1 then
        redistLoop pred gas i ((old.set i (old.getLast?.getD e)).dropLast)
          (moved ++ [e])
      else
        redistLoop pred gas (i + 1) old moved
    else (old, moved)

/-- The state assembled at the end of RedistributeBucket: bucket bOld keeps
the entries r.1 at depth ld+1, a fresh bucket (index = old bucket count) gets
the moved entries r.2, and every directory slot congruent to index_old or
index_new modulo 2^(ld+1) is rewired. -/
def splitTable (t : Table) (bOld ld iO iN : Nat)
    (r : List (Nat × Nat) × List (Nat × Nat)) : Table :=
  { t with
    buckets := (t.buckets.set bOld ⟨ld + 1, r.1⟩) ++ [⟨ld + 1, r.2⟩]
    dir := (List.range t.dir.length).map (fun i =>
      if i % 2 ^ (ld + 1) = iO then bOld
      else if i % 2 ^ (ld + 1) = iN then t.buckets.length
      else dirAt t i)
    numBuckets := t.numBuckets + 1 }

/-- ExtendibleHashTable::RedistributeBucket. -/
def redistributeBucket (hash : Nat → Nat) (t : Table) (key : Nat) : Table :=
  let slot := indexOf hash t key
  let bOld := dirAt t slot
  let ld := (bucketAt t bOld).depth
  splitTable t bOld ld (slot % 2 ^ ld) (slot % 2 ^ ld + 2 ^ ld)
    (redistLoop (fun k => hash k % 2 ^ (ld + 1) == slot % 2 ^ ld + 2 ^ ld)
      ((bucketAt t bOld).items.length + 1) 0 (bucketAt t bOld).items [])

/-- The directory-doubling step of InsertInternal (global_depth_++ and slot
i + old_size initially mirrors slot i). -/
def doubleDir (t : Table) : Table :=
  { t with globalDepth := t.globalDepth + 1, dir := t.dir ++ t.dir }

/-- The while loop of InsertInternal, fuel-indexed; the C++ loop terminates
whenever finitely many redistributions separate the colliding keys, and on
such executions the model agrees for every sufficiently large fuel. -/
def insertLoop (hash : Nat → Nat) (fuel : Nat) (t : Table) (key val : Nat) :
    Option Table :=
  match fuel with
  | 0 => none
  | fuel + 1 =>
    let b := dirAt t (indexOf hash t key)
    match bucketInsert t.bucketSize (bucketAt t b).items key val with
    | some items1 =>
      some { t with buckets := t.buckets.set b { bucketAt t b with items := items1 } }
    | none =>
      let t1 := if t.globalDepth = (bucketAt t b).depth then doubleDir t else t
      insertLoop hash fuel (redistributeBucket hash t1 key) key val

/-! ### The directory invariant of the extendible hash table

Inv strengthens the spec's §8 invariant just enough for induction: directory
length is 2^global_depth, every directory entry is a live bucket index, local
depths are bounded by the global depth, the slots referencing a bucket are
exactly one residue class modulo 2^local_depth, every bucket is referenced,
and no bucket exceeds its capacity. -/

def Inv (t : Table) : Prop :=
  t.dir.length = 2 ^ t.globalDepth ∧
  (∀ i < t.dir.length, dirAt t i < t.buckets.length) ∧
  (∀ i < t.dir.length, (bucketAt t (dirAt t i)).depth ≤ t.globalDepth) ∧
  (∀ i < t.dir.length, ∀ j < t.dir.length,
    (dirAt t j = dirAt t i ↔
      j % 2 ^ (bucketAt t (dirAt t i)).depth =
        i % 2 ^ (bucketAt t (dirAt t i)).depth)) ∧
  (∀ b < t.buckets.length, ∃ i, i < t.dir.length ∧ dirAt t i = b) ∧
  (∀ b < t.buckets.length, (bucketAt t b).items.length ≤ t.bucketSize)

instance (t : Table) : Decidable (Inv t) := by
  unfold Inv; infer_instance

theorem getD_map_range (n : Nat) (f : Nat → Nat) (i : Nat) (h : i < n) :
    (((List.range n).map f).getD i 0) = f i := by
  rw [List.getD_eq_getElem?_getD, List.getElem?_map, List.getElem?_range h]
  rfl

theorem getD_append_left {α : Type} (l l2 : List α) (d : α) (i : Nat)
    (h : i < l.length) : (l ++ l2).getD i d = l.getD i d := by
  rw [List.getD_eq_getElem?_getD, List.getElem?_append_left h,
    List.getD_eq_getElem?_getD]

theorem getD_append_right {α : Type} (l l2 : List α) (d : α) (i : Nat)
    (h : l.length ≤ i) : (l ++ l2).getD i d = l2.getD (i - l.length) d := by
  rw [List.getD_eq_getElem?_getD, List.getElem?_append_right h,
    List.getD_eq_getElem?_getD]

theorem getD_set_self {α : Type} (l : List α) (b : Nat) (x d : α)
    (h : b < l.length) : (l.set b x).getD b d = x := by
  rw [List.getD_eq_getElem?_getD, List.getElem?_set_eq_of_lt x h]
  rfl

theorem getD_set_other {α : Type} (l : List α) (b c : Nat) (x d : α)
    (hne : b ≠ c) : (l.set b x).getD c d = l.getD c d := by
  rw [List.getD_eq_getElem?_getD, List.getElem?_set_ne hne,
    List.getD_eq_getElem?_getD]

/-- Value overwrite keeps the entry count. -/
theorem overwriteFirst_length (key val : Nat) (l : List (Nat × Nat)) :
    (overwriteFirst key val l).length = l.length := by
  induction l with
  | nil => rfl
  | cons p ps ih =>
    unfold overwriteFirst
    by_cases h : p.1 == key
    · rw [if_pos h]; simp
    · rw [if_neg h]; simpa using ih

/-- After overwriting, the linear scan returns the new value. -/
theorem bucketFind_overwriteFirst (key val : Nat) (l : List (Nat × Nat))
    (h : l.any (fun p => p.1 == key) = true) :
    bucketFind (overwriteFirst key val l) key = some val := by
  induction l with
  | nil => simp at h
  | cons p ps ih =>
    unfold overwriteFirst bucketFind
    by_cases hp : p.1 == key
    · rw [if_pos hp]
      simp only [List.find?_cons, hp]
      rfl
    · rw [if_neg hp]
      simp only [List.find?_cons, Bool.of_not_eq_true hp]
      have hps : ps.any (fun p => p.1 == key) = true := by
        simpa [List.any_cons, hp] using h
      exact ih hps

/-- A successful Find certifies the key scan of Bucket::Insert. -/
theorem any_of_bucketFind (l : List (Nat × Nat)) (key v : Nat)
    (h : bucketFind l key = some v) : l.any (fun p => p.1 == key) = true := by
  unfold bucketFind at h
  rcases hf : l.find? (fun p => p.1 == key) with _ | p
  · rw [hf] at h; simp at h
  · have h1 : (p.1 == key) = true := by
      have h := List.find?_some hf
      simpa using h
    have h2 : p ∈ l := List.mem_of_find?_eq_some hf
    exact List.any_eq_true.mpr ⟨p, h2, h1⟩

theorem redistLoop_lengths (pred : Nat → Bool) :
    ∀ (gas i : Nat) (old moved : List (Nat × Nat)),
      (redistLoop pred gas i old moved).1.length ≤ old.length ∧
      (redistLoop pred gas i old moved).2.length ≤
        moved.length + (old.length - i) := by
  intro gas
  induction gas with
  | zero =>
    intro i old moved
    simp [redistLoop]
  | succ gas ih =>
    intro i old moved
    rw [redistLoop]
    by_cases h : i < old.length
    · rw [dif_pos h]
      by_cases hp : pred (old.get ⟨i, h⟩).1
      · rw [if_pos hp]
        have hlen : ((old.set i (old.getLast?.getD (old.get ⟨i, h⟩))).dropLast).length
            = old.length - 1 := by
          simp
        have hx := ih i ((old.set i (old.getLast?.getD (old.get ⟨i, h⟩))).dropLast)
          (moved ++ [old.get ⟨i, h⟩])
        rw [hlen] at hx
        constructor
        · exact le_trans hx.1 (by omega)
        · refine le_trans hx.2 ?_
          simp only [List.length_append, List.length_cons, List.length_nil]
          omega
      · rw [if_neg hp]
        have hx := ih (i + 1) old moved
        exact ⟨hx.1, le_trans hx.2 (by omega)⟩
    · rw [dif_neg h]
      simp

theorem mod_pow_mod (x ld : Nat) : x % 2 ^ (ld + 1) % 2 ^ ld = x % 2 ^ ld :=
  Nat.mod_mod_of_dvd x (pow_dvd_pow 2 (Nat.le_succ ld))

/-- A residue class modulo 2^ld splits into exactly two classes modulo
2^(ld+1). -/
theorem mod_succ_cases (x iO ld : Nat) (hiO : iO < 2 ^ ld) :
    x % 2 ^ ld = iO ↔
      (x % 2 ^ (ld + 1) = iO ∨ x % 2 ^ (ld + 1) = iO + 2 ^ ld) := by
  have hpow : 0 < 2 ^ ld := Nat.pos_pow_of_pos ld (by norm_num)
  constructor
  · intro h
    have h2 := mod_pow_mod x ld
    rw [h] at h2
    have hy : x % 2 ^ (ld + 1) < 2 ^ (ld + 1) :=
      Nat.mod_lt _ (Nat.pos_pow_of_pos (ld + 1) (by norm_num))
    rw [pow_succ] at hy
    by_cases hc : x % 2 ^ (ld + 1) < 2 ^ ld
    · left; rw [Nat.mod_eq_of_lt hc] at h2; exact h2
    · right
      push_neg at hc
      rw [Nat.mod_eq_sub_mod hc] at h2
      have hlt : x % 2 ^ (ld + 1) - 2 ^ ld < 2 ^ ld := by omega
      rw [Nat.mod_eq_of_lt hlt] at h2
      omega
  · intro h
    have h2 := mod_pow_mod x ld
    rcases h with h | h
    · rw [h, Nat.mod_eq_of_lt hiO] at h2; exact h2.symm
    · rw [h, Nat.add_mod_right, Nat.mod_eq_of_lt hiO] at h2; exact h2.symm

/-- Replacing the entries of one live bucket (keeping its depth) preserves
the directory invariant as long as the new entry list is within capacity. -/
theorem Inv_updateItems (t : Table) (b : Nat) (items1 : List (Nat × Nat))
    (hInv : Inv t) (hb : b < t.buckets.length)
    (hlen : items1.length ≤ t.bucketSize) :
    Inv { t with buckets := t.buckets.set b { bucketAt t b with items := items1 } } := by
  obtain ⟨h1, h2, h3, h4, h5, h6⟩ := hInv
  set t' := { t with buckets := t.buckets.set b { bucketAt t b with items := items1 } }
    with ht'
  have hlenB : t'.buckets.length = t.buckets.length := by
    simp [ht']
  have hdepthEq : ∀ c, (bucketAt t' c).depth = (bucketAt t c).depth := by
    intro c
    by_cases hc : b = c
    · subst hc
      show ((t.buckets.set b _).getD b _).depth = _
      rw [getD_set_self _ _ _ _ hb]
    · show ((t.buckets.set b _).getD c _).depth = _
      rw [getD_set_other _ _ _ _ _ hc]
      rfl
  have hdir : t'.dir = t.dir := rfl
  have hdirAt : ∀ i, dirAt t' i = dirAt t i := fun _ => rfl
  refine ⟨h1, ?_, ?_, ?_, ?_, ?_⟩
  · intro i hi
    rw [hdirAt, hlenB]
    exact h2 i hi
  · intro i hi
    rw [hdirAt, hdepthEq]
    exact h3 i hi
  · intro i hi j hj
    rw [hdirAt, hdirAt, hdepthEq]
    exact h4 i hi j hj
  · intro c hc
    rw [hlenB] at hc
    obtain ⟨i, hilt, hie⟩ := h5 c hc
    exact ⟨i, hilt, hie⟩
  · intro c hc
    rw [hlenB] at hc
    by_cases hbc : b = c
    · subst hbc
      show ((t.buckets.set b _).getD b _).items.length ≤ _
      rw [getD_set_self _ _ _ _ hb]
      exact hlen
    · show ((t.buckets.set b _).getD c _).items.length ≤ _
      rw [getD_set_other _ _ _ _ _ hbc]
      exact h6 c hc

/-- The doubled directory reads back through the low global_depth bits: slot
i of dir_ ++ dir_ holds what slot i mod old-size held. -/
theorem dirAt_doubleDir (t : Table) (i : Nat) (hpos : 0 < t.dir.length)
    (hi : i < 2 * t.dir.length) :
    dirAt (doubleDir t) i = dirAt t (i % t.dir.length) := by
  by_cases hc : i < t.dir.length
  · unfold dirAt doubleDir
    rw [getD_append_left _ _ _ _ hc, Nat.mod_eq_of_lt hc]
  · push_neg at hc
    unfold dirAt doubleDir
    rw [getD_append_right _ _ _ _ hc, Nat.mod_eq_sub_mod hc,
      Nat.mod_eq_of_lt (by omega)]

/-- Directory doubling preserves the invariant. -/
theorem Inv_doubleDir (t : Table) (hInv : Inv t) : Inv (doubleDir t) := by
  obtain ⟨h1, h2, h3, h4, h5, h6⟩ := hInv
  have hpos : 0 < t.dir.length := by
    rw [h1]; exact Nat.pos_pow_of_pos _ (by norm_num)
  have hlen2 : (doubleDir t).dir.length = 2 * t.dir.length := by
    simp [doubleDir, Nat.two_mul]
  have hAt : ∀ i, i < 2 * t.dir.length →
      dirAt (doubleDir t) i = dirAt t (i % t.dir.length) :=
    fun i hi => dirAt_doubleDir t i hpos hi
  have hbk : ∀ c, bucketAt (doubleDir t) c = bucketAt t c := fun _ => rfl
  have hmlt : ∀ i : Nat, i % t.dir.length < t.dir.length :=
    fun i => Nat.mod_lt _ hpos
  refine ⟨?_, ?_, ?_, ?_, ?_, ?_⟩
  · rw [hlen2, h1]
    show 2 * 2 ^ t.globalDepth = 2 ^ (t.globalDepth + 1)
    rw [pow_succ]; ring
  · intro i hi
    rw [hlen2] at hi
    rw [hAt i hi]
    exact h2 _ (hmlt i)
  · intro i hi
    rw [hlen2] at hi
    rw [hAt i hi, hbk]
    exact le_trans (h3 _ (hmlt i)) (Nat.le_succ _)
  · intro i hi j hj
    rw [hlen2] at hi hj
    rw [hAt i hi, hAt j hj, hbk]
    have hd := h3 _ (hmlt i)
    obtain ⟨k, hk⟩ : 2 ^ (bucketAt t (dirAt t (i % t.dir.length))).depth ∣
        2 ^ t.globalDepth := pow_dvd_pow 2 hd
    have hdvd : 2 ^ (bucketAt t (dirAt t (i % t.dir.length))).depth ∣ t.dir.length :=
      ⟨k, h1.trans hk⟩
    rw [h4 _ (hmlt i) _ (hmlt j)]
    rw [Nat.mod_mod_of_dvd j hdvd, Nat.mod_mod_of_dvd i hdvd]
  · intro c hc
    obtain ⟨i, hilt, hie⟩ := h5 c hc
    refine ⟨i, by omega, ?_⟩
    rw [hAt i (by omega), Nat.mod_eq_of_lt hilt]
    exact hie
  · intro c hc
    rw [hbk]
    exact h6 c hc

/-- The bucket split and directory rewiring of RedistributeBucket preserve
the invariant whenever the split bucket's local depth is strictly below the
global depth (guaranteed by the doubling step of InsertInternal). -/
theorem Inv_splitTable (t : Table) (slot bOld ld iO iN : Nat)
    (r : List (Nat × Nat) × List (Nat × Nat)) (hInv : Inv t)
    (hslot : slot < t.dir.length)
    (hbOld : dirAt t slot = bOld)
    (hldE : (bucketAt t bOld).depth = ld)
    (hiOE : slot % 2 ^ ld = iO)
    (hiNE : iO + 2 ^ ld = iN)
    (hld : ld < t.globalDepth)
    (hr1 : r.1.length ≤ (bucketAt t bOld).items.length)
    (hr2 : r.2.length ≤ (bucketAt t bOld).items.length) :
    Inv (splitTable t bOld ld iO iN r) := by
  obtain ⟨h1, h2, h3, h4, h5, h6⟩ := hInv
  have hbOldLt : bOld < t.buckets.length := hbOld ▸ h2 slot hslot
  have hpow : 0 < 2 ^ ld := Nat.pos_pow_of_pos ld (by norm_num)
  have hiOlt : iO < 2 ^ ld := by rw [← hiOE]; exact Nat.mod_lt slot hpow
  have hiNlt : iN < 2 ^ (ld + 1) := by rw [← hiNE, pow_succ]; omega
  have hiONe : iO ≠ iN := by omega
  have hMle : 2 ^ (ld + 1) ≤ t.dir.length := by
    rw [h1]; exact Nat.pow_le_pow_right (by norm_num) hld
  have holdIff : ∀ i, i < t.dir.length → (dirAt t i = bOld ↔ i % 2 ^ ld = iO) := by
    intro i hi
    have h := h4 slot hslot i hi
    rw [hbOld, hldE, hiOE] at h
    exact h
  have hsplit2 : ∀ i : Nat,
      i % 2 ^ ld = iO ↔ (i % 2 ^ (ld + 1) = iO ∨ i % 2 ^ (ld + 1) = iN) := by
    intro i
    rw [← hiNE]
    exact mod_succ_cases i iO ld hiOlt
  set t' := splitTable t bOld ld iO iN r with ht'
  have hdirLen : t'.dir.length = t.dir.length := by
    simp [ht', splitTable]
  have hgd : t'.globalDepth = t.globalDepth := rfl
  have hbksLen : t'.buckets.length = t.buckets.length + 1 := by
    simp [ht', splitTable]
  have hAt : ∀ i, i < t.dir.length → dirAt t' i =
      (if i % 2 ^ (ld + 1) = iO then bOld
       else if i % 2 ^ (ld + 1) = iN then t.buckets.length
       else dirAt t i) := by
    intro i hi
    show ((List.range t.dir.length).map _).getD i 0 = _
    rw [getD_map_range _ _ i hi]
  have hbAtOld : bucketAt t' bOld = ⟨ld + 1, r.1⟩ := by
    show ((t.buckets.set bOld _) ++ _).getD bOld _ = _
    rw [getD_append_left _ _ _ _ (by rw [List.length_set]; exact hbOldLt),
      getD_set_self _ _ _ _ hbOldLt]
  have hbAtNew : bucketAt t' t.buckets.length = ⟨ld + 1, r.2⟩ := by
    show ((t.buckets.set bOld _) ++ _).getD t.buckets.length _ = _
    rw [getD_append_right _ _ _ _ (le_of_eq (List.length_set _ _ _)),
      List.length_set, Nat.sub_self]
    rfl
  have hbAtOther : ∀ c, c < t.buckets.length → c ≠ bOld →
      bucketAt t' c = bucketAt t c := by
    intro c hc hne
    show ((t.buckets.set bOld _) ++ _).getD c _ = _
    rw [getD_append_left _ _ _ _ (by rw [List.length_set]; exact hc),
      getD_set_other _ _ _ _ _ (Ne.symm hne)]
    rfl
  have hNotbNew : ∀ i, i < t.dir.length → dirAt t i ≠ t.buckets.length :=
    fun i hi => Nat.ne_of_lt (h2 i hi)
  have hbOldNe : bOld ≠ t.buckets.length := Nat.ne_of_lt hbOldLt
  have hAtbOld : ∀ j, j < t.dir.length →
      (dirAt t' j = bOld ↔ j % 2 ^ (ld + 1) = iO) := by
    intro j hj
    rw [hAt j hj]
    constructor
    · intro h
      split_ifs at h with hc1 hc2
      · exact hc1
      · exact absurd h.symm hbOldNe
      · rcases (hsplit2 j).mp ((holdIff j hj).mp h) with hx | hx
        exacts [absurd hx hc1, absurd hx hc2]
    · intro h
      rw [if_pos h]
  have hAtbNew : ∀ j, j < t.dir.length →
      (dirAt t' j = t.buckets.length ↔ j % 2 ^ (ld + 1) = iN) := by
    intro j hj
    rw [hAt j hj]
    constructor
    · intro h
      split_ifs at h with hc1 hc2
      · exact absurd h hbOldNe
      · exact hc2
      · exact absurd h (hNotbNew j hj)
    · intro h
      have hne1 : ¬ j % 2 ^ (ld + 1) = iO := by
        rw [h]; exact fun hx => hiONe hx.symm
      rw [if_neg hne1, if_pos h]
  have hAtKeep : ∀ j, j < t.dir.length → ¬ j % 2 ^ (ld + 1) = iO →
      ¬ j % 2 ^ (ld + 1) = iN → dirAt t' j = dirAt t j := by
    intro j hj hn1 hn2
    rw [hAt j hj, if_neg hn1, if_neg hn2]
  have hKeepNe : ∀ j, j < t.dir.length → ¬ j % 2 ^ (ld + 1) = iO →
      ¬ j % 2 ^ (ld + 1) = iN → dirAt t j ≠ bOld := by
    intro j hj hn1 hn2 hcon
    rcases (hsplit2 j).mp ((holdIff j hj).mp hcon) with hx | hx
    exacts [hn1 hx, hn2 hx]
  refine ⟨?_, ?_, ?_, ?_, ?_, ?_⟩
  · rw [hdirLen, hgd]; exact h1
  · intro i hi
    rw [hdirLen] at hi
    rw [hAt i hi, hbksLen]
    split_ifs with hc1 hc2
    · omega
    · omega
    · exact lt_trans (h2 i hi) (Nat.lt_succ_self _)
  · intro i hi
    rw [hdirLen] at hi
    rw [hAt i hi, hgd]
    split_ifs with hc1 hc2
    · rw [hbAtOld]; exact hld
    · rw [hbAtNew]; exact hld
    · rw [hbAtOther _ (h2 i hi) (hKeepNe i hi hc1 hc2)]
      exact h3 i hi
  · intro i hi j hj
    rw [hdirLen] at hi hj
    by_cases hciO : i % 2 ^ (ld + 1) = iO
    · have e1 : dirAt t' i = bOld := (hAtbOld i hi).mpr hciO
      rw [e1, hbAtOld]
      show dirAt t' j = bOld ↔ j % 2 ^ (ld + 1) = i % 2 ^ (ld + 1)
      rw [hciO]
      exact hAtbOld j hj
    · by_cases hciN : i % 2 ^ (ld + 1) = iN
      · have e1 : dirAt t' i = t.buckets.length := (hAtbNew i hi).mpr hciN
        rw [e1, hbAtNew]
        show dirAt t' j = t.buckets.length ↔ j % 2 ^ (ld + 1) = i % 2 ^ (ld + 1)
        rw [hciN]
        exact hAtbNew j hj
      · have e1 : dirAt t' i = dirAt t i := hAtKeep i hi hciO hciN
        have hne : dirAt t i ≠ bOld := hKeepNe i hi hciO hciN
        rw [e1, hbAtOther _ (h2 i hi) hne]
        constructor
        · intro h
          by_cases hj1 : j % 2 ^ (ld + 1) = iO
          · exact absurd (((hAtbOld j hj).mpr hj1).symm.trans h)
              (fun hx => hne hx.symm)
          · by_cases hj2 : j % 2 ^ (ld + 1) = iN
            · exact absurd (((hAtbNew j hj).mpr hj2).symm.trans h).symm
                (hNotbNew i hi)
            · rw [hAtKeep j hj hj1 hj2] at h
              exact (h4 i hi j hj).mp h
        · intro h
          have hdj : dirAt t j = dirAt t i := (h4 i hi j hj).mpr h
          have hjne1 : ¬ j % 2 ^ (ld + 1) = iO := by
            intro hx
            exact hne (hdj ▸ (holdIff j hj).mpr ((hsplit2 j).mpr (Or.inl hx)))
          have hjne2 : ¬ j % 2 ^ (ld + 1) = iN := by
            intro hx
            exact hne (hdj ▸ (holdIff j hj).mpr ((hsplit2 j).mpr (Or.inr hx)))
          rw [hAtKeep j hj hjne1 hjne2]
          exact hdj
  · intro c hc
    rw [hbksLen] at hc
    by_cases hcb : c = bOld
    · subst hcb
      refine ⟨iO, ?_, ?_⟩
      · rw [hdirLen]; calc iO < 2 ^ ld := hiOlt
          _ < 2 ^ (ld + 1) := Nat.pow_lt_pow_right (by norm_num) (Nat.lt_succ_self ld)
          _ ≤ t.dir.length := hMle
      · exact (hAtbOld iO (by
          calc iO < 2 ^ ld := hiOlt
            _ < 2 ^ (ld + 1) := Nat.pow_lt_pow_right (by norm_num) (Nat.lt_succ_self ld)
            _ ≤ t.dir.length := hMle)).mpr
          (Nat.mod_eq_of_lt (by
            calc iO < 2 ^ ld := hiOlt
              _ < 2 ^ (ld + 1) := Nat.pow_lt_pow_right (by norm_num) (Nat.lt_succ_self ld)))
    · by_cases hcn : c = t.buckets.length
      · subst hcn
        refine ⟨iN, ?_, ?_⟩
        · rw [hdirLen]; omega
        · exact (hAtbNew iN (by omega)).mpr (Nat.mod_eq_of_lt hiNlt)
      · have hclt : c < t.buckets.length := by omega
        obtain ⟨i, hilt, hie⟩ := h5 c hclt
        have hine1 : ¬ i % 2 ^ (ld + 1) = iO := by
          intro hx
          exact hcb (hie.symm.trans ((holdIff i hilt).mpr ((hsplit2 i).mpr (Or.inl hx))))
        have hine2 : ¬ i % 2 ^ (ld + 1) = iN := by
          intro hx
          exact hcb (hie.symm.trans ((holdIff i hilt).mpr ((hsplit2 i).mpr (Or.inr hx))))
        refine ⟨i, by rw [hdirLen]; exact hilt, ?_⟩
        rw [hAtKeep i hilt hine1 hine2]
        exact hie
  · intro c hc
    rw [hbksLen] at hc
    show (bucketAt t' c).items.length ≤ t.bucketSize
    by_cases hcb : c = bOld
    · subst hcb
      rw [hbAtOld]
      exact le_trans hr1 (h6 _ hbOldLt)
    · by_cases hcn : c = t.buckets.length
      · subst hcn
        rw [hbAtNew]
        exact le_trans hr2 (h6 _ hbOldLt)
      · rw [hbAtOther c (by omega) hcb]
        exact h6 c (by omega)

theorem indexOf_lt_dirLength (hash : Nat → Nat) (t : Table) (key : Nat)
    (h1 : t.dir.length = 2 ^ t.globalDepth) :
    indexOf hash t key < t.dir.length := by
  rw [h1]
  exact Nat.mod_lt _ (Nat.pos_pow_of_pos _ (by norm_num))

/-- RedistributeBucket preserves the invariant when the local depth at the
key's slot is strictly below the global depth. -/
theorem Inv_redistributeBucket (hash : Nat → Nat) (t : Table) (key : Nat)
    (hInv : Inv t)
    (hld : (bucketAt t (dirAt t (indexOf hash t key))).depth < t.globalDepth) :
    Inv (redistributeBucket hash t key) := by
  have hslot : indexOf hash t key < t.dir.length :=
    indexOf_lt_dirLength hash t key hInv.1
  have hr := redistLoop_lengths
    (fun k => hash k % 2 ^ ((bucketAt t (dirAt t (indexOf hash t key))).depth + 1) ==
      indexOf hash t key % 2 ^ (bucketAt t (dirAt t (indexOf hash t key))).depth +
        2 ^ (bucketAt t (dirAt t (indexOf hash t key))).depth)
    ((bucketAt t (dirAt t (indexOf hash t key))).items.length + 1) 0
    (bucketAt t (dirAt t (indexOf hash t key))).items []
  exact Inv_splitTable t (indexOf hash t key) _ _ _ _ _ hInv hslot rfl rfl rfl rfl
    hld hr.1 (by simpa using hr.2)

/-- InsertInternal preserves the invariant: induction over the fuel of the
retry loop. -/
theorem Inv_insertLoop (hash : Nat → Nat) :
    ∀ (fuel : Nat) (t t1 : Table) (key val : Nat), Inv t →
      insertLoop hash fuel t key val = some t1 → Inv t1 := by
  intro fuel
  induction fuel with
  | zero =>
    intro t t1 key val _ h
    simp [insertLoop] at h
  | succ fuel ih =>
    intro t t1 key val hInv h
    rw [insertLoop] at h
    have hslot : indexOf hash t key < t.dir.length :=
      indexOf_lt_dirLength hash t key hInv.1
    have hblt : dirAt t (indexOf hash t key) < t.buckets.length :=
      hInv.2.1 _ hslot
    cases hbi : bucketInsert t.bucketSize
        (bucketAt t (dirAt t (indexOf hash t key))).items key val with
    | some items1 =>
      rw [hbi] at h
      simp only [Option.some.injEq] at h
      subst h
      have hlen : items1.length ≤ t.bucketSize := by
        unfold bucketInsert at hbi
        split_ifs at hbi with ha hf
        · simp only [Option.some.injEq] at hbi
          subst hbi
          rw [overwriteFirst_length]
          exact hInv.2.2.2.2.2 _ hblt
        · simp only [Option.some.injEq] at hbi
          subst hbi
          simp only [List.length_append, List.length_cons, List.length_nil]
          omega
      exact Inv_updateItems t _ items1 hInv hblt hlen
    | none =>
      rw [hbi] at h
      by_cases hgd : t.globalDepth = (bucketAt t (dirAt t (indexOf hash t key))).depth
      · rw [if_pos hgd] at h
        have hInv1 : Inv (doubleDir t) := Inv_doubleDir t hInv
        have hld : (bucketAt (doubleDir t)
            (dirAt (doubleDir t) (indexOf hash (doubleDir t) key))).depth <
            (doubleDir t).globalDepth := by
          have hpos : 0 < t.dir.length := by
            rw [hInv.1]; exact Nat.pos_pow_of_pos _ (by norm_num)
          have hi2 : indexOf hash (doubleDir t) key < 2 * t.dir.length := by
            have := indexOf_lt_dirLength hash (doubleDir t) key hInv1.1
            have hlen2 : (doubleDir t).dir.length = 2 * t.dir.length := by
              simp [doubleDir, Nat.two_mul]
            omega
          rw [dirAt_doubleDir t _ hpos hi2]
          have hmod : indexOf hash (doubleDir t) key % t.dir.length =
              indexOf hash t key := by
            show hash key % 2 ^ (t.globalDepth + 1) % t.dir.length = _
            rw [hInv.1]
            exact mod_pow_mod (hash key) t.globalDepth
          rw [hmod]
          show (bucketAt t (dirAt t (indexOf hash t key))).depth < t.globalDepth + 1
          omega
        exact ih (redistributeBucket hash (doubleDir t) key) t1 key val
          (Inv_redistributeBucket hash (doubleDir t) key hInv1 hld) h
      · rw [if_neg hgd] at h
        have hle := hInv.2.2.1 _ hslot
        have hld : (bucketAt t (dirAt t (indexOf hash t key))).depth <
            t.globalDepth := by omega
        exact ih (redistributeBucket hash t key) t1 key val
          (Inv_redistributeBucket hash t key hInv hld) h

/-- Remove preserves the invariant. -/
theorem Inv_remove (hash : Nat → Nat) (t : Table) (key : Nat) (hInv : Inv t) :
    Inv (remove hash t key).2 := by
  cases hbr : bucketRemove (bucketAt t (dirAt t (indexOf hash t key))).items key with
  | none =>
    have heq : (remove hash t key).2 = t := by
      simp [remove, hbr]
    rw [heq]
    exact hInv
  | some items1 =>
    have hslot : indexOf hash t key < t.dir.length :=
      indexOf_lt_dirLength hash t key hInv.1
    have hblt : dirAt t (indexOf hash t key) < t.buckets.length :=
      hInv.2.1 _ hslot
    have hlen : items1.length ≤ t.bucketSize := by
      unfold bucketRemove at hbr
      cases hfi : (bucketAt t (dirAt t (indexOf hash t key))).items.findIdx?
          (fun p => p.1 == key) with
      | none => rw [hfi] at hbr; simp at hbr
      | some i =>
        rw [hfi] at hbr
        simp only [Option.some.injEq] at hbr
        subst hbr
        simp only [List.length_dropLast, List.length_set]
        exact le_trans (Nat.sub_le _ _) (hInv.2.2.2.2.2 _ hblt)
    have heq : (remove hash t key).2 = { t with
        buckets := t.buckets.set (dirAt t (indexOf hash t key))
          { bucketAt t (dirAt t (indexOf hash t key)) with items := items1 } } := by
      simp [remove, hbr]
    rw [heq]
    exact Inv_updateItems t _ items1 hInv hblt hlen

/-- The freshly constructed table satisfies the invariant. -/
theorem Inv_init (c : Nat) : Inv (init c) := by
  refine ⟨rfl, ?_, ?_, ?_, ?_, ?_⟩
  · intro i hi
    have hi1 : i = 0 := by simp [init] at hi; omega
    subst hi1
    simp [init, dirAt]
  · intro i hi
    have hi1 : i = 0 := by simp [init] at hi; omega
    subst hi1
    simp [init, dirAt, bucketAt]
  · intro i hi j hj
    have hi1 : i = 0 := by simp [init] at hi; omega
    have hj1 : j = 0 := by simp [init] at hj; omega
    subst hi1; subst hj1
    simp
  · intro b hb
    have hb1 : b = 0 := by simp [init] at hb; omega
    subst hb1
    exact ⟨0, by simp [init], rfl⟩
  · intro b hb
    have hb1 : b = 0 := by simp [init] at hb; omega
    subst hb1
    simp [init, bucketAt]

/-- Tables reachable through the public operations (the constructor, any
completed Insert, any Remove; Find does not modify the state). -/
inductive Reach (hash : Nat → Nat) : Table → Prop
  | init (c : Nat) : Reach hash (init c)
  | insert {t t1 : Table} (fuel key val : Nat) : Reach hash t →
      insertLoop hash fuel t key val = some t1 → Reach hash t1
  | remove {t : Table} (key : Nat) : Reach hash t → Reach hash (remove hash t key).2

theorem Inv_reach (hash : Nat → Nat) (t : Table) (h : Reach hash t) : Inv t := by
  induction h with
  | init c => exact Inv_init c
  | insert fuel key val _ heq ih => exact Inv_insertLoop hash fuel _ _ key val ih heq
  | remove key _ ih => exact Inv_remove hash _ key ih

/-- The three directory properties asserted by the spec's invariant section,
exactly as the claim states them. -/
def DirProps (t : Table) : Prop :=
  (∀ i < t.dir.length, ∀ j < t.dir.length,
    i % 2 ^ (bucketAt t (dirAt t i)).depth = j % 2 ^ (bucketAt t (dirAt t i)).depth →
    dirAt t i = dirAt t j) ∧
  (∀ b < t.buckets.length, (bucketAt t b).depth ≤ t.globalDepth) ∧
  (∀ b < t.buckets.length, (bucketAt t b).items.length ≤ t.bucketSize)

theorem DirProps_of_Inv (t : Table) (hInv : Inv t) : DirProps t := by
  obtain ⟨h1, h2, h3, h4, h5, h6⟩ := hInv
  refine ⟨?_, ?_, h6⟩
  · intro i hi j hj h
    exact ((h4 i hi j hj).mpr h.symm).symm
  · intro b hb
    obtain ⟨i, hilt, hie⟩ := h5 b hb
    have h := h3 i hilt
    rw [hie] at h
    exact h

/-- C6: on every table reachable from the constructor through completed
Insert, Remove and Find calls (Find never modifies the state), congruent
directory slots modulo 2^(local depth of the bucket at the slot) share the
bucket, every bucket's local depth is at most the global depth, and every
bucket holds at most bucket_size entries. -/
theorem claim_C6 (hash : Nat → Nat) (t : Table) (hreach : Reach hash t) :
    DirProps t :=
  DirProps_of_Inv t (Inv_reach hash t hreach)

/-- Concrete table for the C6/C10 witnesses: bucket_size 2, identity hash,
keys 1 and 2 inserted (one full bucket). -/
def witTable : Table :=
  (insertLoop (fun n => n) 4
    ((insertLoop (fun n => n) 4 (init 2) 1 101).getD (init 2)) 2 102).getD (init 2)

theorem witTable_reach : Reach (fun n => n) witTable := by
  have h0 : Reach (fun n => n) (init 2) := Reach.init 2
  have h1 : insertLoop (fun n => n) 4 (init 2) 1 101 =
      some ((insertLoop (fun n => n) 4 (init 2) 1 101).getD (init 2)) := by decide
  have h2 : insertLoop (fun n => n) 4
      ((insertLoop (fun n => n) 4 (init 2) 1 101).getD (init 2)) 2 102 =
      some witTable := by decide
  exact Reach.insert 4 2 102 (Reach.insert 4 1 101 h0 h1) h2

/-- C6 witness: the directory properties on the table obtained by inserting
keys 1, 2, 3 into a fresh bucket_size-2 table (which forces one split). -/
theorem claim_C6_witness :
    DirProps ((insertLoop (fun n => n) 4 witTable 3 103).getD (init 2)) :=
  claim_C6 (fun n => n) _
    (Reach.insert 4 3 103 witTable_reach (by decide))

/-- The table InsertInternal produces when the key is already present: only
the value inside the key's bucket is overwritten. -/
def overwriteTable (hash : Nat → Nat) (t : Table) (key val : Nat) : Table :=
  let b := dirAt t (indexOf hash t key)
  { t with buckets :=
      t.buckets.set b { bucketAt t b with items := overwriteFirst key val (bucketAt t b).items } }

/-- C10: inserting a key that is already present always succeeds in one
iteration of the InsertInternal loop by overwriting the stored value in
place, even if the bucket is full; no split or directory doubling happens:
global depth, bucket count and every bucket's entry count are unchanged, and
a subsequent Find returns the new value. -/
theorem claim_C10 (hash : Nat → Nat) (t : Table) (key val v0 : Nat)
    (hfind : find hash t key = some v0) :
    ∀ fuel, ∃ t1, insertLoop hash (fuel + 1) t key val = some t1 ∧
      t1.globalDepth = t.globalDepth ∧
      t1.numBuckets = t.numBuckets ∧
      t1.buckets.length = t.buckets.length ∧
      (∀ b, (bucketAt t1 b).items.length = (bucketAt t b).items.length) ∧
      find hash t1 key = some val := by
  intro fuel
  have hany : ((bucketAt t (dirAt t (indexOf hash t key))).items.any
      (fun p => p.1 == key)) = true :=
    any_of_bucketFind _ _ _ hfind
  have hb : dirAt t (indexOf hash t key) < t.buckets.length := by
    by_contra hbn
    push_neg at hbn
    have hdf : bucketAt t (dirAt t (indexOf hash t key)) = ⟨0, []⟩ :=
      List.getD_eq_default _ _ hbn
    rw [hdf] at hany
    simp at hany
  have hbi : bucketInsert t.bucketSize
      (bucketAt t (dirAt t (indexOf hash t key))).items key val =
      some (overwriteFirst key val (bucketAt t (dirAt t (indexOf hash t key))).items) := by
    unfold bucketInsert
    rw [if_pos hany]
  refine ⟨overwriteTable hash t key val, ?_, rfl, rfl, ?_, ?_, ?_⟩
  · rw [insertLoop, hbi]
    unfold overwriteTable
    rfl
  · unfold overwriteTable
    show (t.buckets.set _ _).length = t.buckets.length
    simp
  · intro b
    unfold overwriteTable
    by_cases hbb : dirAt t (indexOf hash t key) = b
    · subst hbb
      show ((t.buckets.set _ _).getD _ _).items.length = _
      rw [getD_set_self _ _ _ _ hb]
      exact overwriteFirst_length _ _ _
    · show ((t.buckets.set _ _).getD _ _).items.length = _
      rw [getD_set_other _ _ _ _ _ hbb]
      rfl
  · unfold overwriteTable
    show bucketFind ((t.buckets.set _ _).getD (dirAt t (indexOf hash t key)) _).items
      key = some val
    rw [getD_set_self _ _ _ _ hb]
    exact bucketFind_overwriteFirst key val _ hany

/-- C10 witness: overwriting key 1 in the full bucket of the concrete table
with bucket_size 2 holding keys 1 and 2. -/
theorem claim_C10_witness :
    ∃ t1, insertLoop (fun n => n) (0 + 1) witTable 1 999 = some t1 ∧
      t1.globalDepth = witTable.globalDepth ∧
      t1.numBuckets = witTable.numBuckets ∧
      t1.buckets.length = witTable.buckets.length ∧
      (∀ b, (bucketAt t1 b).items.length = (bucketAt witTable b).items.length) ∧
      find (fun n => n) t1 1 = some 999 :=
  claim_C10 (fun n => n) witTable 1 999 101 (by decide) 0

end EHT

/-! ## Lock manager, from src/concurrency/lock_manager.cpp

CheckLockModeLegal is a pure decision over the transaction's isolation level,
phase, the resource type, the requested mode and which table locks the
transaction already holds on the oid; a thrown TransactionAbortException
becomes `some reason`, falling through becomes `none`.  The deadlock
detector's DFS and HasCycle are embedded with the waits-for graph as an
adjacency function plus the sorted not_visited list. -/

namespace LockMgr

inductive LockMode
  | S | X | IS | IX | SIX
  deriving DecidableEq, Fintype

inductive IsoLevel
  | repeatableRead | readCommitted | readUncommitted
  deriving DecidableEq, Fintype

inductive TxnState
  | growing | shrinking | aborted | committed
  deriving DecidableEq, Fintype

inductive ResType
  | table | row
  deriving DecidableEq, Fintype

inductive AbortReason
  | lockOnShrinking | lockSharedOnReadUncommitted | upgradeConflict
  | incompatibleUpgrade | tableUnlockedBeforeUnlockingRows
  | attemptedUnlockButNoLockHeld | attemptedIntentionLockOnRow
  | tableLockNotPresent
  deriving DecidableEq, Fintype

/-- Which table locks the transaction already holds on the requested oid
(the IsTable...Locked membership tests). -/
structure TableLocks where
  holdsS : Bool
  holdsX : Bool
  holdsIS : Bool
  holdsIX : Bool
  holdsSIX : Bool
  deriving DecidableEq, Fintype

/-- LockManager::CheckLockModeLegal: each sequential throw-if becomes a
nested branch returning the abort reason. -/
def checkLockModeLegal (iso : IsoLevel) (st : TxnState) (rt : ResType)
    (lm : LockMode) (tl : TableLocks) : Option AbortReason :=
  if rt = ResType.row ∧ ¬ (lm = LockMode.S ∨ lm = LockMode.X) then
    some AbortReason.attemptedIntentionLockOnRow
  else if rt = ResType.row ∧ lm = LockMode.S ∧
      ¬ (tl.holdsIS ∨ tl.holdsIX ∨ tl.holdsS ∨ tl.holdsX ∨ tl.holdsSIX) then
    some AbortReason.tableLockNotPresent
  else if rt = ResType.row ∧ lm = LockMode.X ∧
      ¬ (tl.holdsIX ∨ tl.holdsX ∨ tl.holdsSIX) then
    some AbortReason.tableLockNotPresent
  else
    match iso with
    | IsoLevel.repeatableRead =>
      if st = TxnState.shrinking then some AbortReason.lockOnShrinking else none
    | IsoLevel.readCommitted =>
      if st = TxnState.shrinking ∧ ¬ (lm = LockMode.S ∨ lm = LockMode.IS) then
        some AbortReason.lockOnShrinking
      else none
    | IsoLevel.readUncommitted =>
      if st = TxnState.growing then
        if ¬ (lm = LockMode.X ∨ lm = LockMode.IX) then
          some AbortReason.lockSharedOnReadUncommitted
        else none
      else some AbortReason.lockOnShrinking

/-- C7 counterexample: a table S request under READ_UNCOMMITTED in the
SHRINKING phase aborts with LOCK_ON_SHRINKING, not with
LOCK_SHARED_ON_READ_UNCOMMITTED as the claim asserts for every phase; and a
row IS request aborts with ATTEMPTED_INTENTION_LOCK_ON_ROW even in GROWING. -/
theorem claim_C7_counterexample :
    checkLockModeLegal IsoLevel.readUncommitted TxnState.shrinking
      ResType.table LockMode.S ⟨false, false, false, false, false⟩ =
      some AbortReason.lockOnShrinking ∧
    some AbortReason.lockOnShrinking ≠
      some AbortReason.lockSharedOnReadUncommitted ∧
    checkLockModeLegal IsoLevel.readUncommitted TxnState.growing
      ResType.row LockMode.IS ⟨false, false, true, false, false⟩ =
      some AbortReason.attemptedIntentionLockOnRow := by
  decide

/-- C7 amended: under READ_UNCOMMITTED every S/IS/SIX request aborts the
transaction, and every request in a non-GROWING phase aborts; the reason is
LOCK_SHARED_ON_READ_UNCOMMITTED exactly in the GROWING phase for table-level
S/IS/SIX requests and for row-level S requests made while some table lock on
the oid is held (so the row checks pass).  The other aborts come first in
code order: a row intention request (IS/IX/SIX) aborts with
ATTEMPTED_INTENTION_LOCK_ON_ROW, a row S/X request without the required
table lock with TABLE_LOCK_NOT_PRESENT, and otherwise any request in a
non-GROWING phase with LOCK_ON_SHRINKING. -/
theorem claim_C7_amended (st : TxnState) (rt : ResType) (lm : LockMode)
    (tl : TableLocks) :
    ((lm = LockMode.S ∨ lm = LockMode.IS ∨ lm = LockMode.SIX) →
      (checkLockModeLegal IsoLevel.readUncommitted st rt lm tl).isSome = true) ∧
    (¬ st = TxnState.growing →
      (checkLockModeLegal IsoLevel.readUncommitted st rt lm tl).isSome = true) ∧
    (checkLockModeLegal IsoLevel.readUncommitted st rt lm tl =
        some AbortReason.lockSharedOnReadUncommitted ↔
      st = TxnState.growing ∧
      ((rt = ResType.table ∧
          (lm = LockMode.S ∨ lm = LockMode.IS ∨ lm = LockMode.SIX)) ∨
       (rt = ResType.row ∧ lm = LockMode.S ∧
          (tl.holdsIS ∨ tl.holdsIX ∨ tl.holdsS ∨ tl.holdsX ∨ tl.holdsSIX)))) := by
  refine ⟨?_, ?_, ?_⟩
  · revert st rt lm tl
    decide
  · revert st rt lm tl
    decide
  · obtain ⟨a, b, c, d, e⟩ := tl
    cases st <;> cases rt <;> cases lm <;> cases a <;> cases b <;> cases c <;> cases d <;>
      cases e <;> decide

/-- C7 amended witness: the amended statement at concrete inputs — a table
SIX request in GROWING aborts with LOCK_SHARED_ON_READ_UNCOMMITTED, and so
does a row S request in GROWING with an IX table lock held. -/
theorem claim_C7_amended_witness :
    checkLockModeLegal IsoLevel.readUncommitted TxnState.growing
      ResType.table LockMode.SIX ⟨false, false, false, false, false⟩ =
      some AbortReason.lockSharedOnReadUncommitted ∧
    checkLockModeLegal IsoLevel.readUncommitted TxnState.growing
      ResType.row LockMode.S ⟨false, false, false, true, false⟩ =
      some AbortReason.lockSharedOnReadUncommitted :=
  ⟨((claim_C7_amended TxnState.growing ResType.table LockMode.SIX
      ⟨false, false, false, false, false⟩).2.2).mpr
      ⟨rfl, Or.inl ⟨rfl, Or.inr (Or.inr rfl)⟩⟩,
   ((claim_C7_amended TxnState.growing ResType.row LockMode.S
      ⟨false, false, false, true, false⟩).2.2).mpr
      ⟨rfl, Or.inr ⟨rfl, rfl, by decide⟩⟩⟩

/-! ### Deadlock detection (DFS, HasCycle) -/

/-- The cycle walk inside DFS: starting from max_txn = stop and
next = path[stop], take the maximum of the ids encountered until the walk
returns to stop.  The fuel only serves structural recursion; the chain the
DFS builds returns to stop within path.length steps. -/
def chase (path : List (Nat × Nat)) : Nat → Nat → Nat → Nat → Nat
  | 0, _, _, acc => acc
  | fuel + 1, stop, next, acc =>
    if next = stop then acc
    else chase path fuel stop ((path.lookup next).getD 0) (max acc next)

/-- LockManager::DFS.  path maps each stacked node to the successor chosen
under it (path[curr] = neighbor before recursing); not_visited is threaded
through like the by-reference std::set.  The neighbor loop is a fold whose
accumulator short-circuits once a victim is found, mirroring the early
return.  A failed recursive call leaves path unchanged (the C++ callee
erases its own entry), so passing path by value is faithful. -/
def dfsNode (adj : Nat → List Nat) : Nat → Nat → List (Nat × Nat) →
    List Nat → Option Nat × List Nat
  | 0, _, _, nv => (none, nv)
  | fuel + 1, curr, path, nv =>
    let nv1 := nv.erase curr
    match path.lookup curr with
    | some nx => (some (chase path (path.length + 1) curr nx curr), nv1)
    | none =>
      (adj curr).foldl
        (fun acc nb =>
          match acc with
          | (some t, nv2) => (some t, nv2)
          | (none, nv2) => dfsNode adj fuel nb ((curr, nb) :: path) nv2)
        (none, nv1)

/-- LockManager::HasCycle: DFS from the smallest not-yet-visited node
(head of the ascending not_visited list) until a cycle is found or every
node has been visited. -/
def hasCycle (adj : Nat → List Nat) (dfsFuel : Nat) : Nat → List Nat → Option Nat
  | 0, _ => none
  | _ + 1, [] => none
  | fuel + 1, n :: rest =>
    match dfsNode adj dfsFuel n [] (n :: rest) with
    | (some t, _) => some t
    | (none, nv2) => hasCycle adj dfsFuel fuel nv2

/-- The two-transaction deadlock of the spec: T1 waits for T2, T2 waits
for T1. -/
def twoCycleAdj : Nat → List Nat := fun n =>
  if n = 1 then [2] else if n = 2 then [1] else []

/-! ### The DFS victim is the largest transaction id on the found cycle

The DFS stack is described by chainPairs c s: the current node is c and
s = [a0, a1, ...] lists the stacked nodes top-first; path holds the pairs
(a0, c), (a1, a0), ... recording the successor chosen under each stacked
node.  EdgesOK states each recorded successor is a graph edge; a cycle
through c with body u is a chain u0 → c, u1 → u0, ... closed by
c → u.getLast. -/

def chainPairs (c : Nat) : List Nat → List (Nat × Nat)
  | [] => []
  | p :: rest => (p, c) :: chainPairs p rest

def EdgesOK (adj : Nat → List Nat) : Nat → List Nat → Prop
  | _, [] => True
  | c, p :: rest => c ∈ adj p ∧ EdgesOK adj p rest

/-- A directed cycle of the waits-for graph through c0 with body u:
edges u0 → c0, u1 → u0, ..., and the closing edge c0 → last of u (for empty
u this is the self-loop c0 → c0).  Its set of nodes is c0 :: u. -/
def IsCycleAt (adj : Nat → List Nat) (c0 : Nat) (u : List Nat) : Prop :=
  EdgesOK adj c0 u ∧ (u.getLastD c0) ∈ adj c0

/-- Lookup-chain walks: from start, following path.lookup visits w and
reaches stop. -/
inductive WalkSteps (path : List (Nat × Nat)) (stop : Nat) : Nat → List Nat → Prop
  | done : WalkSteps path stop stop []
  | step (x nx : Nat) (w : List Nat) : ¬ x = stop → path.lookup x = some nx →
      WalkSteps path stop nx w → WalkSteps path stop x (x :: w)

theorem chase_walkSteps (path : List (Nat × Nat)) (stop start : Nat)
    (w : List Nat) (hw : WalkSteps path stop start w) :
    ∀ fuel acc, w.length ≤ fuel →
      chase path fuel stop start acc = w.foldl max acc := by
  induction hw with
  | done =>
    intro fuel acc _
    cases fuel with
    | zero => rfl
    | succ fuel => rw [chase, if_pos rfl]; rfl
  | step x nx w hne hlook _ ih =>
    intro fuel acc hfuel
    cases fuel with
    | zero => simp at hfuel
    | succ fuel =>
      rw [chase, if_neg hne, hlook]
      simp only [Option.getD_some]
      have hlen : w.length ≤ fuel := by
        simp only [List.length_cons] at hfuel
        omega
      rw [ih fuel (max acc x) hlen]
      rfl

theorem chainPairs_length (c : Nat) (s : List Nat) :
    (chainPairs c s).length = s.length := by
  induction s generalizing c with
  | nil => rfl
  | cons p rest ih => simp [chainPairs, ih]

theorem lookup_chainPairs_none (c x : Nat) (s : List Nat) :
    (chainPairs c s).lookup x = none ↔ ¬ x ∈ s := by
  induction s generalizing c with
  | nil => simp [chainPairs]
  | cons p rest ih =>
    simp only [chainPairs, List.lookup, List.mem_cons]
    by_cases hp : p = x
    · subst hp
      simp
    · have hbe : (x == p) = false := by
        simp [Ne.symm hp]
      rw [hbe]
      simp only [ih]
      constructor
      · intro h hc
        rcases hc with hc | hc
        · exact hp hc.symm
        · exact h hc
      · intro h hc
        exact h (Or.inr hc)

theorem lookup_chainPairs_split (x : Nat) :
    ∀ (u : List Nat) (P : Nat) (v : List Nat), ¬ x ∈ u →
      (chainPairs P (u ++ x :: v)).lookup x = some (u.getLastD P) := by
  intro u
  induction u with
  | nil =>
    intro P v _
    simp [chainPairs, List.lookup]
  | cons a u' ih =>
    intro P v hx
    have hax : ¬ a = x := fun h => hx (by rw [h]; exact List.mem_cons_self x u')
    have hxa : ¬ x = a := fun h => hax h.symm
    have hbe : (x == a) = false := beq_eq_false_iff_ne.mpr hxa
    have hstep : (a :: u') ++ x :: v = a :: (u' ++ x :: v) := rfl
    rw [hstep]
    show ((a, P) :: chainPairs a (u' ++ x :: v)).lookup x = _
    simp only [List.lookup, hbe]
    rw [ih a v (fun h => hx (List.mem_cons_of_mem a h))]
    cases u' with
    | nil => rfl
    | cons b u'' =>
      show some ((b :: u'').getLastD a) = some ((a :: b :: u'').getLastD P)
      simp only [List.getLastD_cons]

theorem nodup_split_not_mem {x : Nat} :
    ∀ (u v : List Nat), (u ++ x :: v).Nodup → ¬ x ∈ u := by
  intro u v hnd hx
  rcases List.nodup_append.mp hnd with ⟨_, _, hdisj⟩
  exact hdisj hx (List.mem_cons_self x v)

theorem getLastD_reverse (l : List Nat) (d : Nat) :
    l.reverse.getLastD d = l.headD d := by
  cases l with
  | nil => rfl
  | cons a l' =>
    simp [List.getLastD_eq_getLast?, List.getLast?_reverse]

theorem walk_up (ccur : Nat) :
    ∀ (w rest s : List Nat), s = w.reverse ++ rest → s.Nodup → ¬ ccur ∈ w →
      WalkSteps (chainPairs ccur s) ccur (w.headD ccur) w := by
  intro w
  induction w with
  | nil =>
    intro rest s _ _ _
    exact WalkSteps.done
  | cons a w' ih =>
    intro rest s hs hnd hc
    have hs' : s = w'.reverse ++ a :: rest := by
      rw [hs]
      simp
    have hanotin : ¬ a ∈ w'.reverse := nodup_split_not_mem w'.reverse rest (hs' ▸ hnd)
    have hlook : (chainPairs ccur s).lookup a = some ((w'.reverse).getLastD ccur) := by
      rw [hs']
      exact lookup_chainPairs_split a w'.reverse ccur rest hanotin
    have hane : ¬ a = ccur := by
      intro h
      exact hc (by rw [← h]; exact List.mem_cons_self a w')
    have hrec := ih (a :: rest) s hs' hnd (fun h => hc (List.mem_cons_of_mem a h))
    rw [getLastD_reverse] at hlook
    exact WalkSteps.step a (w'.headD ccur) w' hane hlook hrec

theorem edges_split (adj : Nat → List Nat) (x : Nat) :
    ∀ (u : List Nat) (P : Nat) (v : List Nat),
      EdgesOK adj P (u ++ x :: v) →
      EdgesOK adj P u ∧ (u.getLastD P) ∈ adj x := by
  intro u
  induction u with
  | nil =>
    intro P v h
    exact ⟨trivial, h.1⟩
  | cons a u' ih =>
    intro P v h
    obtain ⟨h1, h2⟩ := h
    obtain ⟨h3, h4⟩ := ih a v h2
    exact ⟨⟨h1, h3⟩, by rw [List.getLastD_cons]; exact h4⟩

theorem foldl_max_mem : ∀ (w : List Nat) (a : Nat),
    w.foldl max a = a ∨ w.foldl max a ∈ w := by
  intro w
  induction w with
  | nil => intro a; exact Or.inl rfl
  | cons b w' ih =>
    intro a
    rcases ih (max a b) with h | h
    · simp only [List.foldl_cons]
      rw [h]
      rcases Nat.le_total a b with hab | hab
      · exact Or.inr (by rw [Nat.max_eq_right hab]; exact List.mem_cons_self b w')
      · exact Or.inl (Nat.max_eq_left hab)
    · exact Or.inr (List.mem_cons_of_mem b h)

theorem foldl_max_le : ∀ (w : List Nat) (a x : Nat), (x ≤ a ∨ x ∈ w) →
    x ≤ w.foldl max a := by
  intro w
  induction w with
  | nil =>
    intro a x h
    rcases h with h | h
    · exact h
    · exact absurd h (List.not_mem_nil x)
  | cons b w' ih =>
    intro a x h
    simp only [List.foldl_cons]
    rcases h with h | h
    · exact ih (max a b) x (Or.inl (le_trans h (Nat.le_max_left a b)))
    · rcases List.mem_cons.mp h with h | h
      · exact ih (max a b) x (Or.inl (by rw [h]; exact Nat.le_max_right a b))
      · exact ih (max a b) x (Or.inr h)

theorem foldl_some_keep (g : (Option Nat × List Nat) → Nat → (Option Nat × List Nat))
    (hg : ∀ t0 nvx nb, g (some t0, nvx) nb = (some t0, nvx)) :
    ∀ (l : List Nat) (t0 : Nat) (nvx : List Nat),
      l.foldl g (some t0, nvx) = (some t0, nvx) := by
  intro l
  induction l with
  | nil => intro t0 nvx; rfl
  | cons nb rest ih =>
    intro t0 nvx
    simp only [List.foldl_cons, hg]
    exact ih t0 nvx

theorem foldl_none_find (g : (Option Nat × List Nat) → Nat → (Option Nat × List Nat))
    (dstep : Nat → List Nat → Option Nat × List Nat)
    (hgSome : ∀ t0 nvx nb, g (some t0, nvx) nb = (some t0, nvx))
    (hgNone : ∀ nvx nb, g (none, nvx) nb = dstep nb nvx) :
    ∀ (l : List Nat) (nv0 : List Nat) (t : Nat) (nv2 : List Nat),
      l.foldl g (none, nv0) = (some t, nv2) →
      ∃ nb, nb ∈ l ∧ ∃ nvx nvy, dstep nb nvx = (some t, nvy) := by
  intro l
  induction l with
  | nil =>
    intro nv0 t nv2 h
    simp at h
  | cons nb rest ih =>
    intro nv0 t nv2 h
    simp only [List.foldl_cons, hgNone] at h
    cases hdr : dstep nb nv0 with
    | mk o nvr =>
      rw [hdr] at h
      cases o with
      | some t1 =>
        rw [foldl_some_keep g hgSome] at h
        have ht : t1 = t := by
          have h1 := congrArg Prod.fst h
          simpa using h1
        have hv : nvr = nv2 := by
          have h1 := congrArg Prod.snd h
          simpa using h1
        refine ⟨nb, List.mem_cons_self nb rest, nv0, nvr, ?_⟩
        rw [hdr, ht]
      | none =>
        obtain ⟨nb1, hmem, hrest⟩ := ih nvr t nv2 h
        exact ⟨nb1, List.mem_cons_of_mem nb hmem, hrest⟩

/-- Whenever the DFS of the deadlock detector reports a victim t from a
stack configuration chainPairs c s with recorded edges, t is the largest
transaction id on a genuine cycle of the waits-for graph. -/
theorem dfs_victim (adj : Nat → List Nat) :
    ∀ (fuel c : Nat) (s nv nv2 : List Nat) (t : Nat),
      EdgesOK adj c s → s.Nodup →
      dfsNode adj fuel c (chainPairs c s) nv = (some t, nv2) →
      ∃ c0 u, IsCycleAt adj c0 u ∧ t ∈ c0 :: u ∧ ∀ x ∈ c0 :: u, x ≤ t := by
  intro fuel
  induction fuel with
  | zero =>
    intro c s nv nv2 t _ _ h
    simp [dfsNode] at h
  | succ fuel ih =>
    intro c s nv nv2 t hedges hnd h
    rw [dfsNode] at h
    cases hlk : (chainPairs c s).lookup c with
    | some nx =>
      rw [hlk] at h
      simp only [Prod.mk.injEq, Option.some.injEq] at h
      have hmem : c ∈ s := by
        by_contra hcm
        rw [(lookup_chainPairs_none c c s).mpr hcm] at hlk
        exact Option.noConfusion hlk
      obtain ⟨u, v, hsplit⟩ := List.append_of_mem hmem
      have hcu : ¬ c ∈ u := nodup_split_not_mem u v (hsplit ▸ hnd)
      have hnx : nx = u.getLastD c := by
        have h2 := lookup_chainPairs_split c u c v hcu
        rw [← hsplit] at h2
        rw [h2] at hlk
        exact (Option.some.inj hlk).symm
      have hwalk : WalkSteps (chainPairs c s) c (u.reverse.headD c) u.reverse := by
        refine walk_up c u.reverse (c :: v) s ?_ hnd ?_
        · rw [List.reverse_reverse]; exact hsplit
        · intro hcc
          exact hcu (List.mem_reverse.mp hcc)
      have hstart : u.reverse.headD c = nx := by
        rw [hnx, ← getLastD_reverse u.reverse c, List.reverse_reverse]
      rw [hstart] at hwalk
      have hchase : chase (chainPairs c s) ((chainPairs c s).length + 1) c nx c =
          u.reverse.foldl max c := by
        refine chase_walkSteps _ c nx u.reverse hwalk _ c ?_
        rw [List.length_reverse, chainPairs_length, hsplit]
        simp only [List.length_append, List.length_cons]
        omega
      have hT : t = u.reverse.foldl max c := by
        rw [← h.1, hchase]
      obtain ⟨hEu, hclose⟩ := edges_split adj c u c v (hsplit ▸ hedges)
      refine ⟨c, u, ⟨hEu, hclose⟩, ?_, ?_⟩
      · rcases foldl_max_mem u.reverse c with hm | hm
        · rw [hT, hm]; exact List.mem_cons_self c u
        · rw [hT]
          exact List.mem_cons_of_mem c (List.mem_reverse.mp hm)
      · intro x hx
        rw [hT]
        rcases List.mem_cons.mp hx with hx | hx
        · exact foldl_max_le u.reverse c x (Or.inl (Nat.le_of_eq hx))
        · exact foldl_max_le u.reverse c x (Or.inr (List.mem_reverse.mpr hx))
    | none =>
      rw [hlk] at h
      have hcs : ¬ c ∈ s := (lookup_chainPairs_none c c s).mp hlk
      obtain ⟨nb, hnb, nvx, nvy, hcall⟩ :=
        foldl_none_find _
          (fun nb nvx => dfsNode adj fuel nb ((c, nb) :: chainPairs c s) nvx)
          (fun _ _ _ => rfl) (fun _ _ => rfl) (adj c) (nv.erase c) t nv2 h
      have hedges' : EdgesOK adj nb (c :: s) := ⟨hnb, hedges⟩
      have hnd' : (c :: s).Nodup := List.nodup_cons.mpr ⟨hcs, hnd⟩
      exact ih nb (c :: s) nvx nvy t hedges' hnd' hcall

/-- HasCycle reports only largest-on-cycle victims. -/
theorem hasCycle_victim (adj : Nat → List Nat) (dfsFuel : Nat) :
    ∀ (fuel : Nat) (nv : List Nat) (t : Nat),
      hasCycle adj dfsFuel fuel nv = some t →
      ∃ c0 u, IsCycleAt adj c0 u ∧ t ∈ c0 :: u ∧ ∀ x ∈ c0 :: u, x ≤ t := by
  intro fuel
  induction fuel with
  | zero =>
    intro nv t h
    simp [hasCycle] at h
  | succ fuel ih =>
    intro nv t h
    cases nv with
    | nil => simp [hasCycle] at h
    | cons n rest =>
      rw [hasCycle] at h
      cases hd : dfsNode adj dfsFuel n [] (n :: rest) with
      | mk o nv2 =>
        rw [hd] at h
        cases o with
        | some t1 =>
          simp only [Option.some.injEq] at h
          subst h
          exact dfs_victim adj dfsFuel n [] (n :: rest) nv2 t1
            trivial List.nodup_nil hd
        | none =>
          exact ih nv2 t h

/-- C8: whenever the deadlock detector's HasCycle finds a cycle, the victim
it reports (and which RunCycleDetection aborts) is the largest transaction
id on a cycle of the waits-for graph; in particular, for the two-transaction
deadlock with edges 1 → 2 and 2 → 1 the victim is transaction 2. -/
theorem claim_C8 :
    (∀ (adj : Nat → List Nat) (dfsFuel fuel : Nat) (nv : List Nat) (t : Nat),
      hasCycle adj dfsFuel fuel nv = some t →
      ∃ c0 u, IsCycleAt adj c0 u ∧ t ∈ c0 :: u ∧ ∀ x ∈ c0 :: u, x ≤ t) ∧
    hasCycle twoCycleAdj 10 5 [1, 2] = some 2 :=
  ⟨fun adj dfsFuel fuel nv t h => hasCycle_victim adj dfsFuel fuel nv t h,
   by decide⟩

/-- C8 witness: the general victim statement applied to the concrete
two-transaction deadlock. -/
theorem claim_C8_witness :
    ∃ c0 u, IsCycleAt twoCycleAdj c0 u ∧ 2 ∈ c0 :: u ∧ ∀ x ∈ c0 :: u, x ≤ 2 :=
  claim_C8.1 twoCycleAdj 10 5 [1, 2] 2 (by decide)

end LockMgr

/-! ## Buffer pool manager, from src/buffer/buffer_pool_manager_instance.cpp

Frames carry the per-Page metadata (page_id_, pin_count_, is_dirty_); page
bytes and disk contents are not modelled (FlushPgImp's write is represented
by clearing the dirty flag).  The resident-page map page_table_ is the
extendible hash table model above, keyed by page id with the identity
std::hash of int; DeallocatePage is recorded in a list so that C9 can state
that a missing page id is not deallocated. -/

namespace BPM

/-- std::hash for page_id_t (identity on integers in libstdc++). -/
def pageHash : Nat → Nat := fun n => n

structure Frame where
  pageId : Option Nat
  pinCount : Nat
  isDirty : Bool
  deriving DecidableEq

structure BPMState where
  poolSize : Nat
  frames : List Frame
  freeList : List Nat
  replacer : LRUK.State
  pageTable : EHT.Table
  nextPageId : Nat
  deallocated : List Nat

/-- Constructor: every frame invalid and unpinned, all frame ids pushed to
the free list in order, fresh replacer and page table.  The page table's
bucket_size_ constant lives in a header missing from src/; it is a
parameter here (the claims do not depend on it). -/
def mkBPM (poolSize k bucketSize : Nat) : BPMState :=
  ⟨poolSize, List.replicate poolSize ⟨none, 0, false⟩, List.range poolSize,
    LRUK.init poolSize k, EHT.init bucketSize, 0, []⟩

/-- Page-table insert with the fuel needed by the model's InsertInternal
loop; for identity-hashed distinct page ids the C++ loop always terminates,
and 64 iterations cover every split chain an int key set can force. -/
def pageTableInsert (t : EHT.Table) (k v : Nat) : EHT.Table :=
  (EHT.insertLoop pageHash 64 t k v).getD t

def defaultFrame : Frame := ⟨none, 0, false⟩

/-- BufferPoolManagerInstance::FlushPgImp (the disk write itself has no
observable effect in the model beyond clearing is_dirty_). -/
def flushPg (s : BPMState) (pid : Nat) : Bool × BPMState :=
  match EHT.find pageHash s.pageTable pid with
  | none => (false, s)
  | some fid =>
    let fr1 : Frame := { s.frames.getD fid defaultFrame with isDirty := false }
    (true, { s with frames := s.frames.set fid fr1 })

/-- The shared frame-acquisition step at the top of NewPgImp and the miss
path of FetchPgImp: pop the back of the free list, else ask the replacer
for a victim. -/
def acquireFrame (s : BPMState) : Option (Nat × BPMState) :=
  match s.freeList.getLast? with
  | some fid => some (fid, { s with freeList := s.freeList.dropLast })
  | none =>
    match LRUK.evict s.replacer with
    | none => none
    | some (fid, rep1) => some (fid, { s with replacer := rep1 })

/-- BufferPoolManagerInstance::NewPgImp. -/
def newPage (s : BPMState) : Option (Nat × BPMState) :=
  match acquireFrame s with
  | none => none
  | some (fid, s1) =>
    let rep2 := LRUK.setEvictable (LRUK.recordAccess s1.replacer fid) fid false
    let s2 : BPMState := { s1 with replacer := rep2 }
    let pid := s2.nextPageId
    let s3 : BPMState := { s2 with nextPageId := pid + 1 }
    let fr := s3.frames.getD fid defaultFrame
    let s4 := if fr.isDirty then
        match fr.pageId with
        | some op => (flushPg s3 op).2
        | none => s3
      else s3
    let s5 := match fr.pageId with
      | some op => { s4 with pageTable := (EHT.remove pageHash s4.pageTable op).2 }
      | none => s4
    let s6 : BPMState := { s5 with pageTable := pageTableInsert s5.pageTable pid fid }
    some (pid, { s6 with frames := s6.frames.set fid ⟨some pid, 1, false⟩ })

/-- BufferPoolManagerInstance::UnpinPgImp. -/
def unpinPage (s : BPMState) (pid : Nat) (dirty : Bool) : Bool × BPMState :=
  match EHT.find pageHash s.pageTable pid with
  | none => (false, s)
  | some fid =>
    let fr := s.frames.getD fid defaultFrame
    if fr.pinCount = 0 then (false, s)
    else
      let fr1 : Frame := { fr with isDirty := fr.isDirty || dirty,
                                   pinCount := fr.pinCount - 1 }
      let s1 : BPMState := { s with frames := s.frames.set fid fr1 }
      if fr1.pinCount = 0 then
        (true, { s1 with replacer := LRUK.setEvictable s1.replacer fid true })
      else (true, s1)

/-- BufferPoolManagerInstance::DeletePgImp. -/
def deletePage (s : BPMState) (pid : Nat) : Bool × BPMState :=
  match EHT.find pageHash s.pageTable pid with
  | none => (true, s)
  | some fid =>
    let fr := s.frames.getD fid defaultFrame
    if 0 < fr.pinCount then (false, s)
    else
      let s1 : BPMState := { s with replacer := LRUK.remove s.replacer fid }
      let s2 : BPMState := { s1 with pageTable := (EHT.remove pageHash s1.pageTable pid).2 }
      let s3 : BPMState := { s2 with deallocated := s2.deallocated ++ [pid] }
      (true, { s3 with frames := s3.frames.set fid defaultFrame,
                       freeList := s3.freeList ++ [fid] })

/-! ### C3 and C9 -/

/-- The §8.1 boundary scenario: pool_size 3, k 2 (page-table bucket size 4,
irrelevant to the claims). -/
def c3s0 : BPMState := mkBPM 3 2 4

def c3r1 : Nat × BPMState := (newPage c3s0).getD (99, c3s0)

def c3r2 : Nat × BPMState := (newPage c3r1.2).getD (99, c3s0)

def c3r3 : Nat × BPMState := (newPage c3r2.2).getD (99, c3s0)

def c3u : Bool × BPMState := unpinPage c3r3.2 c3r1.1 false

def c3r5 : Nat × BPMState := (newPage c3u.2).getD (99, c3s0)

theorem acquireFrame_none_iff (s : BPMState) :
    acquireFrame s = none ↔ (s.freeList = [] ∧ LRUK.evict s.replacer = none) := by
  unfold acquireFrame
  cases hfl : s.freeList.getLast? with
  | some fid =>
    have hne : ¬ s.freeList = [] := by
      intro hn
      rw [hn] at hfl
      exact Option.noConfusion hfl
    exact ⟨fun h => by simp at h, fun h => absurd h.1 hne⟩
  | none =>
    have hfe : s.freeList = [] := by
      cases hl : s.freeList with
      | nil => rfl
      | cons a l' =>
        rw [hl] at hfl
        rw [List.getLast?_eq_getLast _ (by simp)] at hfl
        exact Option.noConfusion hfl
    cases hev : LRUK.evict s.replacer with
    | none => exact ⟨fun _ => ⟨hfe, rfl⟩, fun _ => rfl⟩
    | some pr =>
      obtain ⟨fid, rep1⟩ := pr
      exact ⟨fun h => by simp at h, fun h => Option.noConfusion h.2⟩

theorem newPage_none_iff_acquire (s : BPMState) :
    newPage s = none ↔ acquireFrame s = none := by
  unfold newPage
  cases hac : acquireFrame s with
  | none => exact ⟨fun _ => rfl, fun _ => rfl⟩
  | some pr =>
    obtain ⟨fid, s1⟩ := pr
    exact ⟨fun h => by simp at h, fun h => Option.noConfusion h⟩

/-- C3: with pool_size 3 and k 2, three new_page calls succeed and pin each
returned frame with count 1; the fourth returns none; after
unpin_page(pid1, false) one further new_page succeeds and pid1 is gone from
the resident-page map.  In general new_page returns none exactly when the
free list is empty and the replacer has no evictable frame. -/
theorem claim_C3 :
    ((newPage c3s0).isSome = true ∧
      (newPage c3r1.2).isSome = true ∧
      (newPage c3r2.2).isSome = true ∧
      c3r3.2.frames.map (fun f => f.pinCount) = [1, 1, 1] ∧
      (newPage c3r3.2).isNone = true ∧
      c3u.1 = true ∧
      (newPage c3u.2).isSome = true ∧
      EHT.find pageHash c3r5.2.pageTable c3r1.1 = none) ∧
    (∀ s : BPMState, newPage s = none ↔
      (s.freeList = [] ∧ LRUK.evict s.replacer = none)) := by
  constructor
  · exact ⟨by decide, by decide, by decide, by decide, by decide, by decide,
      by decide, by decide⟩
  · intro s
    exact (newPage_none_iff_acquire s).trans (acquireFrame_none_iff s)

/-- C3 witness: the general exhaustion criterion applied to the fully
pinned scenario state. -/
theorem claim_C3_witness :
    newPage c3r3.2 = none ↔
      (c3r3.2.freeList = [] ∧ LRUK.evict c3r3.2.replacer = none) :=
  claim_C3.2 c3r3.2

/-- C9: deleting a page id that is not in the resident-page map returns
true and leaves the whole buffer pool state unchanged: frames, free list,
replacer, resident map and the record of deallocated page ids are exactly
those of the input state. -/
theorem claim_C9 (s : BPMState) (pid : Nat)
    (h : EHT.find pageHash s.pageTable pid = none) :
    deletePage s pid = (true, s) := by
  unfold deletePage
  rw [h]

/-- C9 witness: deleting the never-allocated page id 77 on the fresh pool. -/
theorem claim_C9_witness : deletePage c3s0 77 = (true, c3s0) :=
  claim_C9 c3s0 77 (by decide)

end BPM

/-! ## B+Tree index, from src/storage/index/b_plus_tree.cpp and the leaf /
internal page implementations

Pages live in a list indexed by page id (NewPage appends; header-page
bookkeeping is the headerRoot field).  Keys and values are Nat (GenericKey
with the integer comparator / RID).  Latching, unpinning and the
re-descending of the pessimistic path have no functional content in a
single-threaded run and are dropped; every data manipulation follows the
source.  This repository's b_plus_tree_page.{h,cpp} is not under src/, so
IsFull, GetMinSize and Downflow are modelled from the spec (see the
individual doc comments); note also that IsRootPage() is used by this
repository's descent code to mean "is an internal page". -/

namespace BPT

inductive BNode
  | leaf (items : List (Nat × Nat)) (next : Option Nat) (parent : Option Nat)
      (maxSize : Nat)
  | internal (items : List (Nat × Nat)) (parent : Option Nat) (maxSize : Nat)
  deriving DecidableEq

structure Tree where
  pages : List BNode
  root : Option Nat
  headerRoot : Option Nat
  leafMaxSize : Nat
  internalMaxSize : Nat
  deriving DecidableEq

/-- Modelled from the spec: GetMinSize of the missing b_plus_tree_page
header; §3.5 sets min_size = ⌈max_size/2⌉. -/
def minSizeOf (maxSize : Nat) : Nat := (maxSize + 1) / 2

def BNode.parentOf : BNode → Option Nat
  | BNode.leaf _ _ p _ => p
  | BNode.internal _ p _ => p

def mkTree (leafMax internalMax : Nat) : Tree := ⟨[], none, none, leafMax, internalMax⟩

def setNode (t : Tree) (pid : Nat) (n : BNode) : Tree :=
  { t with pages := t.pages.set pid n }

/-- SetParentPageId on the node stored at pid. -/
def setParent (t : Tree) (pid : Nat) (newParent : Option Nat) : Tree :=
  match t.pages.get? pid with
  | some (BNode.leaf items nx _ m) => setNode t pid (BNode.leaf items nx newParent m)
  | some (BNode.internal items _ m) => setNode t pid (BNode.internal items newParent m)
  | none => t

/-! ### Leaf page operations (b_plus_tree_leaf_page.cpp) -/

/-- LeafPage::GetValue: linear scan for the first equal key. -/
def leafGetValue (items : List (Nat × Nat)) (key : Nat) : Option Nat :=
  (items.find? (fun p => p.1 == key)).map (fun p => p.2)

/-- The backward shifting loop of InsertKV viewed on the reversed entry
list: shift entries with larger keys up, place e after the last entry with
key ≤ e. -/
def insRevAux (e : Nat × Nat) : List (Nat × Nat) → List (Nat × Nat)
  | [] => [e]
  | x :: xs => if e.1 < x.1 then x :: insRevAux e xs else e :: x :: xs

/-- LeafPage::InsertKV: fails on a full page (IsFull is modelled from the
spec as size = max_size, matching the optimistic-path guard
GetSize() < GetMaxSize()-1 and SplitPage's use of a full node) and on a
duplicate key; otherwise the ordered insert. -/
def leafInsertKV (maxSize : Nat) (items : List (Nat × Nat)) (key val : Nat) :
    Option (List (Nat × Nat)) :=
  if items.length = maxSize then none
  else if items.any (fun p => p.1 == key) then none
  else some ((insRevAux (key, val) items.reverse).reverse)

/-- LeafPage::RemoveKey: shift-erase the first entry carrying the key. -/
def leafRemoveKey (key : Nat) : List (Nat × Nat) → Bool × List (Nat × Nat)
  | [] => (false, [])
  | x :: xs =>
    if x.1 == key then (true, xs)
    else
      let r := leafRemoveKey key xs
      (r.1, x :: r.2)

/-! ### Internal page operations (b_plus_tree_internal_page.cpp) -/

/-- The scanning loop of InternalPage::GetValue from index 1: the child
left of the first separator exceeding the key, defaulting to the last
child. -/
def interGo (key : Nat) (prev : Nat × Nat) : List (Nat × Nat) → Nat
  | [] => prev.2
  | y :: ys => if key < y.1 then prev.2 else interGo key y ys

/-- InternalPage::GetValue (none only on a malformed empty node). -/
def interGetValue (items : List (Nat × Nat)) (key : Nat) : Option Nat :=
  match items with
  | [] => none
  | x :: xs => some (interGo key x xs)

/-- InternalPage::InsertKV: the same backward shifting with position 0
pinned.  none covers the full case and the size-0 case (the C++ then
writes beyond the live area; internal InsertKV is only invoked on nodes
holding at least one entry). -/
def interInsertKV (maxSize : Nat) (items : List (Nat × Nat)) (key child : Nat) :
    Option (List (Nat × Nat)) :=
  if items.length = maxSize then none
  else
    match items with
    | [] => none
    | x0 :: rest => some (x0 :: (insRevAux (key, child) rest.reverse).reverse)

/-- InternalPage::FindValue: index of the child page id, -1 becomes none. -/
def interFindValue (items : List (Nat × Nat)) (child : Nat) : Option Nat :=
  items.findIdx? (fun p => p.2 == child)

/-- InternalPage::RemoveKV(index): shift-left removal; out-of-range is a
no-op returning false. -/
def interRemoveKV (items : List (Nat × Nat)) (idx : Nat) : List (Nat × Nat) :=
  if idx < items.length then items.eraseIdx idx else items

/-- InternalPage::GetSibling: neighbours of the child in the parent's item
array (when the child id is absent the C++ scan ends at index = size and
reports the last child as left sibling; mirrored faithfully). -/
def interGetSibling (items : List (Nat × Nat)) (child : Nat) :
    Option Nat × Option Nat :=
  let index := (interFindValue items child).getD items.length
  (if 0 < index then some ((items.getD (index - 1) (0, 0)).2) else none,
   if index + 1 < items.length then some ((items.getD (index + 1) (0, 0)).2) else none)

/-- InternalPage::SetKeyAt. -/
def setKeyAt (items : List (Nat × Nat)) (idx : Nat) (key : Nat) :
    List (Nat × Nat) :=
  items.set idx (key, (items.getD idx (0, 0)).2)

/-! ### Tree operations (b_plus_tree.cpp) -/

def Tree.getNode (t : Tree) (pid : Nat) : Option BNode := t.pages.get? pid

/-- The shared descent of GetLeafPageOptimistic / GetLeafPagePessimistic:
at an internal page follow InternalPage::GetValue, stop at a leaf.  Fuel
bounds the recursion; treeFuel t always suffices on well-formed trees
(height is at most the page count). -/
def descend (t : Tree) (key : Nat) : Nat → Nat → Option Nat
  | 0, _ => none
  | fuel + 1, pid =>
    match t.getNode pid with
    | some (BNode.internal items _ _) =>
      match interGetValue items key with
      | none => none
      | some child => descend t key fuel child
    | some (BNode.leaf _ _ _ _) => some pid
    | none => none

def treeFuel (t : Tree) : Nat := t.pages.length + 1

/-- BPlusTree::CreateTree: allocate one empty leaf as root and publish it
in the header page. -/
def createTree (t : Tree) : Tree :=
  if t.root.isSome then t
  else
    let pid := t.pages.length
    { t with pages := t.pages ++ [BNode.leaf [] none none t.leafMaxSize],
             root := some pid, headerRoot := some pid }

/-- BPlusTree::GetValue. -/
def getValue (t : Tree) (key : Nat) : Option Nat :=
  match t.root with
  | none => none
  | some rootId =>
    match descend t key (treeFuel t) rootId with
    | none => none
    | some lid =>
      match t.getNode lid with
      | some (BNode.leaf items _ _ _) => leafGetValue items key
      | _ => none

/-- The internal-node split inside SplitPage's parent loop (lines 455-507):
mid = (size+1)/2; if the pushed key exceeds the last separator it becomes
the new node's last item, otherwise the last item moves and the key is
inserted in order; the new node receives the tail, the split node keeps
max-mid+1 items. -/
def splitInternalItems (maxSz : Nat) (items : List (Nat × Nat)) (key child : Nat) :
    List (Nat × Nat) × List (Nat × Nat) :=
  let mid := (items.length + 1) / 2
  if (items.getD (maxSz - 1) (0, 0)).1 < key then
    (items.take (maxSz - mid + 1), items.drop (maxSz - mid + 1) ++ [(key, child)])
  else
    let pitems1 := items.dropLast
    let pitems2 := (interInsertKV maxSz pitems1 key child).getD pitems1
    (pitems2.take (maxSz - mid + 1),
     pitems2.drop (maxSz - mid + 1) ++ [items.getD (maxSz - 1) (0, 0)])

/-- The bottom-up loop of SplitPage: push the separator key for newChild
into parentId, splitting internal nodes as needed; at INVALID parent a new
internal root (key 0 of a freshly created root is never read; 0 here) is
allocated and published. -/
def propagate (t : Tree) : Nat → Option Nat → Nat → Nat → Nat → Tree
  | 0, _, _, _, _ => t
  | fuel + 1, parentId, key, oldChild, newChild =>
    match parentId with
    | none =>
      let rid := t.pages.length
      let t1 := { t with pages := t.pages ++
          [BNode.internal [(0, oldChild), (key, newChild)] none t.internalMaxSize] }
      let t2 := setParent t1 oldChild (some rid)
      let t3 := setParent t2 newChild (some rid)
      { t3 with root := some rid, headerRoot := some rid }
    | some pid =>
      match t.getNode pid with
      | some (BNode.internal items pparent maxSz) =>
        if ¬ items.length = maxSz then
          match interInsertKV maxSz items key newChild with
          | some items1 =>
            setParent (setNode t pid (BNode.internal items1 pparent maxSz))
              newChild (some pid)
          | none => t
        else
          let r := splitInternalItems maxSz items key newChild
          let newInterId := t.pages.length
          let t1 := { t with pages := t.pages ++
              [BNode.internal r.2 none t.internalMaxSize] }
          let t2 := setNode t1 pid (BNode.internal r.1 pparent maxSz)
          let t3 := setParent t2 newChild (some pid)
          let t4 := r.2.foldl (fun acc p => setParent acc p.2 (some newInterId)) t3
          propagate t4 fuel pparent ((r.2.getD 0 (0, 0)).1) pid newInterId
      | _ => t

/-- BPlusTree::SplitPage on a full leaf: keep the first min_size entries,
move the rest to a fresh right leaf linked into the next chain, and push
the new leaf's first key up. -/
def splitPage (t : Tree) (fuel : Nat) (pid : Nat) : Tree :=
  match t.getNode pid with
  | some (BNode.leaf items next parent maxSz) =>
    let minSz := minSizeOf maxSz
    let keep := items.take minSz
    let moved := items.drop minSz
    let nid := t.pages.length
    let t1 := { t with pages := t.pages ++ [BNode.leaf moved next none t.leafMaxSize] }
    let t2 := setNode t1 pid (BNode.leaf keep (some nid) parent maxSz)
    propagate t2 fuel parent ((moved.getD 0 (0, 0)).1) pid nid
  | _ => t

/-- BPlusTree::Insert.  The optimistic path applies the insert when the
post-insert size stays below max_size (GetSize() < GetMaxSize()-1);
otherwise the pessimistic descent (which in a single-threaded run reaches
the same leaf) inserts and splits when the leaf is then full. -/
def insert (t0 : Tree) (key val : Nat) : Bool × Tree :=
  let t := if t0.root.isNone then createTree t0 else t0
  match t.root with
  | none => (false, t)
  | some rootId =>
    match descend t key (treeFuel t) rootId with
    | none => (false, t)
    | some lid =>
      match t.getNode lid with
      | some (BNode.leaf items next parent maxSz) =>
        if items.length < maxSz - 1 then
          match leafInsertKV maxSz items key val with
          | some items1 => (true, setNode t lid (BNode.leaf items1 next parent maxSz))
          | none => (false, t)
        else
          match leafInsertKV maxSz items key val with
          | none =>
            -- the C++ checks IsFull after InsertKV even when the insert
            -- failed, so a full leaf is split on a failed duplicate insert
            if items.length = maxSz then (false, splitPage t (treeFuel t) lid)
            else (false, t)
          | some items1 =>
            let t1 := setNode t lid (BNode.leaf items1 next parent maxSz)
            if items1.length = maxSz then (true, splitPage t1 (treeFuel t1) lid)
            else (true, t1)
      | _ => (false, t)

/-- BorrowFromSibling, left-sibling leaf and internal variants
(lines 691-777). -/
def borrowLeft (t : Tree) (pid ppid lsid : Nat) : Option Tree :=
  match t.getNode pid, t.getNode lsid, t.getNode ppid with
  | some (BNode.leaf items next parent maxSz),
    some (BNode.leaf litems lnext lparent lmax),
    some (BNode.internal pitems pparent pmax) =>
    if minSizeOf lmax < litems.length then
      let last := litems.getD (litems.length - 1) (0, 0)
      let items1 := (leafInsertKV maxSz items last.1 last.2).getD items
      let t1 := setNode t pid (BNode.leaf items1 next parent maxSz)
      let t2 := setNode t1 lsid (BNode.leaf litems.dropLast lnext lparent lmax)
      let idx := (interFindValue pitems pid).getD 0
      some (setNode t2 ppid (BNode.internal
        (setKeyAt pitems idx ((items1.getD 0 (0, 0)).1)) pparent pmax))
    else none
  | some (BNode.internal items parent maxSz),
    some (BNode.internal litems lparent lmax),
    some (BNode.internal pitems pparent pmax) =>
    if minSizeOf lmax < litems.length then
      let lastPair := litems.getD (litems.length - 1) (0, 0)
      let t1 := setParent t lastPair.2 (some pid)
      let idx := (interFindValue pitems pid).getD 0
      let items1 := lastPair :: setKeyAt items 0 ((pitems.getD idx (0, 0)).1)
      let t2 := setNode t1 pid (BNode.internal items1 parent maxSz)
      let t3 := setNode t2 lsid (BNode.internal litems.dropLast lparent lmax)
      some (setNode t3 ppid (BNode.internal
        (setKeyAt pitems idx lastPair.1) pparent pmax))
    else none
  | _, _, _ => none

/-- BorrowFromSibling, right-sibling leaf and internal variants
(lines 780-861). -/
def borrowRight (t : Tree) (pid ppid rsid : Nat) : Option Tree :=
  match t.getNode pid, t.getNode rsid, t.getNode ppid with
  | some (BNode.leaf items next parent maxSz),
    some (BNode.leaf ritems rnext rparent rmax),
    some (BNode.internal pitems pparent pmax) =>
    if minSizeOf rmax < ritems.length then
      let hd := ritems.getD 0 (0, 0)
      let items1 := items ++ [hd]
      let ritems1 := (leafRemoveKey hd.1 ritems).2
      let t1 := setNode t pid (BNode.leaf items1 next parent maxSz)
      let t2 := setNode t1 rsid (BNode.leaf ritems1 rnext rparent rmax)
      let idx := (interFindValue pitems rsid).getD 0
      some (setNode t2 ppid (BNode.internal
        (setKeyAt pitems idx ((ritems1.getD 0 (0, 0)).1)) pparent pmax))
    else none
  | some (BNode.internal items parent maxSz),
    some (BNode.internal ritems rparent rmax),
    some (BNode.internal pitems pparent pmax) =>
    if minSizeOf rmax < ritems.length then
      let hd := ritems.getD 0 (0, 0)
      let t1 := setParent t hd.2 (some pid)
      let idx := (interFindValue pitems rsid).getD 0
      let ritems_a := setKeyAt ritems 0 ((pitems.getD idx (0, 0)).1)
      let items1 := items ++ [ritems_a.getD 0 (0, 0)]
      let ritems1 := interRemoveKV ritems_a 0
      let t2 := setNode t1 pid (BNode.internal items1 parent maxSz)
      let t3 := setNode t2 rsid (BNode.internal ritems1 rparent rmax)
      some (setNode t3 ppid (BNode.internal
        (setKeyAt pitems idx ((ritems1.getD 0 (0, 0)).1)) pparent pmax))
    else none
  | _, _, _ => none

/-- BPlusTree::BorrowFromSibling: left sibling preferred. -/
def borrowFromSibling (t : Tree) (pid ppid : Nat) : Option Tree :=
  match t.getNode ppid with
  | some (BNode.internal pitems _ _) =>
    let sib := interGetSibling pitems pid
    let tl := match sib.1 with
      | some lsid => borrowLeft t pid ppid lsid
      | none => none
    match tl with
    | some t1 => some t1
    | none =>
      match sib.2 with
      | some rsid => borrowRight t pid ppid rsid
      | none => none
  | _ => none

/-- BPlusTree::MergePage; the statement right_inter_ptr->KeyAt(0) =
parent_page_ptr->KeyAt(index) of line 964 assigns to a returned temporary
and has no effect, so the merged node keeps the right node's stored key 0. -/
def mergePage (t : Tree) (lid rid ppid : Nat) : Tree :=
  match t.getNode lid, t.getNode rid, t.getNode ppid with
  | some (BNode.leaf litems _ lparent lmax),
    some (BNode.leaf ritems rnext _ _),
    some (BNode.internal pitems pparent pmax) =>
    let t1 := setNode t lid (BNode.leaf (litems ++ ritems) rnext lparent lmax)
    let idx := (interFindValue pitems rid).getD 0
    setNode t1 ppid (BNode.internal (interRemoveKV pitems idx) pparent pmax)
  | some (BNode.internal litems lparent lmax),
    some (BNode.internal ritems _ _),
    some (BNode.internal pitems pparent pmax) =>
    let t1 := ritems.foldl (fun acc p => setParent acc p.2 (some lid)) t
    let t2 := setNode t1 lid (BNode.internal (litems ++ ritems) lparent lmax)
    let idx := (interFindValue pitems rid).getD 0
    setNode t2 ppid (BNode.internal (interRemoveKV pitems idx) pparent pmax)
  | _, _, _ => t

/-- BPlusTree::Merge: merge with the left sibling when it exists, else the
right. -/
def mergeStep (t : Tree) (pid ppid : Nat) : Tree :=
  match t.getNode ppid with
  | some (BNode.internal pitems _ _) =>
    let sib := interGetSibling pitems pid
    match sib.1 with
    | some lsid => mergePage t lsid pid ppid
    | none =>
      match sib.2 with
      | some rsid => mergePage t pid rsid ppid
      | none => t
  | _ => t

/-- BPlusTree::RedistributePage: borrow, else merge; after a merge collapse
a one-child root or recurse on an underflowing parent. -/
def redistributePage (t : Tree) : Nat → Nat → Tree
  | 0, _ => t
  | fuel + 1, pid =>
    match t.getNode pid with
    | none => t
    | some node =>
      match node.parentOf with
      | none => t
      | some ppid =>
        match borrowFromSibling t pid ppid with
        | some t1 => t1
        | none =>
          let t1 := mergeStep t pid ppid
          match t1.getNode ppid with
          | some (BNode.internal pitems1 pparent1 pmax1) =>
            if pitems1.length = 1 ∧ pparent1 = none then
              let cid := (pitems1.getD 0 (0, 0)).2
              let t2 := setParent t1 cid none
              { t2 with root := some cid, headerRoot := some cid }
            else if pitems1.length < minSizeOf pmax1 then
              redistributePage t1 fuel ppid
            else t1
          | _ => t1

/-- BPlusTree::Remove.  Modelled from the spec for the missing Downflow
member: underflow means size < min_size (§4.4 delete protocol). -/
def remove (t : Tree) (key : Nat) : Tree :=
  match t.root with
  | none => t
  | some rootId =>
    match descend t key (treeFuel t) rootId with
    | none => t
    | some lid =>
      match t.getNode lid with
      | some (BNode.leaf items next parent maxSz) =>
        if minSizeOf maxSz < items.length ∨ parent = none then
          setNode t lid (BNode.leaf (leafRemoveKey key items).2 next parent maxSz)
        else
          let items1 := (leafRemoveKey key items).2
          let t1 := setNode t lid (BNode.leaf items1 next parent maxSz)
          if items1.length < minSizeOf maxSz then
            redistributePage t1 (treeFuel t1) lid
          else t1
      | _ => t

/-- The C2 boundary scenario: leaf_max_size = internal_max_size = 3,
keys 10, 20, 5 inserted into the empty tree. -/
def c2t3 : Tree := (insert (insert (insert (mkTree 3 3) 10 100).2 20 200).2 5 50).2

/-- The C2 scenario continued with key 15. -/
def c2t4 : Tree := (insert c2t3 15 150).2

/-- C2 counterexample: with leaf_max_size = 3, inserting the third key 5
already splits the single leaf (the optimistic path requires the
post-insert size to stay below max_size and the pessimistic path splits a
leaf that reaches max_size): after 10, 20, 5 the tree has three pages,
leaves [5,10] and [20] under an internal root with separator 20 — not one
leaf [5,10,20]; and after inserting 15 the leaves are [5,10], [15], [20]
(no leaf [15,20] exists) with root separators 15 and 20. -/
theorem claim_C2_counterexample :
    c2t3.pages.length = 3 ∧
    c2t3.root = some 2 ∧
    c2t3.getNode 2 = some (BNode.internal [(0, 0), (20, 1)] none 3) ∧
    c2t3.getNode 0 = some (BNode.leaf [(5, 50), (10, 100)] (some 1) (some 2) 3) ∧
    c2t3.getNode 1 = some (BNode.leaf [(20, 200)] none (some 2) 3) ∧
    c2t4.getNode 2 = some (BNode.internal [(0, 0), (15, 3), (20, 1)] none 3) ∧
    c2t4.getNode 3 = some (BNode.leaf [(15, 150)] (some 1) (some 2) 3) ∧
    (c2t4.pages.all (fun n => match n with
      | BNode.leaf items _ _ _ => !(items.map Prod.fst == [15, 20])
      | BNode.internal _ _ _ => true)) = true := by
  decide

/-- C2 amended: with leaf_max_size = 3 and keys 10, 20, 5, 15, inserting 5
splits the leaf [10,20] after the insert into leaves [5,10] and [20] under
a new internal root whose separator is 20 (root_page_id published in the
header); inserting 15 then splits [5,10,15] into [5,10] and [15], giving
leaves [5,10], [15], [20] with root separators 15 and 20.  In general the
optimistic path applies an insert without any split or page allocation
exactly when the post-insert size stays strictly below max_size, i.e. when
the leaf's size before the insert is below max_size - 1. -/
theorem claim_C2_amended :
    (c2t3.pages.length = 3 ∧
     c2t3.root = some 2 ∧ c2t3.headerRoot = some 2 ∧
     c2t3.getNode 2 = some (BNode.internal [(0, 0), (20, 1)] none 3) ∧
     c2t3.getNode 0 = some (BNode.leaf [(5, 50), (10, 100)] (some 1) (some 2) 3) ∧
     c2t3.getNode 1 = some (BNode.leaf [(20, 200)] none (some 2) 3) ∧
     c2t4.root = some 2 ∧
     c2t4.getNode 2 = some (BNode.internal [(0, 0), (15, 3), (20, 1)] none 3) ∧
     c2t4.getNode 0 = some (BNode.leaf [(5, 50), (10, 100)] (some 3) (some 2) 3) ∧
     c2t4.getNode 3 = some (BNode.leaf [(15, 150)] (some 1) (some 2) 3) ∧
     c2t4.getNode 1 = some (BNode.leaf [(20, 200)] none (some 2) 3)) ∧
    (∀ (t : Tree) (key val rootId lid : Nat) (items : List (Nat × Nat))
       (next parent : Option Nat) (maxSz : Nat),
       t.root = some rootId →
       descend t key (treeFuel t) rootId = some lid →
       t.getNode lid = some (BNode.leaf items next parent maxSz) →
       items.length + 1 < maxSz →
       items.any (fun p => p.1 == key) = false →
       insert t key val = (true, setNode t lid
         (BNode.leaf ((insRevAux (key, val) items.reverse).reverse) next parent maxSz))) := by
  constructor
  · decide
  · intro t key val rootId lid items next parent maxSz hroot hdesc hleaf hlen hany
    simp only [insert, hroot, Option.isNone_some, Bool.false_eq_true, if_false, hdesc, hleaf]
    rw [if_pos (by omega : items.length < maxSz - 1)]
    unfold leafInsertKV
    rw [if_neg (by omega : ¬ items.length = maxSz)]
    rw [hany]
    simp only [Bool.false_eq_true, if_false]

/-- C2 witness: the general optimistic clause of claim_C2_amended applied
to the concrete scenario tree, inserting 16 into the leaf [15]. -/
theorem claim_C2_witness :
    insert c2t4 16 160 =
      (true, setNode c2t4 3 (BNode.leaf [(15, 150), (16, 160)] (some 1) (some 2) 3)) := by
  have h := claim_C2_amended.2 c2t4 16 160 2 3 [(15, 150)] (some 1) (some 2) 3
    rfl (by decide) (by decide) (by decide) (by decide)
  exact h

/-! ### An algebraic view of the page store, for the round-trip law

`ATree` is the page graph read back as a tree (each node remembers its page
id); `DecT` says a tree is laid out in the store, `GoodT` is the search
invariant. -/

inductive ATree where
  | aleaf (pid : Nat) (items : List (Nat × Nat)) : ATree
  | anode (pid : Nat) (cs : List (Nat × ATree)) : ATree

def ATree.rootPid : ATree → Nat
  | .aleaf p _ => p
  | .anode p _ => p

mutual
def ATree.pids : ATree → List Nat
  | .aleaf p _ => [p]
  | .anode p cs => p :: pidsC cs
def pidsC : List (Nat × ATree) → List Nat
  | [] => []
  | c :: cs => c.2.pids ++ pidsC cs
end

mutual
def ATree.toList : ATree → List (Nat × Nat)
  | .aleaf _ items => items
  | .anode _ cs => toListC cs
def toListC : List (Nat × ATree) → List (Nat × Nat)
  | [] => []
  | c :: cs => c.2.toList ++ toListC cs
end

mutual
def ATree.height : ATree → Nat
  | .aleaf _ _ => 0
  | .anode _ cs => heightC cs + 1
def heightC : List (Nat × ATree) → Nat
  | [] => 0
  | c :: cs => max c.2.height (heightC cs)
end

/-- All keys are at least the lower bound (none = unbounded). -/
def okLo : Option Nat → Nat → Prop
  | none, _ => True
  | some l, k => l ≤ k

/-- Strictly above the lower bound (for separator keys). -/
def strictLo : Option Nat → Nat → Prop
  | none, _ => True
  | some l, k => l < k

/-- Strictly below the upper bound (none = unbounded). -/
def okHi : Option Nat → Nat → Prop
  | none, _ => True
  | some h, k => k < h

/-- The keys of an entry list dropping the first entry (an internal page
never consults its key 0). -/
def tailKeys (cs : List (Nat × ATree)) : List Nat := (cs.map Prod.fst).tail

def headKey (cs : List (Nat × ATree)) : Nat := ((cs.headD (0, .aleaf 0 [])).1)

mutual
/-- The search-tree invariant at bounds (lo, hi): leaf keys strictly
sorted inside [lo, hi); internal separator keys (ignoring key 0, which is
garbage on a root spine) strictly sorted in (lo, hi), key 0 anchored to lo
when lo is a real bound, children on the consecutive key intervals. -/
def GoodT (L I : Nat) : Option Nat → Option Nat → ATree → Prop
  | lo, hi, .aleaf _ items =>
      items.length ≤ L ∧ List.Chain' (· < ·) (items.map Prod.fst) ∧
      (∀ p ∈ items, okLo lo p.1 ∧ okHi hi p.1)
  | lo, hi, .anode _ cs =>
      1 ≤ cs.length ∧ cs.length ≤ I ∧
      List.Chain' (· < ·) (tailKeys cs) ∧
      (∀ k ∈ tailKeys cs, strictLo lo k ∧ okHi hi k) ∧
      (∀ l, lo = some l → headKey cs = l) ∧
      GoodSeq L I lo hi cs
/-- Children in order: the first child inherits the node's lower bound,
each later child's lower bound is its own stored key, upper bounds are the
next child's key (the node's upper bound for the last child). -/
def GoodSeq (L I : Nat) : Option Nat → Option Nat → List (Nat × ATree) → Prop
  | _, _, [] => True
  | lo, hi, [c] => GoodT L I lo hi c.2
  | lo, hi, c :: c2 :: rest => GoodT L I lo (some c2.1) c.2 ∧ GoodSeq L I (some c2.1) hi (c2 :: rest)
end

/-- The stored child entries of an internal page for a child list. -/
def edgesOf (cs : List (Nat × ATree)) : List (Nat × Nat) :=
  cs.map (fun c => (c.1, c.2.rootPid))

/-- Induction over ATree giving the hypothesis for every child of a node. -/
theorem ATree.myInd (P : ATree → Prop)
    (hleaf : ∀ pid items, P (.aleaf pid items))
    (hnode : ∀ pid cs, (∀ c ∈ cs, P c.2) → P (.anode pid cs)) : ∀ τ, P τ
  | .aleaf pid items => hleaf pid items
  | .anode pid cs => hnode pid cs (fun c hc => ATree.myInd P hleaf hnode c.2)
termination_by τ => sizeOf τ
decreasing_by
  have h1 := List.sizeOf_lt_of_mem hc
  cases c with
  | mk a b => simp at h1 ⊢; omega

mutual
/-- The tree τ is laid out in the page store of t, with the root node's
stored parent pointer equal to par and every stored max size the tree's
configured one. -/
def DecT (t : Tree) : Option Nat → ATree → Prop
  | par, .aleaf pid items =>
      ∃ nx, t.getNode pid = some (BNode.leaf items nx par t.leafMaxSize)
  | par, .anode pid cs =>
      t.getNode pid = some (BNode.internal (edgesOf cs) par t.internalMaxSize) ∧
      DecL t pid cs
/-- Each child is laid out with its stored parent pointing at pid. -/
def DecL (t : Tree) : Nat → List (Nat × ATree) → Prop
  | _, [] => True
  | pid, c :: cs => DecT t (some pid) c.2 ∧ DecL t pid cs
end

theorem DecL_iff_mem (t : Tree) (pid : Nat) (cs : List (Nat × ATree)) :
    DecL t pid cs ↔ ∀ c ∈ cs, DecT t (some pid) c.2 := by
  induction cs with
  | nil => simp [DecL]
  | cons c cs ih => simp [DecL, ih]

theorem mem_pidsC (cs : List (Nat × ATree)) (p : Nat) :
    p ∈ pidsC cs ↔ ∃ c ∈ cs, p ∈ c.2.pids := by
  induction cs with
  | nil => simp [pidsC]
  | cons c cs ih => simp [pidsC, ih]

theorem rootPid_mem_pids (τ : ATree) : τ.rootPid ∈ τ.pids := by
  cases τ <;> simp [ATree.rootPid, ATree.pids]

theorem getNode_some_lt (t : Tree) (p : Nat) (n : BNode)
    (h : t.getNode p = some n) : p < t.pages.length := by
  simpa using (List.get?_eq_some.mp h).1

theorem getNode_setNode_self (t : Tree) (lid : Nat) (n : BNode)
    (h : lid < t.pages.length) : (setNode t lid n).getNode lid = some n := by
  simp [Tree.getNode, setNode, List.get?_eq_getElem?, List.getElem?_set_eq_of_lt n h]

theorem getNode_setNode_other (t : Tree) (lid p : Nat) (n : BNode)
    (h : p ≠ lid) : (setNode t lid n).getNode p = t.getNode p := by
  simp [Tree.getNode, setNode, List.get?_eq_getElem?, List.getElem?_set_ne (Ne.symm h)]

theorem getNode_grow (t : Tree) (n : BNode) (p : Nat) (h : p < t.pages.length) :
    Tree.getNode { t with pages := t.pages ++ [n] } p = t.getNode p := by
  simp [Tree.getNode, List.get?_eq_getElem?, List.getElem?_append_left h]

theorem getNode_grow_new (t : Tree) (n : BNode) :
    Tree.getNode { t with pages := t.pages ++ [n] } t.pages.length = some n := by
  simp [Tree.getNode, List.get?_eq_getElem?]

/-- Decoding only looks at the subtree's own pages: any store agreeing on
them (and on the configured max sizes) decodes the same tree. -/
theorem DecT_frame (t t' : Tree)
    (hL : t'.leafMaxSize = t.leafMaxSize) (hI : t'.internalMaxSize = t.internalMaxSize) :
    ∀ τ, ∀ par, (∀ p ∈ τ.pids, t'.getNode p = t.getNode p) → DecT t par τ → DecT t' par τ := by
  intro τ
  induction τ using ATree.myInd with
  | hleaf pid items =>
    intro par hsame h
    obtain ⟨nx, hx⟩ := h
    exact ⟨nx, by rw [hL, hsame pid (by simp [ATree.pids]), hx]⟩
  | hnode pid cs ih =>
    intro par hsame h
    obtain ⟨hx, hl⟩ := h
    refine ⟨by rw [hI, hsame pid (by simp [ATree.pids]), hx], ?_⟩
    rw [DecL_iff_mem] at hl ⊢
    intro c hc
    exact ih c hc (some pid)
      (fun p hp => hsame p (by simp only [ATree.pids, List.mem_cons, mem_pidsC]; exact Or.inr ⟨c, hc, hp⟩))
      (hl c hc)

theorem mem_toListC (cs : List (Nat × ATree)) (p : Nat × Nat) :
    p ∈ toListC cs ↔ ∃ c ∈ cs, p ∈ c.2.toList := by
  induction cs with
  | nil => simp [toListC]
  | cons c cs ih => simp [toListC, ih]

theorem okLo_weaken (lo : Option Nat) (k x : Nat)
    (h1 : strictLo lo k) (h2 : okLo (some k) x) : okLo lo x := by
  cases lo with
  | none => trivial
  | some l => simp [strictLo] at h1; simp [okLo] at h2 ⊢; omega

theorem okHi_weaken (hi : Option Nat) (k x : Nat)
    (h1 : okHi hi k) (h2 : okHi (some k) x) : okHi hi x := by
  cases hi with
  | none => trivial
  | some h => simp [okHi] at h1 h2 ⊢; omega

/-- Flattening the child sequence: sorted concatenation within bounds. -/
theorem seq_flat (L I : Nat) :
    ∀ (cs : List (Nat × ATree)) (lo hi : Option Nat),
    (∀ c ∈ cs, ∀ lo' hi', GoodT L I lo' hi' c.2 →
        List.Chain' (· < ·) ((c.2.toList).map Prod.fst) ∧
        ∀ p ∈ c.2.toList, okLo lo' p.1 ∧ okHi hi' p.1) →
    List.Pairwise (· < ·) (tailKeys cs) →
    (∀ k ∈ tailKeys cs, strictLo lo k ∧ okHi hi k) →
    GoodSeq L I lo hi cs →
    List.Chain' (· < ·) ((toListC cs).map Prod.fst) ∧
    ∀ p ∈ toListC cs, okLo lo p.1 ∧ okHi hi p.1 := by
  intro cs
  induction cs with
  | nil => intro lo hi _ _ _ _; simp [toListC]
  | cons c rest ih =>
    intro lo hi hch hp hb hseq
    cases rest with
    | nil =>
      have h1 := hch c (by simp) lo hi (by simpa [GoodSeq] using hseq)
      simpa [toListC] using h1
    | cons c2 rest2 =>
      rw [show GoodSeq L I lo hi (c :: c2 :: rest2) =
        (GoodT L I lo (some c2.1) c.2 ∧ GoodSeq L I (some c2.1) hi (c2 :: rest2)) from rfl] at hseq
      have hkeys : tailKeys (c :: c2 :: rest2) = c2.1 :: tailKeys (c2 :: rest2) := by
        simp [tailKeys]
      rw [hkeys] at hp hb
      have hc2 : strictLo lo c2.1 ∧ okHi hi c2.1 := hb c2.1 (by simp)
      have h1 := hch c (by simp) lo (some c2.1) hseq.1
      have h2 := ih (some c2.1) hi (fun d hd => hch d (by simp [hd]) )
        (List.pairwise_cons.mp hp).2
        (fun k hk => ⟨by simpa [strictLo] using (List.pairwise_cons.mp hp).1 k hk,
                      (hb k (by simp [hk])).2⟩)
        hseq.2
      constructor
      · rw [show toListC (c :: c2 :: rest2) = c.2.toList ++ toListC (c2 :: rest2) from rfl]
        rw [List.map_append, List.chain'_append]
        refine ⟨h1.1, h2.1, ?_⟩
        intro x hx y hy
        simp only [List.getLast?_map] at hx
        simp only [List.head?_map] at hy
        obtain ⟨px, hpx, hpx2⟩ := Option.map_eq_some'.mp hx
        obtain ⟨py, hpy, hpy2⟩ := Option.map_eq_some'.mp hy
        have hx3 := (h1.2 px (List.mem_of_mem_getLast? hpx)).2
        have hy3 := (h2.2 py (List.mem_of_mem_head? hpy)).1
        simp [okHi] at hx3
        simp [okLo] at hy3
        omega
      · intro p hpp
        rw [show toListC (c :: c2 :: rest2) = c.2.toList ++ toListC (c2 :: rest2) from rfl] at hpp
        rcases List.mem_append.mp hpp with h | h
        · exact ⟨(h1.2 p h).1, okHi_weaken hi c2.1 p.1 hc2.2 (h1.2 p h).2⟩
        · exact ⟨okLo_weaken lo c2.1 p.1 hc2.1 (h2.2 p h).1, (h2.2 p h).2⟩

/-- A well-formed subtree flattens to a strictly sorted association list
within its bounds. -/
theorem flat_good (L I : Nat) :
    ∀ τ, ∀ lo hi, GoodT L I lo hi τ →
    List.Chain' (· < ·) ((ATree.toList τ).map Prod.fst) ∧
    ∀ p ∈ ATree.toList τ, okLo lo p.1 ∧ okHi hi p.1 := by
  intro τ
  induction τ using ATree.myInd with
  | hleaf pid items =>
    intro lo hi hg
    rw [show GoodT L I lo hi (.aleaf pid items) =
      (items.length ≤ L ∧ List.Chain' (· < ·) (items.map Prod.fst) ∧
       ∀ p ∈ items, okLo lo p.1 ∧ okHi hi p.1) from rfl] at hg
    exact ⟨hg.2.1, by simpa [ATree.toList] using hg.2.2⟩
  | hnode pid cs ih =>
    intro lo hi hg
    rw [show GoodT L I lo hi (.anode pid cs) =
      (1 ≤ cs.length ∧ cs.length ≤ I ∧
       List.Chain' (· < ·) (tailKeys cs) ∧
       (∀ k ∈ tailKeys cs, strictLo lo k ∧ okHi hi k) ∧
       (∀ l, lo = some l → headKey cs = l) ∧
       GoodSeq L I lo hi cs) from rfl] at hg
    have h := seq_flat L I cs lo hi (fun c hc => ih c hc)
      (List.chain'_iff_pairwise.mp hg.2.2.1) hg.2.2.2.1 hg.2.2.2.2.2
    exact ⟨h.1, by simpa [ATree.toList] using h.2⟩

/-- Changing only the stored parent of the subtree's root re-decodes the
subtree at the new parent. -/
theorem DecT_setParent (t : Tree) (τ : ATree) (par0 par' : Option Nat)
    (h : DecT t par0 τ) (hnd : τ.pids.Nodup) : DecT (setParent t τ.rootPid par') par' τ := by
  cases τ with
  | aleaf pid items =>
    obtain ⟨nx, hx⟩ := h
    rw [show (ATree.aleaf pid items).rootPid = pid from rfl]
    have hsp : setParent t pid par' = setNode t pid (BNode.leaf items nx par' t.leafMaxSize) := by
      unfold setParent; rw [show t.pages.get? pid = some (BNode.leaf items nx par0 t.leafMaxSize) from hx]
    rw [hsp]
    exact ⟨nx, by
      rw [show (setNode t pid (BNode.leaf items nx par' t.leafMaxSize)).leafMaxSize
        = t.leafMaxSize from rfl]
      exact getNode_setNode_self t pid _ (getNode_some_lt t pid _ hx)⟩
  | anode pid cs =>
    obtain ⟨hx, hl⟩ := h
    rw [show (ATree.anode pid cs).rootPid = pid from rfl]
    have hsp : setParent t pid par' =
        setNode t pid (BNode.internal (edgesOf cs) par' t.internalMaxSize) := by
      unfold setParent
      rw [show t.pages.get? pid = some (BNode.internal (edgesOf cs) par0 t.internalMaxSize) from hx]
    rw [hsp]
    have hpid : pid ∉ pidsC cs := by
      have := hnd
      rw [show (ATree.anode pid cs).pids = pid :: pidsC cs from rfl] at this
      exact (List.nodup_cons.mp this).1
    constructor
    · rw [show (setNode t pid (BNode.internal (edgesOf cs) par' t.internalMaxSize)).internalMaxSize
        = t.internalMaxSize from rfl]
      exact getNode_setNode_self t pid _ (getNode_some_lt t pid _ hx)
    · rw [DecL_iff_mem] at hl ⊢
      intro c hc
      refine DecT_frame t
        (setNode t pid (BNode.internal (edgesOf cs) par' t.internalMaxSize))
        rfl rfl c.2 (some pid) ?_ (hl c hc)
      intro p hp
      refine getNode_setNode_other t pid p _ ?_
      intro hpp
      exact hpid ((mem_pidsC cs p).mpr ⟨c, hc, hp⟩ |> (hpp ▸ ·))

/-- The scanning loop passes an element block whose keys are at most k. -/
theorem interGo_pass (k : Nat) :
    ∀ (l1 l2 : List (Nat × Nat)) (prev : Nat × Nat),
    (∀ q ∈ l1, q.1 ≤ k) →
    interGo k prev (l1 ++ l2) = interGo k (l1.getLastD prev) l2 := by
  intro l1
  induction l1 with
  | nil => intro l2 prev _; simp
  | cons x xs ih =>
    intro l2 prev hq
    rw [List.cons_append, show interGo k prev ((x :: (xs ++ l2))) =
      (if k < x.1 then prev.2 else interGo k x (xs ++ l2)) from rfl]
    rw [if_neg (by have := hq x (by simp); omega)]
    rw [ih l2 x (fun q hqq => hq q (by simp [hqq]))]
    rw [List.getLastD_cons]

/-- The scanning loop stops in front of a larger key. -/
theorem interGo_stop (k : Nat) (prev : Nat × Nat) (l : List (Nat × Nat))
    (h : ∀ q ∈ l.head?, k < q.1) : interGo k prev l = prev.2 := by
  cases l with
  | nil => rfl
  | cons y ys =>
    rw [show interGo k prev (y :: ys) = (if k < y.1 then prev.2 else interGo k y ys) from rfl]
    rw [if_pos (h y (by simp))]

/-- InternalPage::GetValue finds the child at the hole position when the
keys scanned before it are at most k and the next key exceeds k (the page's
key 0 is never compared). -/
theorem interGetValue_select (k hk hp : Nat) (pre post : List (Nat × Nat))
    (h1 : ∀ q ∈ pre.tail, q.1 ≤ k) (h2 : pre = [] ∨ hk ≤ k)
    (h3 : ∀ q ∈ post.head?, k < q.1) :
    interGetValue (pre ++ (hk, hp) :: post) k = some hp := by
  cases pre with
  | nil =>
    rw [List.nil_append, show interGetValue ((hk, hp) :: post) k
      = some (interGo k (hk, hp) post) from rfl, interGo_stop k _ post h3]
  | cons p0 pre' =>
    rw [List.cons_append, show interGetValue (p0 :: (pre' ++ (hk, hp) :: post)) k
      = some (interGo k p0 (pre' ++ (hk, hp) :: post)) from rfl]
    rw [interGo_pass k pre' _ p0 (by simpa using h1)]
    have hk2 : hk ≤ k := by
      rcases h2 with h | h
      · exact absurd h (by simp)
      · exact h
    rw [show interGo k (pre'.getLastD p0) ((hk, hp) :: post)
      = (if k < hk then (pre'.getLastD p0).2 else interGo k (hk, hp) post) from rfl]
    rw [if_neg (by omega), interGo_stop k _ post h3]

theorem heightC_mem (cs : List (Nat × ATree)) (c : Nat × ATree) (hc : c ∈ cs) :
    c.2.height ≤ heightC cs := by
  induction cs with
  | nil => cases hc
  | cons d ds ih =>
    rw [show heightC (d :: ds) = max d.2.height (heightC ds) from rfl]
    rcases List.mem_cons.mp hc with h | h
    · rw [h]; omega
    · have := ih h; omega

/-- The lower bound of a child at a decomposed position. -/
def chLo (lo : Option Nat) (pre : List (Nat × ATree)) (ck : Nat) : Option Nat :=
  if pre.isEmpty then lo else some ck

/-- The upper bound of a child at a decomposed position. -/
def chHi (hi : Option Nat) (post : List (Nat × ATree)) : Option Nat :=
  match post with
  | [] => hi
  | d :: _ => some d.1

/-- Choosing the child whose interval contains k, together with everything
the descent and surgery proofs need about the position. -/
theorem choose_child (L I k : Nat) :
    ∀ (cs : List (Nat × ATree)) (lo hi : Option Nat),
    GoodSeq L I lo hi cs → 1 ≤ cs.length →
    List.Pairwise (· < ·) (tailKeys cs) →
    (∀ kk ∈ tailKeys cs, strictLo lo kk ∧ okHi hi kk) →
    okLo lo k → okHi hi k →
    ∃ pre c post, cs = pre ++ c :: post ∧
      GoodT L I (chLo lo pre c.1) (chHi hi post) c.2 ∧
      okLo (chLo lo pre c.1) k ∧ okHi (chHi hi post) k ∧
      (∀ q ∈ (pre.map Prod.fst).tail, q ≤ k) ∧
      (pre = [] ∨ c.1 ≤ k) ∧
      (∀ q ∈ ((post.map Prod.fst).head?), k < q) ∧
      (∀ p ∈ toListC pre, p.1 < k) ∧
      (∀ p ∈ toListC post, k < p.1) := by
  intro cs
  induction cs with
  | nil => intro lo hi _ hlen _ _ _ _; simp at hlen
  | cons c rest ih =>
    intro lo hi hseq hlen hp hb hk1 hk2
    cases rest with
    | nil =>
      refine ⟨[], c, [], rfl, ?_, ?_, ?_, ?_, ?_, ?_, ?_, ?_⟩
      · exact hseq
      · exact hk1
      · exact hk2
      · simp
      · exact Or.inl rfl
      · simp
      · simp [toListC]
      · simp [toListC]
    | cons c2 rest2 =>
      have hseq2 : GoodT L I lo (some c2.1) c.2 ∧ GoodSeq L I (some c2.1) hi (c2 :: rest2) := hseq
      have hkeys : tailKeys (c :: c2 :: rest2) = c2.1 :: tailKeys (c2 :: rest2) := by
        simp [tailKeys]
      rw [hkeys] at hp hb
      have hp2 := List.pairwise_cons.mp hp
      have hb2 : ∀ kk ∈ tailKeys (c2 :: rest2), strictLo (some c2.1) kk ∧ okHi hi kk :=
        fun kk hkk => ⟨by simpa [strictLo] using hp2.1 kk hkk, (hb kk (by simp [hkk])).2⟩
      by_cases hcmp : k < c2.1
      · refine ⟨[], c, c2 :: rest2, rfl, hseq2.1, hk1, hcmp, by simp, Or.inl rfl, ?_, by simp [toListC], ?_⟩
        · intro q hq
          simp at hq
          omega
        · intro p hpp
          have h := (seq_flat L I (c2 :: rest2) (some c2.1) hi
            (fun d _ => flat_good L I d.2) hp2.2 hb2 hseq2.2).2 p hpp
          have h2 : c2.1 ≤ p.1 := h.1
          omega
      · push_neg at hcmp
        obtain ⟨pre', ch, post', hdec, hgood, hlo, hhi, htail, hpor, hposth, hpreflat, hpostflat⟩ :=
          ih (some c2.1) hi hseq2.2 (by simp) hp2.2 hb2 hcmp hk2
        have hchlo : chLo (some c2.1) pre' ch.1 = some ch.1 := by
          cases pre' with
          | nil =>
            have hce : c2 = ch := by
              have h := hdec
              rw [List.nil_append] at h
              exact List.head_eq_of_cons_eq h
            rw [show chLo (some c2.1) [] ch.1 = some c2.1 from rfl, hce]
          | cons p0 pre'' => rfl
        have hheadpre : ∀ q ∈ pre', q.1 ≤ k := by
          intro q hq
          cases pre' with
          | nil => cases hq
          | cons p0 pre'' =>
            have hp0 : c2 = p0 := List.head_eq_of_cons_eq hdec
            rcases List.mem_cons.mp hq with h | h
            · rw [h, ← hp0]; exact hcmp
            · exact htail q.1 (by simpa using List.mem_map_of_mem Prod.fst h)
        refine ⟨c :: pre', ch, post', by rw [List.cons_append, hdec], ?_, ?_, hhi, ?_, Or.inr ?_, hposth, ?_, hpostflat⟩
        · rw [show chLo lo (c :: pre') ch.1 = some ch.1 from rfl]
          rw [hchlo] at hgood
          exact hgood
        · rw [show chLo lo (c :: pre') ch.1 = some ch.1 from rfl]
          rw [hchlo] at hlo
          exact hlo
        · intro q hq
          simp only [List.map_cons, List.tail_cons] at hq
          obtain ⟨qq, hqq, hqq2⟩ := List.mem_map.mp hq
          exact hqq2 ▸ hheadpre qq hqq
        · rcases hpor with h | h
          · have hce : c2 = ch := by rw [h, List.nil_append] at hdec; exact List.head_eq_of_cons_eq hdec
            rw [← hce]; exact hcmp
          · exact h
        · intro p hpp
          rw [show toListC (c :: pre') = c.2.toList ++ toListC pre' from rfl] at hpp
          rcases List.mem_append.mp hpp with h | h
          · have h2 := (flat_good L I c.2 lo (some c2.1) hseq2.1).2 p h
            have h3 : p.1 < c2.1 := h2.2
            omega
          · exact hpreflat p h

/-- One ancestor frame of a descent: the internal node pid whose children
are pre ++ (hk, hole) :: post. -/
structure Fr where
  pid : Nat
  pre : List (Nat × ATree)
  hk : Nat
  post : List (Nat × ATree)

def plug1 (F : Fr) (τ : ATree) : ATree := .anode F.pid (F.pre ++ (F.hk, τ) :: F.post)

/-- Plug the hole back through the ancestor chain, innermost frame first. -/
def plug : List Fr → ATree → ATree
  | [], τ => τ
  | F :: C, τ => plug C (plug1 F τ)

def parentPidOf (C : List Fr) (topPar : Option Nat) : Option Nat :=
  match C with
  | [] => topPar
  | F :: _ => some F.pid

def frTailKeys (F : Fr) : List Nat :=
  ((F.pre.map Prod.fst) ++ F.hk :: (F.post.map Prod.fst)).tail

def frHeadKey (F : Fr) : Nat :=
  ((F.pre.map Prod.fst) ++ F.hk :: (F.post.map Prod.fst)).headD 0

/-- The hole-independent well-formedness of one frame inside (lo', hi'):
pre-children run from lo' up to the hole key, post-children from their own
keys up to hi'. -/
def FrOK (L I : Nat) (F : Fr) (lo' hi' : Option Nat) : Prop :=
  F.pre.length + 1 + F.post.length ≤ I ∧
  List.Chain' (· < ·) (frTailKeys F) ∧
  (∀ kk ∈ frTailKeys F, strictLo lo' kk ∧ okHi hi' kk) ∧
  (∀ l, lo' = some l → frHeadKey F = l) ∧
  GoodSeq L I lo' (some F.hk) F.pre ∧
  (match F.post with
   | [] => True
   | d :: _ => GoodSeq L I (some d.1) hi' F.post)

/-- The frames realize in the page store with the hole edge pointing at
hp; side subtrees decode under their frame. -/
def spineDec (t : Tree) (topPar : Option Nat) : List Fr → Nat → Prop
  | [], _ => True
  | F :: C, hp =>
      t.getNode F.pid = some (BNode.internal
        (edgesOf F.pre ++ (F.hk, hp) :: edgesOf F.post)
        (parentPidOf C topPar) t.internalMaxSize) ∧
      (∀ c ∈ F.pre, DecT t (some F.pid) c.2) ∧
      (∀ c ∈ F.post, DecT t (some F.pid) c.2) ∧
      spineDec t topPar C F.pid

/-- The interval bookkeeping along the spine: the hole sits at (lo, hi)
inside the surrounding tree whose own bounds are (baseLo, baseHi). -/
def spineGood (L I : Nat) (baseLo baseHi : Option Nat) :
    List Fr → Option Nat → Option Nat → Prop
  | [], lo, hi => lo = baseLo ∧ hi = baseHi
  | F :: C, lo, hi => ∃ lo' hi', spineGood L I baseLo baseHi C lo' hi' ∧ FrOK L I F lo' hi' ∧
      lo = chLo lo' F.pre F.hk ∧ hi = chHi hi' F.post

def frPids (F : Fr) : List Nat := F.pid :: (pidsC F.pre ++ pidsC F.post)

def spinePids : List Fr → List Nat
  | [] => []
  | F :: C => frPids F ++ spinePids C

/-- Everything stored strictly left of the hole, leaf order. -/
def spineLeft : List Fr → List (Nat × Nat)
  | [] => []
  | F :: C => spineLeft C ++ toListC F.pre

/-- Everything stored strictly right of the hole, leaf order. -/
def spineRight : List Fr → List (Nat × Nat)
  | [] => []
  | F :: C => toListC F.post ++ spineRight C

theorem plug_append (C1 C2 : List Fr) (τ : ATree) :
    plug (C1 ++ C2) τ = plug C2 (plug C1 τ) := by
  induction C1 generalizing τ with
  | nil => rfl
  | cons F C ih => rw [List.cons_append, show plug ((F :: (C ++ C2))) τ = plug (C ++ C2) (plug1 F τ) from rfl, ih, show plug (F :: C) τ = plug C (plug1 F τ) from rfl]

theorem plug_toList (C : List Fr) (τ : ATree) :
    (plug C τ).toList = spineLeft C ++ τ.toList ++ spineRight C := by
  induction C generalizing τ with
  | nil => simp [plug, spineLeft, spineRight]
  | cons F C ih =>
    rw [show plug (F :: C) τ = plug C (plug1 F τ) from rfl, ih]
    rw [show spineLeft (F :: C) = spineLeft C ++ toListC F.pre from rfl]
    rw [show spineRight (F :: C) = toListC F.post ++ spineRight C from rfl]
    have h : (plug1 F τ).toList = toListC F.pre ++ τ.toList ++ toListC F.post := by
      rw [show (plug1 F τ).toList = toListC (F.pre ++ (F.hk, τ) :: F.post) from rfl]
      induction F.pre with
      | nil => simp [toListC]
      | cons c cp ihp =>
        rw [List.cons_append, show toListC (c :: (cp ++ (F.hk, τ) :: F.post)) = c.2.toList ++ toListC (cp ++ (F.hk, τ) :: F.post) from rfl, ihp]
        simp [toListC]
    rw [h]
    simp

theorem plug_rootPid (C : List Fr) (F : Fr) (τ : ATree) :
    (plug (C ++ [F]) τ).rootPid = F.pid := by
  rw [plug_append]
  rfl

theorem plug_rootPid_nil (τ : ATree) : (plug [] τ).rootPid = τ.rootPid := rfl

/-- The page id a frame above C sees for the plugged hole: the hole's own
pid until a frame interposes. -/
def parentHole : List Fr → Nat → Nat
  | [], hp => hp
  | G :: C, _ => parentHole C G.pid

theorem spineDec_snoc (t : Tree) (topPar : Option Nat) (C : List Fr) (F : Fr) (hp : Nat) :
    spineDec t topPar (C ++ [F]) hp ↔
      spineDec t (some F.pid) C hp ∧
      t.getNode F.pid = some (BNode.internal
        (edgesOf F.pre ++ (F.hk, parentHole C hp) :: edgesOf F.post) topPar t.internalMaxSize) ∧
      (∀ c ∈ F.pre, DecT t (some F.pid) c.2) ∧
      (∀ c ∈ F.post, DecT t (some F.pid) c.2) := by
  induction C generalizing hp with
  | nil =>
    rw [show ([] : List Fr) ++ [F] = [F] from rfl]
    rw [show spineDec t topPar [F] hp =
      (t.getNode F.pid = some (BNode.internal
        (edgesOf F.pre ++ (F.hk, hp) :: edgesOf F.post)
        (parentPidOf [] topPar) t.internalMaxSize) ∧
      (∀ c ∈ F.pre, DecT t (some F.pid) c.2) ∧
      (∀ c ∈ F.post, DecT t (some F.pid) c.2) ∧
      spineDec t topPar [] F.pid) from rfl]
    rw [show spineDec t topPar [] F.pid = True from rfl]
    rw [show spineDec t (some F.pid) [] hp = True from rfl]
    rw [show parentHole [] hp = hp from rfl]
    rw [show parentPidOf ([] : List Fr) topPar = topPar from rfl]
    constructor
    · rintro ⟨h1, h2, h3, _⟩; exact ⟨trivial, h1, h2, h3⟩
    · rintro ⟨_, h1, h2, h3⟩; exact ⟨h1, h2, h3, trivial⟩
  | cons G C ih =>
    rw [List.cons_append]
    rw [show spineDec t topPar (G :: (C ++ [F])) hp =
      (t.getNode G.pid = some (BNode.internal
        (edgesOf G.pre ++ (G.hk, hp) :: edgesOf G.post)
        (parentPidOf (C ++ [F]) topPar) t.internalMaxSize) ∧
      (∀ c ∈ G.pre, DecT t (some G.pid) c.2) ∧
      (∀ c ∈ G.post, DecT t (some G.pid) c.2) ∧
      spineDec t topPar (C ++ [F]) G.pid) from rfl]
    rw [show spineDec t (some F.pid) (G :: C) hp =
      (t.getNode G.pid = some (BNode.internal
        (edgesOf G.pre ++ (G.hk, hp) :: edgesOf G.post)
        (parentPidOf C (some F.pid)) t.internalMaxSize) ∧
      (∀ c ∈ G.pre, DecT t (some G.pid) c.2) ∧
      (∀ c ∈ G.post, DecT t (some G.pid) c.2) ∧
      spineDec t (some F.pid) C G.pid) from rfl]
    rw [ih G.pid]
    have hpp : parentPidOf (C ++ [F]) topPar = parentPidOf C (some F.pid) := by
      cases C with
      | nil => rfl
      | cons H CC => rfl
    rw [hpp, show parentHole (G :: C) hp = parentHole C G.pid from rfl]
    constructor
    · rintro ⟨h1, h2, h3, h4, h5, h6, h7⟩; exact ⟨⟨h1, h2, h3, h4⟩, h5, h6, h7⟩
    · rintro ⟨⟨h1, h2, h3, h4⟩, h5, h6, h7⟩; exact ⟨h1, h2, h3, h4, h5, h6, h7⟩

theorem parentPidOf_snoc (C : List Fr) (F : Fr) (topPar : Option Nat) :
    parentPidOf (C ++ [F]) topPar = parentPidOf C (some F.pid) := by
  cases C with
  | nil => rfl
  | cons G CC => rfl

theorem parentHole_plug (C : List Fr) (h : ATree) :
    parentHole C h.rootPid = (plug C h).rootPid := by
  induction C generalizing h with
  | nil => rfl
  | cons G CC ih =>
    rw [show parentHole (G :: CC) h.rootPid = parentHole CC G.pid from rfl]
    rw [show plug (G :: CC) h = plug CC (plug1 G h) from rfl]
    rw [show G.pid = (plug1 G h).rootPid from rfl]
    exact ih (plug1 G h)

theorem spineGood_snoc (L I : Nat) (baseLo baseHi : Option Nat) (C : List Fr) (F : Fr)
    (lo hi : Option Nat) :
    spineGood L I baseLo baseHi (C ++ [F]) lo hi ↔
      FrOK L I F baseLo baseHi ∧
      spineGood L I (chLo baseLo F.pre F.hk) (chHi baseHi F.post) C lo hi := by
  induction C generalizing lo hi with
  | nil =>
    rw [show ([] : List Fr) ++ [F] = [F] from rfl]
    rw [show spineGood L I baseLo baseHi [F] lo hi =
      (∃ lo' hi', spineGood L I baseLo baseHi [] lo' hi' ∧ FrOK L I F lo' hi' ∧
        lo = chLo lo' F.pre F.hk ∧ hi = chHi hi' F.post) from rfl]
    rw [show spineGood L I (chLo baseLo F.pre F.hk) (chHi baseHi F.post) [] lo hi =
      (lo = chLo baseLo F.pre F.hk ∧ hi = chHi baseHi F.post) from rfl]
    constructor
    · rintro ⟨lo', hi', ⟨he1, he2⟩, hf, h1, h2⟩
      subst he1; subst he2
      exact ⟨hf, h1, h2⟩
    · rintro ⟨hf, h1, h2⟩
      exact ⟨baseLo, baseHi, ⟨rfl, rfl⟩, hf, h1, h2⟩
  | cons G CC ih =>
    rw [List.cons_append]
    rw [show spineGood L I baseLo baseHi (G :: (CC ++ [F])) lo hi =
      (∃ lo' hi', spineGood L I baseLo baseHi (CC ++ [F]) lo' hi' ∧ FrOK L I G lo' hi' ∧
        lo = chLo lo' G.pre G.hk ∧ hi = chHi hi' G.post) from rfl]
    rw [show spineGood L I (chLo baseLo F.pre F.hk) (chHi baseHi F.post) (G :: CC) lo hi =
      (∃ lo' hi', spineGood L I (chLo baseLo F.pre F.hk) (chHi baseHi F.post) CC lo' hi' ∧
        FrOK L I G lo' hi' ∧ lo = chLo lo' G.pre G.hk ∧ hi = chHi hi' G.post) from rfl]
    constructor
    · rintro ⟨lo', hi', hsp, hf, h1, h2⟩
      have := (ih lo' hi').mp hsp
      exact ⟨this.1, lo', hi', this.2, hf, h1, h2⟩
    · rintro ⟨hF, lo', hi', hsp, hf, h1, h2⟩
      exact ⟨lo', hi', (ih lo' hi').mpr ⟨hF, hsp⟩, hf, h1, h2⟩

theorem spinePids_snoc (C : List Fr) (F : Fr) :
    spinePids (C ++ [F]) = spinePids C ++ frPids F := by
  induction C with
  | nil => simp [spinePids]
  | cons G CC ih =>
    rw [List.cons_append, show spinePids (G :: (CC ++ [F])) = frPids G ++ spinePids (CC ++ [F]) from rfl, ih,
      show spinePids (G :: CC) = frPids G ++ spinePids CC from rfl, List.append_assoc]

theorem spineLeft_snoc (C : List Fr) (F : Fr) :
    spineLeft (C ++ [F]) = toListC F.pre ++ spineLeft C := by
  induction C with
  | nil => simp [spineLeft]
  | cons G CC ih =>
    rw [List.cons_append, show spineLeft (G :: (CC ++ [F])) = spineLeft (CC ++ [F]) ++ toListC G.pre from rfl, ih,
      show spineLeft (G :: CC) = spineLeft CC ++ toListC G.pre from rfl, List.append_assoc]

theorem spineRight_snoc (C : List Fr) (F : Fr) :
    spineRight (C ++ [F]) = spineRight C ++ toListC F.post := by
  induction C with
  | nil => simp [spineRight]
  | cons G CC ih =>
    rw [List.cons_append, show spineRight (G :: (CC ++ [F])) = toListC G.post ++ spineRight (CC ++ [F]) from rfl, ih,
      show spineRight (G :: CC) = toListC G.post ++ spineRight CC from rfl, List.append_assoc]

theorem pidsC_append (l1 l2 : List (Nat × ATree)) :
    pidsC (l1 ++ l2) = pidsC l1 ++ pidsC l2 := by
  induction l1 with
  | nil => simp [pidsC]
  | cons c cs ih =>
    rw [List.cons_append, show pidsC (c :: (cs ++ l2)) = c.2.pids ++ pidsC (cs ++ l2) from rfl, ih,
      show pidsC (c :: cs) = c.2.pids ++ pidsC cs from rfl, List.append_assoc]

theorem toListC_append (l1 l2 : List (Nat × ATree)) :
    toListC (l1 ++ l2) = toListC l1 ++ toListC l2 := by
  induction l1 with
  | nil => simp [toListC]
  | cons c cs ih =>
    rw [List.cons_append, show toListC (c :: (cs ++ l2)) = c.2.toList ++ toListC (cs ++ l2) from rfl, ih,
      show toListC (c :: cs) = c.2.toList ++ toListC cs from rfl, List.append_assoc]

theorem plug_pids_perm (C : List Fr) (h : ATree) :
    ((plug C h).pids : Multiset Nat) = (spinePids C ++ h.pids : List Nat) := by
  induction C generalizing h with
  | nil => simp [plug, spinePids]
  | cons F CC ih =>
    rw [show plug (F :: CC) h = plug CC (plug1 F h) from rfl]
    rw [ih (plug1 F h)]
    rw [show spinePids (F :: CC) = frPids F ++ spinePids CC from rfl]
    have h1 : (plug1 F h).pids = F.pid :: (pidsC F.pre ++ (h.pids ++ pidsC F.post)) := by
      rw [show (plug1 F h).pids = F.pid :: pidsC (F.pre ++ (F.hk, h) :: F.post) from rfl,
        pidsC_append, show pidsC ((F.hk, h) :: F.post) = h.pids ++ pidsC F.post from rfl]
    rw [h1, show frPids F = F.pid :: (pidsC F.pre ++ pidsC F.post) from rfl]
    rw [Multiset.coe_eq_coe, List.perm_iff_count]
    intro a
    simp [List.count_append, List.count_cons]
    ring

/-- Cutting a child sequence at a position. -/
theorem goodSeq_decomp (L I : Nat) :
    ∀ (pre : List (Nat × ATree)) (c : Nat × ATree) (post : List (Nat × ATree)) (lo hi : Option Nat),
    GoodSeq L I lo hi (pre ++ c :: post) →
    GoodSeq L I lo (some c.1) pre ∧
    GoodT L I (chLo lo pre c.1) (chHi hi post) c.2 ∧
    (match post with
     | [] => True
     | d :: _ => GoodSeq L I (some d.1) hi post) := by
  intro pre
  induction pre with
  | nil =>
    intro c post lo hi h
    rw [List.nil_append] at h
    cases post with
    | nil => exact ⟨trivial, h, trivial⟩
    | cons d rest =>
      have h2 : GoodT L I lo (some d.1) c.2 ∧ GoodSeq L I (some d.1) hi (d :: rest) := h
      exact ⟨trivial, h2.1, h2.2⟩
  | cons p pre' ih =>
    intro c post lo hi h
    cases pre' with
    | nil =>
      have h2 : GoodT L I lo (some c.1) p.2 ∧ GoodSeq L I (some c.1) hi (c :: post) := h
      have h3 := ih c post (some c.1) hi (by rw [List.nil_append]; exact h2.2)
      exact ⟨h2.1, h3.2.1, h3.2.2⟩
    | cons p2 pre'' =>
      have h2 : GoodT L I lo (some p2.1) p.2 ∧
          GoodSeq L I (some p2.1) hi ((p2 :: pre'') ++ c :: post) := h
      have h3 := ih c post (some p2.1) hi h2.2
      exact ⟨⟨h2.1, h3.1⟩, h3.2.1, h3.2.2⟩

/-- Reassembling a child sequence around a replaced hole. -/
theorem goodSeq_assemble (L I : Nat) :
    ∀ (pre : List (Nat × ATree)) (hk : Nat) (h : ATree) (post : List (Nat × ATree)) (lo hi : Option Nat),
    GoodSeq L I lo (some hk) pre →
    GoodT L I (chLo lo pre hk) (chHi hi post) h →
    (match post with | [] => True | d :: _ => GoodSeq L I (some d.1) hi post) →
    GoodSeq L I lo hi (pre ++ (hk, h) :: post) := by
  intro pre
  induction pre with
  | nil =>
    intro hk h post lo hi _ hh hpost
    rw [List.nil_append]
    cases post with
    | nil => exact hh
    | cons d rest => exact ⟨hh, hpost⟩
  | cons p pre' ih =>
    intro hk h post lo hi hpre hh hpost
    cases pre' with
    | nil =>
      have h2 : GoodT L I lo (some hk) p.2 := hpre
      exact ⟨h2, ih hk h post (some hk) hi trivial hh hpost⟩
    | cons p2 pre'' =>
      have h2 : GoodT L I lo (some p2.1) p.2 ∧ GoodSeq L I (some p2.1) (some hk) (p2 :: pre'') := hpre
      exact ⟨h2.1, ih hk h post (some p2.1) hi h2.2 hh hpost⟩

theorem edgesOf_append (l1 l2 : List (Nat × ATree)) :
    edgesOf (l1 ++ l2) = edgesOf l1 ++ edgesOf l2 := by
  simp [edgesOf]

theorem headKey_eq_mapHead (cs : List (Nat × ATree)) :
    headKey cs = (cs.map Prod.fst).headD 0 := by
  cases cs <;> rfl

theorem tailKeys_split (pre : List (Nat × ATree)) (c : Nat × ATree) (post : List (Nat × ATree)) :
    tailKeys (pre ++ c :: post) = ((pre.map Prod.fst) ++ c.1 :: (post.map Prod.fst)).tail := by
  simp [tailKeys]

theorem edges_tail_key (pre : List (Nat × ATree)) (q : Nat × Nat)
    (h : q ∈ (edgesOf pre).tail) : q.1 ∈ (pre.map Prod.fst).tail := by
  cases pre with
  | nil => cases h
  | cons p ps =>
    rw [show edgesOf (p :: ps) = (p.1, p.2.rootPid) :: edgesOf ps from rfl] at h
    rw [List.tail_cons] at h
    rw [List.map_cons, List.tail_cons]
    obtain ⟨o, ho, ho2⟩ := List.mem_map.mp h
    exact ho2 ▸ List.mem_map_of_mem Prod.fst ho

theorem edges_head_key (post : List (Nat × ATree)) (q : Nat × Nat)
    (h : q ∈ (edgesOf post).head?) : q.1 ∈ ((post.map Prod.fst).head?) := by
  cases post with
  | nil => cases h
  | cons p ps =>
    rw [show edgesOf (p :: ps) = (p.1, p.2.rootPid) :: edgesOf ps from rfl] at h
    have h2 : (p.1, p.2.rootPid) = q := by simpa using h
    simp [← h2]

/-- Locating key k: the descent reaches a unique leaf; the whole spine and
its interval bookkeeping come out for the surgery proofs. -/
theorem locate (L I k : Nat) (t : Tree) (hLt : t.leafMaxSize = L) :
    ∀ τ, ∀ par lo hi, DecT t par τ → GoodT L I lo hi τ → okLo lo k → okHi hi k →
    ∃ C lid litems llo lhi nx,
      τ = plug C (.aleaf lid litems) ∧
      spineDec t par C lid ∧
      t.getNode lid = some (BNode.leaf litems nx (parentPidOf C par) L) ∧
      spineGood L I lo hi C llo lhi ∧
      GoodT L I llo lhi (.aleaf lid litems) ∧
      okLo llo k ∧ okHi lhi k ∧
      (∀ p ∈ spineLeft C, p.1 < k) ∧ (∀ p ∈ spineRight C, k < p.1) ∧
      (∀ fuel, τ.height < fuel → descend t k fuel τ.rootPid = some lid) := by
  intro τ
  induction τ using ATree.myInd with
  | hleaf pid items =>
    intro par lo hi hdec hgood hk1 hk2
    obtain ⟨nx, hx⟩ := hdec
    rw [hLt] at hx
    refine ⟨[], pid, items, lo, hi, nx, rfl, trivial, hx, ⟨rfl, rfl⟩, hgood, hk1, hk2,
      by simp [spineLeft], by simp [spineRight], ?_⟩
    intro fuel hf
    cases fuel with
    | zero => simp [ATree.height] at hf
    | succ f =>
      rw [show (ATree.aleaf pid items).rootPid = pid from rfl]
      rw [show descend t k (f + 1) pid =
        (match t.getNode pid with
         | some (BNode.internal its _ _) =>
            match interGetValue its k with
            | none => none
            | some child => descend t k f child
         | some (BNode.leaf _ _ _ _) => some pid
         | none => none) from rfl, hx]
  | hnode pid cs ih =>
    intro par lo hi hdec hgood hk1 hk2
    obtain ⟨hx, hl⟩ := hdec
    have hg : 1 ≤ cs.length ∧ cs.length ≤ I ∧ List.Chain' (· < ·) (tailKeys cs) ∧
        (∀ kk ∈ tailKeys cs, strictLo lo kk ∧ okHi hi kk) ∧
        (∀ l, lo = some l → headKey cs = l) ∧ GoodSeq L I lo hi cs := hgood
    obtain ⟨pre, c, post, hdeccs, hcgood, hclo, hchi, htail, hpor, hposth, hpreflat, hpostflat⟩ :=
      choose_child L I k cs lo hi hg.2.2.2.2.2 hg.1 (List.chain'_iff_pairwise.mp hg.2.2.1)
        hg.2.2.2.1 hk1 hk2
    have hcmem : c ∈ cs := by rw [hdeccs]; simp
    have hcdec : DecT t (some pid) c.2 := (DecL_iff_mem t pid cs).mp hl c hcmem
    obtain ⟨C', lid, litems, llo, lhi, nx, hplug, hsp, hleafx, hsg, hlg, hlk1, hlk2, hsl, hsr, hdesc⟩ :=
      ih c hcmem (some pid) (chLo lo pre c.1) (chHi hi post) hcdec hcgood hclo hchi
    have hedges : edgesOf cs = edgesOf pre ++ (c.1, c.2.rootPid) :: edgesOf post := by
      rw [hdeccs, edgesOf_append]; rfl
    have hdecomp := goodSeq_decomp L I pre c post lo hi (by rw [← hdeccs]; exact hg.2.2.2.2.2)
    refine ⟨C' ++ [⟨pid, pre, c.1, post⟩], lid, litems, llo, lhi, nx, ?_, ?_, ?_, ?_, hlg,
      hlk1, hlk2, ?_, ?_, ?_⟩
    · rw [plug_append]
      rw [show plug [⟨pid, pre, c.1, post⟩] (plug C' (ATree.aleaf lid litems)) =
        ATree.anode pid (pre ++ (c.1, plug C' (ATree.aleaf lid litems)) :: post) from rfl]
      rw [← hplug, hdeccs]
    · rw [spineDec_snoc]
      refine ⟨hsp, ?_, ?_, ?_⟩
      · rw [show Fr.pid ⟨pid, pre, c.1, post⟩ = pid from rfl]
        rw [show Fr.pre ⟨pid, pre, c.1, post⟩ = pre from rfl,
            show Fr.hk ⟨pid, pre, c.1, post⟩ = c.1 from rfl,
            show Fr.post ⟨pid, pre, c.1, post⟩ = post from rfl]
        have hph : parentHole C' lid = c.2.rootPid := by
          have h1 : parentHole C' (ATree.aleaf lid litems).rootPid = (plug C' (ATree.aleaf lid litems)).rootPid :=
            parentHole_plug C' _
          rw [show (ATree.aleaf lid litems).rootPid = lid from rfl] at h1
          rw [h1, ← hplug]
        rw [hph, ← hedges]
        exact hx
      · intro c' hc'
        exact (DecL_iff_mem t pid cs).mp hl c' (by rw [hdeccs]; simp [hc'])
      · intro c' hc'
        exact (DecL_iff_mem t pid cs).mp hl c' (by rw [hdeccs]; simp [hc'])
    · rw [parentPidOf_snoc]
      exact hleafx
    · rw [spineGood_snoc]
      refine ⟨⟨?_, ?_, ?_, ?_, ?_, ?_⟩, hsg⟩
      · rw [show Fr.pre ⟨pid, pre, c.1, post⟩ = pre from rfl,
            show Fr.post ⟨pid, pre, c.1, post⟩ = post from rfl]
        have : cs.length = pre.length + 1 + post.length := by rw [hdeccs]; simp; omega
        omega
      · rw [show frTailKeys ⟨pid, pre, c.1, post⟩ =
          ((pre.map Prod.fst) ++ c.1 :: (post.map Prod.fst)).tail from rfl,
          ← tailKeys_split]
        rw [← hdeccs]
        exact hg.2.2.1
      · rw [show frTailKeys ⟨pid, pre, c.1, post⟩ =
          ((pre.map Prod.fst) ++ c.1 :: (post.map Prod.fst)).tail from rfl,
          ← tailKeys_split, ← hdeccs]
        exact hg.2.2.2.1
      · intro l hll
        rw [show frHeadKey ⟨pid, pre, c.1, post⟩ =
          ((pre.map Prod.fst) ++ c.1 :: (post.map Prod.fst)).headD 0 from rfl]
        have h1 := hg.2.2.2.2.1 l hll
        rw [headKey_eq_mapHead, hdeccs] at h1
        simpa using h1
      · exact hdecomp.1
      · exact hdecomp.2.2
    · rw [spineLeft_snoc]
      intro p hp
      rcases List.mem_append.mp hp with h | h
      · exact hpreflat p h
      · exact hsl p h
    · rw [spineRight_snoc]
      intro p hp
      rcases List.mem_append.mp hp with h | h
      · exact hsr p h
      · exact hpostflat p h
    · intro fuel hf
      rw [show (ATree.anode pid cs).height = heightC cs + 1 from rfl] at hf
      cases fuel with
      | zero => omega
      | succ f =>
        rw [show (ATree.anode pid cs).rootPid = pid from rfl]
        have hsel : interGetValue (edgesOf cs) k = some c.2.rootPid := by
          rw [hedges]
          refine interGetValue_select k c.1 c.2.rootPid (edgesOf pre) (edgesOf post) ?_ ?_ ?_
          · intro q hq
            exact htail q.1 (edges_tail_key pre q hq)
          · rcases hpor with h | h
            · exact Or.inl (by rw [h]; rfl)
            · exact Or.inr h
          · intro q hq
            exact hposth q.1 (edges_head_key post q hq)
        simp only [descend, hx, hsel]
        exact hdesc f (by
          have := heightC_mem cs c hcmem
          omega)

theorem goodSeq_mem (L I : Nat) :
    ∀ (cs : List (Nat × ATree)) (lo hi : Option Nat), GoodSeq L I lo hi cs →
    ∀ c ∈ cs, ∃ lo' hi', GoodT L I lo' hi' c.2 := by
  intro cs
  induction cs with
  | nil => intro lo hi _ c hc; cases hc
  | cons c rest ih =>
    intro lo hi hseq d hd
    cases rest with
    | nil =>
      rcases List.mem_singleton.mp hd with h
      exact ⟨lo, hi, h ▸ hseq⟩
    | cons c2 rest2 =>
      have h2 : GoodT L I lo (some c2.1) c.2 ∧ GoodSeq L I (some c2.1) hi (c2 :: rest2) := hseq
      rcases List.mem_cons.mp hd with h | h
      · exact ⟨lo, some c2.1, h ▸ h2.1⟩
      · exact ih (some c2.1) hi h2.2 d h

theorem pids_ne_nil (τ : ATree) : τ.pids ≠ [] := by
  intro h
  have := rootPid_mem_pids τ
  rw [h] at this
  cases this

theorem good_height_lt (L I : Nat) :
    ∀ τ, ∀ lo hi, GoodT L I lo hi τ → τ.height < τ.pids.length := by
  intro τ
  induction τ using ATree.myInd with
  | hleaf pid items => intro lo hi _; simp [ATree.height, ATree.pids]
  | hnode pid cs ih =>
    intro lo hi hg
    have hgg : 1 ≤ cs.length ∧ cs.length ≤ I ∧ List.Chain' (· < ·) (tailKeys cs) ∧
        (∀ kk ∈ tailKeys cs, strictLo lo kk ∧ okHi hi kk) ∧
        (∀ l, lo = some l → headKey cs = l) ∧ GoodSeq L I lo hi cs := hg
    have hch : ∀ c ∈ cs, c.2.height < c.2.pids.length := by
      intro c hc
      obtain ⟨lo', hi', hgc⟩ := goodSeq_mem L I cs lo hi hgg.2.2.2.2.2 c hc
      exact ih c hc lo' hi' hgc
    have hne : cs ≠ [] := by
      intro h; rw [h] at hgg; simp at hgg
    have hmain : ∀ (ds : List (Nat × ATree)), (∀ c ∈ ds, c.2.height < c.2.pids.length) →
        ds ≠ [] → heightC ds < (pidsC ds).length := by
      intro ds
      induction ds with
      | nil => intro _ h; exact absurd rfl h
      | cons c rest ihd =>
        intro hall _
        rw [show heightC (c :: rest) = max c.2.height (heightC rest) from rfl,
          show pidsC (c :: rest) = c.2.pids ++ pidsC rest from rfl, List.length_append]
        have h1 := hall c (by simp)
        cases rest with
        | nil =>
          have h2 : 1 ≤ c.2.pids.length := by
            cases hpp : c.2.pids with
            | nil => exact absurd hpp (pids_ne_nil c.2)
            | cons a l => simp
          rw [show heightC ([] : List (Nat × ATree)) = 0 from rfl]
          simp
          omega
        | cons c2 rest2 =>
          have h2 := ihd (fun d hd => hall d (by simp [hd])) (by simp)
          omega
    rw [show (ATree.anode pid cs).height = heightC cs + 1 from rfl,
      show (ATree.anode pid cs).pids = pid :: pidsC cs from rfl, List.length_cons]
    have := hmain cs hch hne
    omega

theorem nodup_lt_length (l : List Nat) (n : Nat) (hnd : l.Nodup)
    (hb : ∀ p ∈ l, p < n) : l.length ≤ n := by
  have h1 : l.toFinset.card = l.length := List.toFinset_card_of_nodup hnd
  have h2 : l.toFinset ⊆ Finset.range n := by
    intro x hx
    rw [List.mem_toFinset] at hx
    rw [Finset.mem_range]
    exact hb x hx
  have h3 := Finset.card_le_card h2
  rw [h1, Finset.card_range] at h3
  exact h3

theorem find?_or (p : Nat × Nat → Bool) (l1 l2 : List (Nat × Nat)) :
    (l1 ++ l2).find? p = (l1.find? p).or (l2.find? p) := by
  induction l1 with
  | nil => simp
  | cons a l1 ih =>
    rw [List.cons_append]
    cases hp : p a with
    | true => rw [List.find?_cons_of_pos _ hp, List.find?_cons_of_pos _ hp]; rfl
    | false =>
      rw [List.find?_cons_of_neg _ (by simp [hp]), List.find?_cons_of_neg _ (by simp [hp]), ih]

theorem leafGetValue_middle (A mid B : List (Nat × Nat)) (k : Nat)
    (hA : ∀ p ∈ A, p.1 ≠ k) (hB : ∀ p ∈ B, p.1 ≠ k) :
    leafGetValue (A ++ mid ++ B) k = leafGetValue mid k := by
  have hAn : A.find? (fun p => p.1 == k) = none :=
    List.find?_eq_none.mpr (fun p hp => by simpa using hA p hp)
  have hBn : B.find? (fun p => p.1 == k) = none :=
    List.find?_eq_none.mpr (fun p hp => by simpa using hB p hp)
  rw [leafGetValue, leafGetValue, find?_or, find?_or, hAn, hBn]
  cases mid.find? (fun p => p.1 == k) <;> rfl

/-- GetValue on a well-laid-out tree reads the flattened association
list. -/
theorem getValue_eq (L I k : Nat) (t : Tree) (τ : ATree)
    (hLt : t.leafMaxSize = L)
    (hroot : t.root = some τ.rootPid)
    (hdec : DecT t none τ) (hgood : GoodT L I none none τ)
    (hnd : τ.pids.Nodup)
    (hb : ∀ p ∈ τ.pids, p < t.pages.length) :
    getValue t k = leafGetValue τ.toList k := by
  obtain ⟨C, lid, litems, llo, lhi, nx, hplug, hsp, hleafx, hsg, hlg, hlk1, hlk2, hsl, hsr, hdesc⟩ :=
    locate L I k t hLt τ none none none hdec hgood trivial trivial
  have hfuel : τ.height < treeFuel t := by
    have h1 := good_height_lt L I τ none none hgood
    have h2 := nodup_lt_length τ.pids t.pages.length hnd hb
    rw [treeFuel]
    omega
  have hd := hdesc (treeFuel t) hfuel
  rw [getValue, hroot]
  simp only [hd, hleafx]
  rw [hplug, plug_toList]
  rw [show (ATree.aleaf lid litems).toList = litems from rfl]
  rw [leafGetValue_middle (spineLeft C) litems (spineRight C) k
    (fun p hp => by have := hsl p hp; omega)
    (fun p hp => by have := hsr p hp; omega)]

/-- The ordered-insert result as a list function (the code computes it via
the backward shifting loop on the reversed list). -/
def insList (l : List (Nat × Nat)) (k v : Nat) : List (Nat × Nat) :=
  (insRevAux (k, v) l.reverse).reverse

theorem insRevAux_split (e : Nat × Nat) :
    ∀ r : List (Nat × Nat), ∃ r1 r2, r = r1 ++ r2 ∧ insRevAux e r = r1 ++ e :: r2 ∧
      (∀ p ∈ r1, e.1 < p.1) ∧ (∀ p ∈ r2.head?, ¬ e.1 < p.1) := by
  intro r
  induction r with
  | nil => exact ⟨[], [], rfl, rfl, by simp, by simp⟩
  | cons x xs ih =>
    by_cases hc : e.1 < x.1
    · obtain ⟨r1, r2, h1, h2, h3, h4⟩ := ih
      refine ⟨x :: r1, r2, by rw [List.cons_append, ← h1], ?_, ?_, h4⟩
      · rw [show insRevAux e (x :: xs) = (if e.1 < x.1 then x :: insRevAux e xs else e :: x :: xs) from rfl,
          if_pos hc, h2, List.cons_append]
      · intro p hp
        rcases List.mem_cons.mp hp with h | h
        · rw [h]; exact hc
        · exact h3 p h
    · refine ⟨[], x :: xs, rfl, ?_, by simp, by simpa using hc⟩
      rw [show insRevAux e (x :: xs) = (if e.1 < x.1 then x :: insRevAux e xs else e :: x :: xs) from rfl,
        if_neg hc, List.nil_append]

theorem insList_decomp (l : List (Nat × Nat)) (k v : Nat) :
    ∃ l1 l2, l = l1 ++ l2 ∧ insList l k v = l1 ++ (k, v) :: l2 ∧
      (∀ p ∈ l2, k < p.1) ∧ (∀ p ∈ l1.getLast?, ¬ k < p.1) := by
  obtain ⟨r1, r2, h1, h2, h3, h4⟩ := insRevAux_split (k, v) l.reverse
  refine ⟨r2.reverse, r1.reverse, ?_, ?_, ?_, ?_⟩
  · rw [← List.reverse_reverse l, h1]
    simp
  · rw [insList, h2]
    simp
  · intro p hp
    exact h3 p (List.mem_reverse.mp hp)
  · intro p hp
    rw [List.getLast?_reverse] at hp
    exact h4 p hp

theorem chain'_fst_append (l1 l2 : List (Nat × Nat)) (e : Nat × Nat)
    (h1 : List.Chain' (· < ·) ((l1 ++ l2).map Prod.fst))
    (h2 : ∀ p ∈ l1.getLast?, p.1 < e.1)
    (h3 : ∀ p ∈ l2.head?, e.1 < p.1) :
    List.Chain' (· < ·) ((l1 ++ e :: l2).map Prod.fst) := by
  rw [List.map_append, List.map_cons]
  rw [List.map_append] at h1
  rw [List.chain'_append] at h1 ⊢
  refine ⟨h1.1, ?_, ?_⟩
  · rw [List.chain'_cons']
    refine ⟨?_, h1.2.1⟩
    intro y hy
    rw [List.head?_map] at hy
    obtain ⟨p, hp, hp2⟩ := Option.map_eq_some'.mp hy
    have := h3 p hp
    omega
  · intro x hx y hy
    rw [List.getLast?_map] at hx
    obtain ⟨p, hp, hp2⟩ := Option.map_eq_some'.mp hx
    rw [List.head?_cons] at hy
    have h4 := h2 p hp
    have : y = e.1 := by
      have := hy
      simp at this
      omega
    omega

theorem insList_facts (l : List (Nat × Nat)) (k v : Nat)
    (hch : List.Chain' (· < ·) (l.map Prod.fst))
    (hno : ∀ p ∈ l, p.1 ≠ k) :
    List.Chain' (· < ·) ((insList l k v).map Prod.fst) ∧
    (∀ p ∈ insList l k v, p = (k, v) ∨ p ∈ l) ∧
    (insList l k v).length = l.length + 1 ∧
    leafGetValue (insList l k v) k = some v ∧
    (∀ k', k' ≠ k → leafGetValue (insList l k v) k' = leafGetValue l k') := by
  obtain ⟨l1, l2, h1, h2, h3, h4⟩ := insList_decomp l k v
  have hmem1 : ∀ p ∈ l1, p ∈ l := fun p hp => h1 ▸ List.mem_append.mpr (Or.inl hp)
  have hmem2 : ∀ p ∈ l2, p ∈ l := fun p hp => h1 ▸ List.mem_append.mpr (Or.inr hp)
  refine ⟨?_, ?_, ?_, ?_, ?_⟩
  · rw [h2]
    refine chain'_fst_append l1 l2 (k, v) (h1 ▸ hch) ?_ ?_
    · intro p hp
      have h5 := h4 p hp
      have h6 := hno p (hmem1 p (List.mem_of_mem_getLast? hp))
      simp only
      omega
    · intro p hp
      exact h3 p (List.mem_of_mem_head? hp)
  · intro p hp
    rw [h2] at hp
    rcases List.mem_append.mp hp with h | h
    · exact Or.inr (hmem1 p h)
    · rcases List.mem_cons.mp h with h | h
      · exact Or.inl h
      · exact Or.inr (hmem2 p h)
  · rw [h2, h1]
    simp
    omega
  · rw [h2, leafGetValue, find?_or]
    have hAn : l1.find? (fun p => p.1 == k) = none :=
      List.find?_eq_none.mpr (fun p hp => by simpa using hno p (hmem1 p hp))
    rw [hAn, List.find?_cons_of_pos _ (by simp)]
    rfl
  · intro k' hk'
    rw [h2, leafGetValue, leafGetValue, h1, find?_or, find?_or]
    rw [List.find?_cons_of_neg _ (by simpa using fun h : k = k' => hk' h.symm)]

/-- LeafPage::RemoveKey on a list with a first occurrence of the key, and
without one. -/
theorem removeKey_split (k : Nat) :
    ∀ l : List (Nat × Nat),
    (k ∈ l.map Prod.fst → ∃ l1 v0 l2, l = l1 ++ (k, v0) :: l2 ∧ (∀ p ∈ l1, p.1 ≠ k) ∧
       leafRemoveKey k l = (true, l1 ++ l2)) ∧
    (k ∉ l.map Prod.fst → leafRemoveKey k l = (false, l)) := by
  intro l
  induction l with
  | nil => exact ⟨fun h => absurd h (by simp), fun _ => rfl⟩
  | cons x xs ih =>
    by_cases hc : x.1 = k
    · constructor
      · intro _
        refine ⟨[], x.2, xs, by rw [List.nil_append, ← hc], by simp, ?_⟩
        rw [show leafRemoveKey k (x :: xs) =
          (if x.1 == k then (true, xs) else
            ((leafRemoveKey k xs).1, x :: (leafRemoveKey k xs).2)) from rfl]
        rw [if_pos (by simpa using hc), List.nil_append]
      · intro h
        exact absurd (by simp [← hc]) h
    · have hstep : leafRemoveKey k (x :: xs) =
          ((leafRemoveKey k xs).1, x :: (leafRemoveKey k xs).2) := by
        rw [show leafRemoveKey k (x :: xs) =
          (if x.1 == k then (true, xs) else
            ((leafRemoveKey k xs).1, x :: (leafRemoveKey k xs).2)) from rfl]
        rw [if_neg (by simpa using hc)]
      constructor
      · intro h
        have h2 : k ∈ xs.map Prod.fst := by
          rcases List.mem_map.mp h with ⟨p, hp, hp2⟩
          rcases List.mem_cons.mp hp with h3 | h3
          · exact absurd (h3 ▸ hp2) hc
          · rw [← hp2]; exact List.mem_map_of_mem Prod.fst h3
        obtain ⟨l1, v0, l2, h3, h4, h5⟩ := (ih.1) h2
        refine ⟨x :: l1, v0, l2, by rw [h3, List.cons_append], ?_, ?_⟩
        · intro p hp
          rcases List.mem_cons.mp hp with h6 | h6
          · rw [h6]; exact hc
          · exact h4 p h6
        · rw [hstep, h5, List.cons_append]
      · intro h
        have h2 : k ∉ xs.map Prod.fst := fun hh => h (by simp [hh])
        rw [hstep, ih.2 h2]

theorem removeKey_sublist (k : Nat) :
    ∀ l : List (Nat × Nat), (leafRemoveKey k l).2.Sublist l := by
  intro l
  induction l with
  | nil => simp [leafRemoveKey]
  | cons x xs ih =>
    rw [show leafRemoveKey k (x :: xs) =
      (if x.1 == k then (true, xs) else
        ((leafRemoveKey k xs).1, x :: (leafRemoveKey k xs).2)) from rfl]
    by_cases hc : x.1 = k
    · rw [if_pos (by simpa using hc)]
      exact (List.sublist_cons_self x xs)
    · rw [if_neg (by simpa using hc)]
      exact List.Sublist.cons₂ x ih

theorem removeKey_facts (l : List (Nat × Nat)) (k : Nat)
    (hch : List.Chain' (· < ·) (l.map Prod.fst)) :
    List.Chain' (· < ·) (((leafRemoveKey k l).2).map Prod.fst) ∧
    (∀ p ∈ (leafRemoveKey k l).2, p ∈ l) ∧
    leafGetValue (leafRemoveKey k l).2 k = none ∧
    (∀ k', k' ≠ k → leafGetValue (leafRemoveKey k l).2 k' = leafGetValue l k') ∧
    (k ∈ l.map Prod.fst → l.length = (leafRemoveKey k l).2.length + 1) ∧
    (k ∉ l.map Prod.fst → leafRemoveKey k l = (false, l)) := by
  have hsub := removeKey_sublist k l
  have hsplit := removeKey_split k l
  by_cases hmem : k ∈ l.map Prod.fst
  · obtain ⟨l1, v0, l2, h1, h2, h3⟩ := hsplit.1 hmem
    have h2' : ∀ p ∈ l2, p.1 ≠ k := by
      intro p hp
      have hc := h1 ▸ hch
      rw [List.map_append, List.map_cons, List.chain'_append] at hc
      have h4 := List.chain'_iff_pairwise.mp hc.2.1
      have h5 := (List.pairwise_cons.mp h4).1 p.1 (List.mem_map_of_mem Prod.fst hp)
      omega
    have hsub2 : (l1 ++ l2).Sublist l := by
      rw [h1]
      exact List.Sublist.append_left (List.sublist_cons_self (k, v0) l2) l1
    refine ⟨?_, ?_, ?_, ?_, ?_, fun h => absurd hmem h⟩
    · rw [h3]
      exact hch.sublist (hsub2.map Prod.fst)
    · intro p hp
      exact List.Sublist.mem hp hsub
    · rw [h3, leafGetValue, find?_or,
        List.find?_eq_none.mpr (fun p hp => by simpa using h2 p hp),
        List.find?_eq_none.mpr (fun p hp => by simpa using h2' p hp)]
      rfl
    · intro k' hk'
      rw [h3, h1, leafGetValue, leafGetValue, find?_or, find?_or,
        List.find?_cons_of_neg _ (by simpa using fun h : k = k' => hk' h.symm)]
    · intro _
      rw [h3, h1]
      simp
      omega
  · rw [hsplit.2 hmem]
    refine ⟨hch, fun p hp => hp, ?_, fun k' _ => rfl, fun h => absurd h hmem, fun _ => rfl⟩
    rw [leafGetValue, List.find?_eq_none.mpr (fun p hp => ?_)]
    · rfl
    · intro hc
      simp at hc
      exact hmem (by rw [← hc]; exact List.mem_map_of_mem Prod.fst hp)

theorem goodT_node_iff (L I : Nat) (lo hi : Option Nat) (pid : Nat) (cs : List (Nat × ATree)) :
    GoodT L I lo hi (.anode pid cs) ↔
      (1 ≤ cs.length ∧ cs.length ≤ I ∧
       List.Chain' (· < ·) (tailKeys cs) ∧
       (∀ kk ∈ tailKeys cs, strictLo lo kk ∧ okHi hi kk) ∧
       (∀ l, lo = some l → headKey cs = l) ∧
       GoodSeq L I lo hi cs) := Iff.rfl

theorem goodT_leaf_iff (L I : Nat) (lo hi : Option Nat) (pid : Nat) (items : List (Nat × Nat)) :
    GoodT L I lo hi (.aleaf pid items) ↔
      (items.length ≤ L ∧ List.Chain' (· < ·) (items.map Prod.fst) ∧
       (∀ p ∈ items, okLo lo p.1 ∧ okHi hi p.1)) := Iff.rfl

theorem insRevAux_pass (e : Nat × Nat) :
    ∀ (l1 l2 : List (Nat × Nat)), (∀ q ∈ l1, e.1 < q.1) →
    insRevAux e (l1 ++ l2) = l1 ++ insRevAux e l2 := by
  intro l1
  induction l1 with
  | nil => intro l2 _; rfl
  | cons x xs ih =>
    intro l2 hq
    rw [List.cons_append,
      show insRevAux e (x :: (xs ++ l2)) =
        (if e.1 < x.1 then x :: insRevAux e (xs ++ l2) else e :: x :: (xs ++ l2)) from rfl,
      if_pos (hq x (by simp)), ih l2 (fun q hqq => hq q (by simp [hqq])), List.cons_append]

theorem insRevAux_stop (e : Nat × Nat) (x : Nat × Nat) (xs : List (Nat × Nat))
    (h : ¬ e.1 < x.1) : insRevAux e (x :: xs) = e :: x :: xs := by
  rw [show insRevAux e (x :: xs) =
    (if e.1 < x.1 then x :: insRevAux e xs else e :: x :: xs) from rfl, if_neg h]

/-- InternalPage::InsertKV places the pushed separator right after the hole
edge when it exceeds the hole key and stays below every post key. -/
theorem interInsertKV_placement (maxSz : Nat) (preE postE : List (Nat × Nat))
    (hk ap s bp : Nat)
    (hnf : ¬ (preE ++ (hk, ap) :: postE).length = maxSz)
    (hhk : preE = [] ∨ hk < s)
    (hpost : ∀ q ∈ postE, s < q.1) :
    interInsertKV maxSz (preE ++ (hk, ap) :: postE) s bp =
      some (preE ++ (hk, ap) :: (s, bp) :: postE) := by
  unfold interInsertKV
  rw [if_neg hnf]
  cases hpre : preE with
  | nil =>
    rw [List.nil_append]
    rw [show (match ((hk, ap) :: postE : List (Nat × Nat)) with
      | [] => (none : Option (List (Nat × Nat)))
      | x0 :: rest => some (x0 :: (insRevAux (s, bp) rest.reverse).reverse)) =
      some ((hk, ap) :: (insRevAux (s, bp) postE.reverse).reverse) from rfl]
    rw [show postE.reverse = postE.reverse ++ [] from by simp]
    rw [insRevAux_pass (s, bp) postE.reverse []
      (fun q hq => hpost q (List.mem_reverse.mp hq))]
    rw [show insRevAux (s, bp) [] = [(s, bp)] from rfl]
    simp
  | cons p0 pre' =>
    rw [List.cons_append]
    rw [show (match (p0 :: (pre' ++ (hk, ap) :: postE) : List (Nat × Nat)) with
      | [] => (none : Option (List (Nat × Nat)))
      | x0 :: rest => some (x0 :: (insRevAux (s, bp) rest.reverse).reverse)) =
      some (p0 :: (insRevAux (s, bp) (pre' ++ (hk, ap) :: postE).reverse).reverse) from rfl]
    have hhk2 : hk < s := by
      rcases hhk with h | h
      · rw [hpre] at h; cases h
      · exact h
    rw [List.reverse_append, List.reverse_cons]
    rw [show postE.reverse ++ [(hk, ap)] ++ pre'.reverse =
      postE.reverse ++ ((hk, ap) :: pre'.reverse) from by simp]
    rw [insRevAux_pass (s, bp) postE.reverse _
      (fun q hq => hpost q (List.mem_reverse.mp hq))]
    rw [insRevAux_stop (s, bp) (hk, ap) pre'.reverse (by simp; omega)]
    simp

theorem chain'_tail_insert (pk : List Nat) (hk s : Nat) (postK : List Nat)
    (h : List.Chain' (· < ·) ((pk ++ hk :: postK).tail))
    (h1 : pk = [] ∨ hk < s) (h2 : ∀ y ∈ postK.head?, s < y) :
    List.Chain' (· < ·) ((pk ++ hk :: s :: postK).tail) := by
  cases pk with
  | nil =>
    rw [List.nil_append, List.tail_cons]
    rw [List.nil_append, List.tail_cons] at h
    rw [List.chain'_cons']
    exact ⟨h2, h⟩
  | cons p0 pk' =>
    have hhk : hk < s := by
      rcases h1 with h1 | h1
      · cases h1
      · exact h1
    rw [List.cons_append, List.tail_cons] at h ⊢
    rw [show pk' ++ hk :: s :: postK = (pk' ++ [hk]) ++ s :: postK from by simp]
    rw [show pk' ++ hk :: postK = (pk' ++ [hk]) ++ postK from by simp] at h
    rw [List.chain'_append] at h ⊢
    refine ⟨h.1, ?_, ?_⟩
    · rw [List.chain'_cons']
      exact ⟨h2, h.2.1⟩
    · intro x hx y hy
      rw [List.head?_cons] at hy
      have hx2 : hk = x := by
        rw [List.getLast?_concat] at hx
        simpa using hx
      have hy2 : s = y := by simpa using hy
      omega

/-- The flattened contents with the hole's contents substituted. -/
def spineFlat : List Fr → List (Nat × Nat) → List (Nat × Nat)
  | [], inner => inner
  | F :: C, inner => spineFlat C (toListC F.pre ++ inner ++ toListC F.post)

theorem spineFlat_eq (C : List Fr) (inner : List (Nat × Nat)) :
    spineFlat C inner = spineLeft C ++ inner ++ spineRight C := by
  induction C generalizing inner with
  | nil => simp [spineFlat, spineLeft, spineRight]
  | cons F CC ih =>
    rw [show spineFlat (F :: CC) inner = spineFlat CC (toListC F.pre ++ inner ++ toListC F.post) from rfl,
      ih, show spineLeft (F :: CC) = spineLeft CC ++ toListC F.pre from rfl,
      show spineRight (F :: CC) = toListC F.post ++ spineRight CC from rfl]
    simp

theorem getNode_rootUpd (t : Tree) (r h : Option Nat) (p : Nat) :
    Tree.getNode { t with root := r, headerRoot := h } p = t.getNode p := rfl

/-- The frames and side subtrees survive any store change off their own
pages. -/
theorem spineDec_frame (t t' : Tree) (topPar : Option Nat)
    (hL : t'.leafMaxSize = t.leafMaxSize) (hI : t'.internalMaxSize = t.internalMaxSize) :
    ∀ C hp, (∀ p ∈ spinePids C, t'.getNode p = t.getNode p) →
    spineDec t topPar C hp → spineDec t' topPar C hp := by
  intro C
  induction C with
  | nil => intro hp _ _; trivial
  | cons F CC ih =>
    intro hp hsame hsp
    obtain ⟨h1, h2, h3, h4⟩ := hsp
    have hFpid : F.pid ∈ spinePids (F :: CC) := by
      rw [show spinePids (F :: CC) = frPids F ++ spinePids CC from rfl]
      simp [frPids]
    refine ⟨by rw [hI, hsame F.pid hFpid, h1], ?_, ?_, ?_⟩
    · intro c hc
      refine DecT_frame t t' hL hI c.2 (some F.pid) ?_ (h2 c hc)
      intro p hpp
      refine hsame p ?_
      rw [show spinePids (F :: CC) = frPids F ++ spinePids CC from rfl]
      refine List.mem_append.mpr (Or.inl ?_)
      rw [frPids]
      exact List.mem_cons.mpr (Or.inr (List.mem_append.mpr (Or.inl ((mem_pidsC F.pre p).mpr ⟨c, hc, hpp⟩))))
    · intro c hc
      refine DecT_frame t t' hL hI c.2 (some F.pid) ?_ (h3 c hc)
      intro p hpp
      refine hsame p ?_
      rw [show spinePids (F :: CC) = frPids F ++ spinePids CC from rfl]
      refine List.mem_append.mpr (Or.inl ?_)
      rw [frPids]
      exact List.mem_cons.mpr (Or.inr (List.mem_append.mpr (Or.inr ((mem_pidsC F.post p).mpr ⟨c, hc, hpp⟩))))
    · refine ih F.pid ?_ h4
      intro p hpp
      refine hsame p ?_
      rw [show spinePids (F :: CC) = frPids F ++ spinePids CC from rfl]
      exact List.mem_append.mpr (Or.inr hpp)

theorem getNode_setParent_other (t : Tree) (pid : Nat) (x : Option Nat) (p : Nat)
    (h : p ≠ pid) : (setParent t pid x).getNode p = t.getNode p := by
  unfold setParent
  cases hx : t.pages.get? pid with
  | none => rfl
  | some n => cases n <;> exact getNode_setNode_other t pid p _ h

theorem setParent_leafMax (t : Tree) (pid : Nat) (x : Option Nat) :
    (setParent t pid x).leafMaxSize = t.leafMaxSize := by
  unfold setParent
  cases hx : t.pages.get? pid with
  | none => rfl
  | some n => cases n <;> rfl

theorem setParent_interMax (t : Tree) (pid : Nat) (x : Option Nat) :
    (setParent t pid x).internalMaxSize = t.internalMaxSize := by
  unfold setParent
  cases hx : t.pages.get? pid with
  | none => rfl
  | some n => cases n <;> rfl

theorem setParent_pagesLength (t : Tree) (pid : Nat) (x : Option Nat) :
    (setParent t pid x).pages.length = t.pages.length := by
  unfold setParent
  cases hx : t.pages.get? pid with
  | none => rfl
  | some n => cases n <;> simp [setNode]

theorem setParent_root (t : Tree) (pid : Nat) (x : Option Nat) :
    (setParent t pid x).root = t.root := by
  unfold setParent
  cases hx : t.pages.get? pid with
  | none => rfl
  | some n => cases n <;> rfl

/-- Reparenting every child root in sequence (the loop after an internal
split). -/
theorem reparent_fold (npid : Nat) :
    ∀ (cs : List (Nat × ATree)) (t0 : Tree),
    (pidsC cs).Nodup →
    (∀ c ∈ cs, ∃ par0, DecT t0 par0 c.2) →
    ∃ t1, (edgesOf cs).foldl (fun acc pr => setParent acc pr.2 (some npid)) t0 = t1 ∧
      (∀ p, (∀ c ∈ cs, p ≠ c.2.rootPid) → t1.getNode p = t0.getNode p) ∧
      (∀ c ∈ cs, DecT t1 (some npid) c.2) ∧
      t1.leafMaxSize = t0.leafMaxSize ∧ t1.internalMaxSize = t0.internalMaxSize ∧
      t1.pages.length = t0.pages.length ∧ t1.root = t0.root := by
  intro cs
  induction cs with
  | nil =>
    intro t0 _ _
    exact ⟨t0, rfl, fun _ _ => rfl, fun c hc => absurd hc (by simp), rfl, rfl, rfl, rfl⟩
  | cons c cs ih =>
    intro t0 hnd hdec
    have hndc : (c.2.pids).Nodup ∧ (pidsC cs).Nodup ∧
        ∀ q ∈ c.2.pids, q ∉ pidsC cs := by
      rw [show pidsC (c :: cs) = c.2.pids ++ pidsC cs from rfl] at hnd
      have h := List.nodup_append.mp hnd
      exact ⟨h.1, h.2.1, fun q hq hq2 => h.2.2 hq hq2⟩
    obtain ⟨par0, hd0⟩ := hdec c (by simp)
    have hroot_notin : c.2.rootPid ∉ pidsC cs := hndc.2.2 c.2.rootPid (rootPid_mem_pids c.2)
    set t0' := setParent t0 c.2.rootPid (some npid) with ht0'
    have hd0' : DecT t0' (some npid) c.2 := DecT_setParent t0 c.2 par0 (some npid) hd0 hndc.1
    have hdec' : ∀ d ∈ cs, ∃ par1, DecT t0' par1 d.2 := by
      intro d hd
      obtain ⟨par1, hdd⟩ := hdec d (by simp [hd])
      refine ⟨par1, DecT_frame t0 t0' (setParent_leafMax _ _ _) (setParent_interMax _ _ _)
        d.2 par1 ?_ hdd⟩
      intro p hp
      refine getNode_setParent_other t0 c.2.rootPid (some npid) p ?_
      intro hpe
      exact hroot_notin (hpe ▸ (mem_pidsC cs p).mpr ⟨d, hd, hp⟩)
    obtain ⟨t1, hfold, hframe, hdec1, hL1, hI1, hlen1, hrt1⟩ := ih t0' hndc.2.1 hdec'
    refine ⟨t1, ?_, ?_, ?_, by rw [hL1]; exact setParent_leafMax _ _ _,
      by rw [hI1]; exact setParent_interMax _ _ _, by rw [hlen1]; exact setParent_pagesLength _ _ _,
      by rw [hrt1]; exact setParent_root _ _ _⟩
    · rw [show edgesOf (c :: cs) = (c.1, c.2.rootPid) :: edgesOf cs from rfl]
      rw [List.foldl_cons]
      exact hfold
    · intro p hp
      rw [hframe p (fun d hd => hp d (by simp [hd]))]
      exact getNode_setParent_other t0 c.2.rootPid (some npid) p (hp c (by simp))
    · intro d hd
      rcases List.mem_cons.mp hd with h | h
      · subst h
        refine DecT_frame t0' t1 hL1 hI1 d.2 (some npid) ?_ hd0'
        intro p hp
        refine hframe p ?_
        intro e he hpe
        have : e.2.rootPid ∈ pidsC cs := (mem_pidsC cs e.2.rootPid).mpr ⟨e, he, rootPid_mem_pids e.2⟩
        exact hndc.2.2 p hp (hpe ▸ this)
      · exact hdec1 d h

/-- Reassembling the decode of the whole tree from a decoded spine and
hole. -/
theorem plug_dec (t : Tree) :
    ∀ (C : List Fr) (h : ATree) (topPar : Option Nat),
    spineDec t topPar C h.rootPid → DecT t (parentPidOf C topPar) h →
    DecT t topPar (plug C h) := by
  intro C
  induction C with
  | nil => intro h topPar _ hd; exact hd
  | cons F CC ih =>
    intro h topPar hsp hd
    obtain ⟨h1, h2, h3, h4⟩ := hsp
    rw [show plug (F :: CC) h = plug CC (plug1 F h) from rfl]
    refine ih (plug1 F h) topPar (by rw [show (plug1 F h).rootPid = F.pid from rfl]; exact h4) ?_
    rw [show plug1 F h = ATree.anode F.pid (F.pre ++ (F.hk, h) :: F.post) from rfl]
    constructor
    · rw [edgesOf_append, show edgesOf ((F.hk, h) :: F.post) = (F.hk, h.rootPid) :: edgesOf F.post from rfl]
      exact h1
    · rw [DecL_iff_mem]
      intro c hc
      rcases List.mem_append.mp hc with hm | hm
      · exact h2 c hm
      · rcases List.mem_cons.mp hm with hm2 | hm2
        · rw [hm2]
          exact hd
        · exact h3 c hm2

theorem headKey_frame (pre : List (Nat × ATree)) (hk : Nat) (h : ATree) (post : List (Nat × ATree)) :
    headKey (pre ++ (hk, h) :: post) = ((pre.map Prod.fst) ++ hk :: (post.map Prod.fst)).headD 0 := by
  cases pre <;> rfl

theorem tailKeys_frame (pre : List (Nat × ATree)) (hk : Nat) (h : ATree) (post : List (Nat × ATree)) :
    tailKeys (pre ++ (hk, h) :: post) = ((pre.map Prod.fst) ++ hk :: (post.map Prod.fst)).tail := by
  simp [tailKeys]

/-- Reassembling the search invariant of the whole tree from the spine
bookkeeping and a good hole. -/
theorem plug_good (L I : Nat) :
    ∀ (C : List Fr) (lo hi : Option Nat) (h : ATree),
    spineGood L I none none C lo hi → GoodT L I lo hi h →
    GoodT L I none none (plug C h) := by
  intro C
  induction C with
  | nil =>
    intro lo hi h hsp hg
    obtain ⟨h1, h2⟩ := hsp
    subst h1; subst h2
    exact hg
  | cons F CC ih =>
    intro lo hi h hsp hg
    obtain ⟨lo', hi', hsp', hfr, hlo, hhi⟩ := hsp
    rw [show plug (F :: CC) h = plug CC (plug1 F h) from rfl]
    refine ih lo' hi' (plug1 F h) hsp' ?_
    obtain ⟨hf1, hf2, hf3, hf4, hf5, hf6⟩ := hfr
    rw [show plug1 F h = ATree.anode F.pid (F.pre ++ (F.hk, h) :: F.post) from rfl]
    rw [goodT_node_iff]
    refine ⟨by simp; omega, by have := hf1; simp; omega, ?_, ?_, ?_, ?_⟩
    · rw [tailKeys_frame]
      exact hf2
    · rw [tailKeys_frame]
      exact hf3
    · intro l hl
      rw [headKey_frame]
      exact hf4 l hl
    · refine goodSeq_assemble L I F.pre F.hk h F.post lo' hi' hf5 ?_ hf6
      rw [← hlo, ← hhi]
      exact hg

theorem take_app_le (l1 l2 : List (Nat × Nat)) (n : Nat) (h : n ≤ l1.length) :
    (l1 ++ l2).take n = l1.take n := by
  rw [List.take_append_eq_append_take, show n - l1.length = 0 from by omega]
  simp

theorem drop_app_le (l1 l2 : List (Nat × Nat)) (n : Nat) (h : n ≤ l1.length) :
    (l1 ++ l2).drop n = l1.drop n ++ l2 := by
  rw [List.drop_append_eq_append_drop, show n - l1.length = 0 from by omega]
  simp

theorem getD_at_append (l1 l2 : List (Nat × Nat)) (d : Nat × Nat) :
    (l1 ++ l2).getD l1.length d = l2.getD 0 d := by
  simp [List.getD_eq_getElem?_getD, List.getElem?_append_right (Nat.le_refl l1.length)]

theorem tailKeys_frame2 (pre : List (Nat × ATree)) (hk : Nat) (a : ATree) (s : Nat) (b : ATree)
    (post : List (Nat × ATree)) :
    tailKeys (pre ++ (hk, a) :: (s, b) :: post) =
      ((pre.map Prod.fst) ++ hk :: s :: (post.map Prod.fst)).tail := by
  simp [tailKeys]

/-- The well-formedness facts of a frame extended with the pushed
separator and new child inserted after the hole. -/
theorem frame_extend (L I : Nat) (F : Fr) (a b : ATree) (s : Nat) (lo' hi' lo hi : Option Nat)
    (hfr : FrOK L I F lo' hi') (hlo : lo = chLo lo' F.pre F.hk) (hhi : hi = chHi hi' F.post)
    (hga : GoodT L I lo (some s) a) (hgb : GoodT L I (some s) hi b)
    (hs1 : strictLo lo s) (hs2 : okHi hi s) :
    GoodSeq L I lo' hi' (F.pre ++ (F.hk, a) :: (s, b) :: F.post) ∧
    List.Chain' (· < ·) (tailKeys (F.pre ++ (F.hk, a) :: (s, b) :: F.post)) ∧
    (∀ kk ∈ tailKeys (F.pre ++ (F.hk, a) :: (s, b) :: F.post), strictLo lo' kk ∧ okHi hi' kk) ∧
    (∀ l, lo' = some l → headKey (F.pre ++ (F.hk, a) :: (s, b) :: F.post) = l) ∧
    (F.pre = [] ∨ F.hk < s) ∧ (∀ d ∈ F.post.head?, s < d.1) ∧
    strictLo lo' s ∧ okHi hi' s := by
  obtain ⟨hf1, hf2, hf3, hf4, hf5, hf6⟩ := hfr
  have hhkor : F.pre = [] ∨ F.hk < s := by
    cases hpre : F.pre with
    | nil => exact Or.inl rfl
    | cons p0 pre' =>
      refine Or.inr ?_
      have : lo = some F.hk := by rw [hlo, hpre]; rfl
      rw [this] at hs1
      exact hs1
  have hposthead : ∀ d ∈ F.post.head?, s < d.1 := by
    intro d hd
    cases hpost : F.post with
    | nil => rw [hpost] at hd; cases hd
    | cons d0 rest =>
      rw [hpost] at hd
      have hd0 : d0 = d := by simpa using hd
      have : hi = some d0.1 := by rw [hhi, hpost]; rfl
      rw [this] at hs2
      rw [← hd0]
      exact hs2
  have hslo : strictLo lo' s := by
    cases hpre : F.pre with
    | nil => rw [hlo, hpre] at hs1; exact hs1
    | cons p0 pre' =>
      have hhks : F.hk < s := by
        rcases hhkor with h | h
        · rw [hpre] at h; cases h
        · exact h
      have hmem : F.hk ∈ frTailKeys F := by
        rw [frTailKeys, hpre]
        simp
      have h3 := (hf3 F.hk hmem).1
      cases lo' with
      | none => trivial
      | some l =>
        have : l < F.hk := h3
        show l < s
        omega
  have hshi : okHi hi' s := by
    cases hpost : F.post with
    | nil => rw [hhi, hpost] at hs2; exact hs2
    | cons d0 rest =>
      have hsd : s < d0.1 := hposthead d0 (by rw [hpost]; simp)
      have hmem : d0.1 ∈ frTailKeys F := by
        rw [frTailKeys, hpost]
        cases F.pre <;> simp
      have h3 := (hf3 d0.1 hmem).2
      cases hi' with
      | none => trivial
      | some hh =>
        have : d0.1 < hh := h3
        show s < hh
        omega
  refine ⟨?_, ?_, ?_, ?_, hhkor, hposthead, hslo, hshi⟩
  · refine goodSeq_assemble L I F.pre F.hk a ((s, b) :: F.post) lo' hi' hf5 ?_ ?_
    · rw [show chHi hi' ((s, b) :: F.post) = some s from rfl, ← hlo]
      exact hga
    · show GoodSeq L I (some s) hi' ((s, b) :: F.post)
      cases hpost : F.post with
      | nil =>
        rw [show GoodSeq L I (some s) hi' [(s, b)] = GoodT L I (some s) hi' b from rfl]
        have hhie : hi = hi' := by rw [hhi, hpost]; rfl
        rw [← hhie]
        exact hgb
      | cons d0 rest =>
        rw [show GoodSeq L I (some s) hi' ((s, b) :: d0 :: rest) =
          (GoodT L I (some s) (some d0.1) b ∧ GoodSeq L I (some d0.1) hi' (d0 :: rest)) from rfl]
        constructor
        · have hhie : hi = some d0.1 := by rw [hhi, hpost]; rfl
          rw [← hhie]
          exact hgb
        · rw [hpost] at hf6
          exact hf6
  · rw [tailKeys_frame2]
    refine chain'_tail_insert (F.pre.map Prod.fst) F.hk s (F.post.map Prod.fst) ?_ ?_ ?_
    · rw [← frTailKeys]
      exact hf2
    · rcases hhkor with h | h
      · exact Or.inl (by rw [h]; rfl)
      · exact Or.inr h
    · intro y hy
      cases hpost : F.post with
      | nil => rw [hpost] at hy; cases hy
      | cons d0 rest =>
        rw [hpost] at hy
        have hyd : d0.1 = y := by simpa using hy
        rw [← hyd]
        exact hposthead d0 (by rw [hpost]; simp)
  · intro kk hkk
    rw [tailKeys_frame2] at hkk
    have hsplit : kk = s ∨ kk ∈ frTailKeys F := by
      rw [frTailKeys]
      cases hpre : F.pre with
      | nil =>
        rw [hpre] at hkk
        simp only [List.map_nil, List.nil_append, List.tail_cons] at hkk ⊢
        rcases List.mem_cons.mp hkk with h | h
        · exact Or.inl h
        · exact Or.inr h
      | cons p0 pre' =>
        rw [hpre] at hkk
        simp only [List.map_cons, List.cons_append, List.tail_cons] at hkk ⊢
        rcases List.mem_append.mp hkk with h | h
        · exact Or.inr (List.mem_append.mpr (Or.inl h))
        · rcases List.mem_cons.mp h with h2 | h2
          · exact Or.inr (List.mem_append.mpr (Or.inr (by rw [h2]; simp)))
          · rcases List.mem_cons.mp h2 with h3 | h3
            · exact Or.inl h3
            · exact Or.inr (List.mem_append.mpr (Or.inr (by simp [h3])))
    rcases hsplit with h | h
    · rw [h]; exact ⟨hslo, hshi⟩
    · exact hf3 kk h
  · intro l hl
    have h4 := hf4 l hl
    rw [headKey_frame]
    rw [frHeadKey] at h4
    cases hpre : F.pre with
    | nil => rw [hpre] at h4; simpa using h4
    | cons p0 pre' => rw [hpre] at h4; simpa using h4

/-- The internal split of a full frame is the split of the extended child
list at max - mid + 1. -/
theorem splitInternalItems_eq (I : Nat) (hI : 3 ≤ I) (preE postE : List (Nat × Nat))
    (hk ap s bp : Nat)
    (hfull : (preE ++ (hk, ap) :: postE).length = I)
    (hhk : preE = [] ∨ hk < s)
    (hpost : ∀ q ∈ postE, s < q.1) :
    splitInternalItems I (preE ++ (hk, ap) :: postE) s bp =
      ((preE ++ (hk, ap) :: (s, bp) :: postE).take (I - (I + 1) / 2 + 1),
       (preE ++ (hk, ap) :: (s, bp) :: postE).drop (I - (I + 1) / 2 + 1)) := by
  have hq1 : I - (I + 1) / 2 + 1 ≤ I - 1 := by omega
  unfold splitInternalItems
  rw [hfull]
  rcases List.eq_nil_or_concat postE with hpe | ⟨pe', plast, hpe⟩
  · subst hpe
    have hpren : preE ≠ [] := by
      intro h
      rw [h] at hfull
      simp at hfull
      omega
    have hlast : (preE ++ [(hk, ap)]).getD (I - 1) (0, 0) = (hk, ap) := by
      have hlen : preE.length = I - 1 := by
        have := hfull
        simp at this
        omega
      rw [← hlen, getD_at_append]
      rfl
    have hhk2 : hk < s := by
      rcases hhk with h | h
      · exact absurd h hpren
      · exact h
    rw [hlast]
    rw [if_pos (by simpa using hhk2)]
    rw [show preE ++ (hk, ap) :: (s, bp) :: ([] : List (Nat × Nat)) =
      (preE ++ [(hk, ap)]) ++ [(s, bp)] from by simp]
    have ht1 : ((preE ++ [(hk, ap)]) ++ [(s, bp)]).take (I - (I + 1) / 2 + 1) =
        (preE ++ [(hk, ap)]).take (I - (I + 1) / 2 + 1) :=
      take_app_le _ _ _ (by rw [hfull]; omega)
    have ht2 : ((preE ++ [(hk, ap)]) ++ [(s, bp)]).drop (I - (I + 1) / 2 + 1) =
        (preE ++ [(hk, ap)]).drop (I - (I + 1) / 2 + 1) ++ [(s, bp)] :=
      drop_app_le _ _ _ (by rw [hfull]; omega)
    rw [ht1, ht2]
  · subst hpe
    simp only [List.concat_eq_append] at hfull hpost ⊢
    have hlen2 : (preE ++ (hk, ap) :: pe').length = I - 1 := by
      have := hfull
      simp at this ⊢
      omega
    have hitems : preE ++ (hk, ap) :: (pe' ++ [plast]) = (preE ++ (hk, ap) :: pe') ++ [plast] := by
      simp
    have hlast : (preE ++ (hk, ap) :: (pe' ++ [plast])).getD (I - 1) (0, 0) = plast := by
      rw [hitems, ← hlen2, getD_at_append]
      rfl
    have hsplast : s < plast.1 := hpost plast (by simp)
    rw [hlast]
    rw [if_neg (by simp; omega)]
    have hdrop : (preE ++ (hk, ap) :: (pe' ++ [plast])).dropLast = preE ++ (hk, ap) :: pe' := by
      rw [hitems, List.dropLast_concat]
    rw [hdrop]
    rw [interInsertKV_placement I preE pe' hk ap s bp
      (by rw [hlen2]; omega) hhk (fun q hq => hpost q (by simp [hq]))]
    rw [Option.getD_some]
    have hcomb : preE ++ (hk, ap) :: (s, bp) :: (pe' ++ [plast]) =
        (preE ++ (hk, ap) :: (s, bp) :: pe') ++ [plast] := by
      simp
    have hlen3 : (preE ++ (hk, ap) :: (s, bp) :: pe').length = I := by
      simp at hlen2 ⊢
      omega
    rw [hcomb]
    have ht1 : ((preE ++ (hk, ap) :: (s, bp) :: pe') ++ [plast]).take (I - (I + 1) / 2 + 1) =
        (preE ++ (hk, ap) :: (s, bp) :: pe').take (I - (I + 1) / 2 + 1) :=
      take_app_le _ _ _ (by rw [hlen3]; omega)
    have ht2 : ((preE ++ (hk, ap) :: (s, bp) :: pe') ++ [plast]).drop (I - (I + 1) / 2 + 1) =
        (preE ++ (hk, ap) :: (s, bp) :: pe').drop (I - (I + 1) / 2 + 1) ++ [plast] :=
      drop_app_le _ _ _ (by rw [hlen3]; omega)
    rw [ht1, ht2]

/-- The whole-tree well-formedness package. -/
def TreeWF (L I : Nat) (t : Tree) (τ : ATree) : Prop :=
  t.leafMaxSize = L ∧ t.internalMaxSize = I ∧
  t.root = some τ.rootPid ∧
  DecT t none τ ∧
  GoodT L I none none τ ∧
  τ.pids.Nodup ∧
  (∀ p ∈ τ.pids, p < t.pages.length)

/-- The invariant of SplitPage's bottom-up loop: the remaining spine C is
intact, the split pair (a, s, b) hangs below it (b's stored parent still
unset), and the interval bookkeeping brackets the pending separator. -/
def PropInv (L I : Nat) (t : Tree) (C : List Fr) (a : ATree) (s : Nat) (b : ATree)
    (lo hi : Option Nat) : Prop :=
  t.leafMaxSize = L ∧
  t.internalMaxSize = I ∧
  t.root = some (parentHole C a.rootPid) ∧
  spineDec t none C a.rootPid ∧
  DecT t (parentPidOf C none) a ∧
  (∃ junk, DecT t junk b) ∧
  spineGood L I none none C lo hi ∧
  GoodT L I lo (some s) a ∧
  GoodT L I (some s) hi b ∧
  strictLo lo s ∧
  okHi hi s ∧
  (spinePids C ++ (a.pids ++ b.pids)).Nodup ∧
  (∀ p ∈ spinePids C ++ (a.pids ++ b.pids), p < t.pages.length)

theorem perm_of_count (l1 l2 : List Nat) (h : ∀ a, l1.count a = l2.count a) :
    l1.Perm l2 := List.perm_iff_count.mpr h

set_option maxHeartbeats 8000000 in
/-- The bottom-up loop of SplitPage restores full well-formedness, and
the contents are the old contents with the two split halves in place of
the hole. -/
theorem propagate_ok (L I : Nat) (hI : 3 ≤ I) :
    ∀ (C : List Fr) (fuel : Nat) (t : Tree) (a b : ATree) (s : Nat) (lo hi : Option Nat),
    PropInv L I t C a s b lo hi →
    C.length < fuel →
    ∃ τ',
      TreeWF L I (propagate t fuel (parentPidOf C none) s a.rootPid b.rootPid) τ' ∧
      τ'.toList = spineFlat C (a.toList ++ b.toList) ∧
      t.pages.length ≤ (propagate t fuel (parentPidOf C none) s a.rootPid b.rootPid).pages.length := by
  intro C
  induction C with
  | nil =>
    intro fuel t a b s lo hi hinv hfuel
    obtain ⟨hL, hI2, hroot, hsp, hda, ⟨junk, hdb⟩, hsg, hga, hgb, hs1, hs2, hnd, hbnd⟩ := hinv
    obtain ⟨hlon, hhin⟩ : lo = none ∧ hi = none := hsg
    subst hlon; subst hhin
    cases fuel with
    | zero => omega
    | succ f =>
      rw [show parentPidOf ([] : List Fr) none = none from rfl]
      set rid := t.pages.length with hrid
      set nroot : BNode := BNode.internal [(0, a.rootPid), (s, b.rootPid)] none t.internalMaxSize with hnroot
      set t1 : Tree := { t with pages := t.pages ++ [nroot] } with ht1
      set t2 : Tree := setParent t1 a.rootPid (some rid) with ht2
      set t3 : Tree := setParent t2 b.rootPid (some rid) with ht3
      have hstep : propagate t (f + 1) none s a.rootPid b.rootPid =
          { t3 with root := some rid, headerRoot := some rid } := by
        rw [show propagate t (f + 1) none s a.rootPid b.rootPid =
          (let rid2 := t.pages.length
           let u1 : Tree := { t with pages := t.pages ++
             [BNode.internal [(0, a.rootPid), (s, b.rootPid)] none t.internalMaxSize] }
           let u2 := setParent u1 a.rootPid (some rid2)
           let u3 := setParent u2 b.rootPid (some rid2)
           { u3 with root := some rid2, headerRoot := some rid2 }) from rfl]
      rw [hstep]
      have haR : a.rootPid < t.pages.length := hbnd a.rootPid (by
        simp only [spinePids, List.nil_append]
        exact List.mem_append.mpr (Or.inl (rootPid_mem_pids a)))
      have hbR : b.rootPid < t.pages.length := hbnd b.rootPid (by
        simp only [spinePids, List.nil_append]
        exact List.mem_append.mpr (Or.inr (rootPid_mem_pids b)))
      have hndsplit : a.pids.Nodup ∧ b.pids.Nodup ∧ ∀ q ∈ a.pids, q ∉ b.pids := by
        rw [show spinePids ([] : List Fr) ++ (a.pids ++ b.pids) = a.pids ++ b.pids from by
          simp [spinePids]] at hnd
        have h := List.nodup_append.mp hnd
        exact ⟨h.1, h.2.1, fun q hq hq2 => h.2.2 hq hq2⟩
      have hanotb : ∀ p ∈ a.pids, p ≠ b.rootPid :=
        fun p hp he => hndsplit.2.2 p hp (he ▸ rootPid_mem_pids b)
      have hbnota : ∀ p ∈ b.pids, p ≠ a.rootPid := by
        intro p hp he
        exact hndsplit.2.2 a.rootPid (rootPid_mem_pids a) (he ▸ hp)
      -- decode of a with new parent
      have hda1 : DecT t1 none a := by
        refine DecT_frame t t1 rfl rfl a none ?_ hda
        intro p hp
        exact getNode_grow t nroot p (hbnd p (by
          simp only [spinePids, List.nil_append]
          exact List.mem_append.mpr (Or.inl hp)))
      have hda2 : DecT t2 (some rid) a := DecT_setParent t1 a none (some rid) hda1 hndsplit.1
      have hda3 : DecT t3 (some rid) a := by
        refine DecT_frame t2 t3 (setParent_leafMax _ _ _) (setParent_interMax _ _ _) a (some rid) ?_ hda2
        intro p hp
        exact getNode_setParent_other t2 b.rootPid (some rid) p (hanotb p hp)
      have hdb1 : DecT t1 junk b := by
        refine DecT_frame t t1 rfl rfl b junk ?_ hdb
        intro p hp
        exact getNode_grow t nroot p (hbnd p (by
          simp only [spinePids, List.nil_append]
          exact List.mem_append.mpr (Or.inr hp)))
      have hdb2 : DecT t2 junk b := by
        refine DecT_frame t1 t2 (setParent_leafMax _ _ _) (setParent_interMax _ _ _) b junk ?_ hdb1
        intro p hp
        exact getNode_setParent_other t1 a.rootPid (some rid) p (hbnota p hp)
      have hdb3 : DecT t3 (some rid) b := DecT_setParent t2 b junk (some rid) hdb2 hndsplit.2.1
      have hnode3 : t3.getNode rid = some nroot := by
        rw [ht3, ht2]
        rw [getNode_setParent_other _ b.rootPid _ rid (by omega),
            getNode_setParent_other _ a.rootPid _ rid (by omega)]
        exact getNode_grow_new t nroot
      refine ⟨ATree.anode rid [(0, a), (s, b)], ⟨?_, ?_, ?_, ?_, ?_, ?_, ?_⟩, ?_, ?_⟩
      · rw [show Tree.leafMaxSize { t3 with root := some rid, headerRoot := some rid } = t3.leafMaxSize from rfl,
          ht3, setParent_leafMax, ht2, setParent_leafMax]
        exact hL
      · rw [show Tree.internalMaxSize { t3 with root := some rid, headerRoot := some rid } = t3.internalMaxSize from rfl,
          ht3, setParent_interMax, ht2, setParent_interMax]
        exact hI2
      · rfl
      · constructor
        · rw [show Tree.getNode { t3 with root := some rid, headerRoot := some rid } rid = t3.getNode rid from rfl,
            hnode3]
          rw [show Tree.internalMaxSize { t3 with root := some rid, headerRoot := some rid } = t3.internalMaxSize from rfl,
            ht3, setParent_interMax, ht2, setParent_interMax, ht1]
          rfl
        · rw [DecL_iff_mem]
          intro c hc
          have hgn : ∀ p, Tree.getNode { t3 with root := some rid, headerRoot := some rid } p = t3.getNode p :=
            fun p => rfl
          rcases List.mem_cons.mp hc with h | h
          · rw [h]
            exact DecT_frame t3 { t3 with root := some rid, headerRoot := some rid }
              rfl rfl a (some rid) (fun p _ => rfl) hda3
          · rcases List.mem_cons.mp h with h2 | h2
            · rw [h2]
              exact DecT_frame t3 { t3 with root := some rid, headerRoot := some rid }
                rfl rfl b (some rid) (fun p _ => rfl) hdb3
            · cases h2
      · rw [goodT_node_iff]
        refine ⟨by simp, by simp; omega, ?_, ?_, ?_, ?_⟩
        · rw [show tailKeys [(0, a), (s, b)] = [s] from rfl]
          simp
        · rw [show tailKeys [(0, a), (s, b)] = [s] from rfl]
          intro kk hkk
          have : kk = s := by simpa using hkk
          exact ⟨trivial, trivial⟩
        · intro l hl
          cases hl
        · exact ⟨hga, hgb⟩
      · rw [show (ATree.anode rid [(0, a), (s, b)]).pids = rid :: pidsC [(0, a), (s, b)] from rfl]
        rw [show pidsC [(0, a), (s, b)] = a.pids ++ (b.pids ++ []) from rfl]
        rw [List.nodup_cons]
        constructor
        · intro hmem
          rcases List.mem_append.mp hmem with h | h
          · have := hbnd rid (by simp only [spinePids, List.nil_append]; exact List.mem_append.mpr (Or.inl h))
            omega
          · rw [List.append_nil] at h
            have := hbnd rid (by simp only [spinePids, List.nil_append]; exact List.mem_append.mpr (Or.inr h))
            omega
        · rw [List.append_nil]
          rw [show spinePids ([] : List Fr) ++ (a.pids ++ b.pids) = a.pids ++ b.pids from by
            simp [spinePids]] at hnd
          exact hnd
      · intro p hp
        rw [show Tree.pages { t3 with root := some rid, headerRoot := some rid } = t3.pages from rfl]
        have hlen3 : t3.pages.length = t.pages.length + 1 := by
          rw [ht3, setParent_pagesLength, ht2, setParent_pagesLength, ht1]
          simp
        rw [hlen3]
        rw [show (ATree.anode rid [(0, a), (s, b)]).pids = rid :: pidsC [(0, a), (s, b)] from rfl] at hp
        rcases List.mem_cons.mp hp with h | h
        · omega
        · rw [show pidsC [(0, a), (s, b)] = a.pids ++ (b.pids ++ []) from rfl, List.append_nil] at h
          have := hbnd p (by simp only [spinePids, List.nil_append]; exact h)
          omega
      · rw [show (ATree.anode rid [(0, a), (s, b)]).toList = toListC [(0, a), (s, b)] from rfl,
          show toListC [(0, a), (s, b)] = a.toList ++ (b.toList ++ []) from rfl,
          show spineFlat ([] : List Fr) (a.toList ++ b.toList) = a.toList ++ b.toList from rfl,
          List.append_nil]
      · rw [show Tree.pages { t3 with root := some rid, headerRoot := some rid } = t3.pages from rfl]
        rw [ht3, setParent_pagesLength, ht2, setParent_pagesLength, ht1]
        simp
  | cons F C' ih =>
    intro fuel t a b s lo hi hinv hfuel
    obtain ⟨hL, hI2, hroot, hsp, hda, ⟨junk, hdb⟩, hsg, hga, hgb, hs1, hs2, hnd, hbnd⟩ := hinv
    obtain ⟨hx, hsidepre, hsidepost, hspC'⟩ := hsp
    obtain ⟨lo', hi', hsgC', hfrok, hlo, hhi⟩ := hsg
    rw [hI2] at hx
    cases fuel with
    | zero => omega
    | succ f =>
      rw [show parentPidOf (F :: C') none = some F.pid from rfl]
      obtain ⟨hext1, hext2, hext3, hext4, hhkor, hposthead, hslo, hshi⟩ :=
        frame_extend L I F a b s lo' hi' lo hi hfrok hlo hhi hga hgb hs1 hs2
      have hlen0 : (edgesOf F.pre ++ (F.hk, a.rootPid) :: edgesOf F.post).length =
          F.pre.length + 1 + F.post.length := by simp [edgesOf]; omega
      have hfr1 := hfrok.1
      -- every post key exceeds s
      have hpostkeys : ∀ kk ∈ F.post.map Prod.fst, s < kk := by
        intro kk hkk
        have hmem : kk ∈ tailKeys (F.pre ++ (F.hk, a) :: (s, b) :: F.post) := by
          rw [tailKeys_frame2]
          cases F.pre with
          | nil => simp [hkk]
          | cons p0 pre' => simp [hkk]
        have hsmem : ∀ X : List Nat,
            List.Chain' (· < ·) (X ++ s :: (F.post.map Prod.fst)) → s < kk := by
          intro X hch
          have hp := List.pairwise_append.mp (List.chain'_iff_pairwise.mp hch)
          have hp2 := List.pairwise_cons.mp hp.2.1
          exact hp2.1 kk hkk
        have hsh : tailKeys (F.pre ++ (F.hk, a) :: (s, b) :: F.post) =
            ((F.pre.map Prod.fst ++ [F.hk]).tail) ++ s :: (F.post.map Prod.fst) := by
          rw [tailKeys_frame2]
          rw [show (F.pre.map Prod.fst) ++ F.hk :: s :: (F.post.map Prod.fst) =
            ((F.pre.map Prod.fst) ++ [F.hk]) ++ s :: (F.post.map Prod.fst) from by simp]
          cases hpre2 : F.pre.map Prod.fst with
          | nil => simp
          | cons q0 qre => simp
        exact hsmem _ (by rw [← hsh]; exact hext2)
      have hpostall : ∀ q ∈ edgesOf F.post, s < q.1 := by
        intro q hq
        obtain ⟨c, hc, hc2⟩ := List.mem_map.mp hq
        have : c.1 ∈ F.post.map Prod.fst := List.mem_map_of_mem Prod.fst hc
        have h2 := hpostkeys c.1 this
        rw [← hc2]
        exact h2
      have hhkorE : edgesOf F.pre = [] ∨ F.hk < s := by
        rcases hhkor with h | h
        · exact Or.inl (by rw [h]; rfl)
        · exact Or.inr h
      -- distinctness bookkeeping
      have hbig : (F.pid :: (((pidsC F.pre ++ pidsC F.post) ++ spinePids C') ++ (a.pids ++ b.pids))).Nodup := by
        have h := hnd
        rw [show spinePids (F :: C') = frPids F ++ spinePids C' from rfl, frPids] at h
        rw [show ((F.pid :: (pidsC F.pre ++ pidsC F.post)) ++ spinePids C') ++ (a.pids ++ b.pids) =
          F.pid :: (((pidsC F.pre ++ pidsC F.post) ++ spinePids C') ++ (a.pids ++ b.pids)) from by simp] at h
        exact h
      have hFpid_notin : F.pid ∉ ((pidsC F.pre ++ pidsC F.post) ++ spinePids C') ++ (a.pids ++ b.pids) :=
        (List.nodup_cons.mp hbig).1
      have hrest_nodup : (((pidsC F.pre ++ pidsC F.post) ++ spinePids C') ++ (a.pids ++ b.pids)).Nodup :=
        (List.nodup_cons.mp hbig).2
      have hrestparts := List.nodup_append.mp hrest_nodup
      have habparts := List.nodup_append.mp hrestparts.2.1
      have hsideparts := List.nodup_append.mp hrestparts.1
      have hpreposts := List.nodup_append.mp hsideparts.1
      have hbnd2 : ∀ p, (p = F.pid ∨ p ∈ pidsC F.pre ∨ p ∈ pidsC F.post ∨ p ∈ spinePids C' ∨
          p ∈ a.pids ∨ p ∈ b.pids) → p < t.pages.length := by
        intro p hp
        refine hbnd p ?_
        rw [show spinePids (F :: C') = frPids F ++ spinePids C' from rfl, frPids]
        rcases hp with h | h | h | h | h | h
        · simp [h]
        · simp [h]
        · simp [h]
        · simp [h]
        · simp [h]
        · simp [h]
      have haR_lt : a.rootPid < t.pages.length := hbnd2 a.rootPid (by right; right; right; right; left; exact rootPid_mem_pids a)
      have hbR_lt : b.rootPid < t.pages.length := hbnd2 b.rootPid (by right; right; right; right; right; exact rootPid_mem_pids b)
      have hFpid_lt : F.pid < t.pages.length := hbnd2 F.pid (Or.inl rfl)
      have hbR_ne_Fpid : b.rootPid ≠ F.pid := by
        intro he
        exact hFpid_notin (by
          rw [← he]
          exact List.mem_append.mpr (Or.inr (List.mem_append.mpr (Or.inr (rootPid_mem_pids b)))))
      have haR_ne_Fpid : a.rootPid ≠ F.pid := by
        intro he
        exact hFpid_notin (by
          rw [← he]
          exact List.mem_append.mpr (Or.inr (List.mem_append.mpr (Or.inl (rootPid_mem_pids a)))))
      have hb_disj_a : ∀ p ∈ a.pids, p ∉ b.pids := fun p hp hp2 => habparts.2.2 hp hp2
      have hbR_notin_a : b.rootPid ∉ a.pids := fun hp => hb_disj_a b.rootPid hp (rootPid_mem_pids b)
      have hb_disj_sides : ∀ p ∈ b.pids, p ∉ pidsC F.pre ∧ p ∉ pidsC F.post ∧ p ∉ spinePids C' := by
        intro p hp
        refine ⟨?_, ?_, ?_⟩
        · intro h2
          exact hrestparts.2.2 (List.mem_append.mpr (Or.inl (List.mem_append.mpr (Or.inl h2))))
            (List.mem_append.mpr (Or.inr hp))
        · intro h2
          exact hrestparts.2.2 (List.mem_append.mpr (Or.inl (List.mem_append.mpr (Or.inr h2))))
            (List.mem_append.mpr (Or.inr hp))
        · intro h2
          exact hrestparts.2.2 (List.mem_append.mpr (Or.inr h2)) (List.mem_append.mpr (Or.inr hp))
      have ha_disj_sides : ∀ p ∈ a.pids, p ∉ pidsC F.pre ∧ p ∉ pidsC F.post ∧ p ∉ spinePids C' := by
        intro p hp
        refine ⟨?_, ?_, ?_⟩
        · intro h2
          exact hrestparts.2.2 (List.mem_append.mpr (Or.inl (List.mem_append.mpr (Or.inl h2))))
            (List.mem_append.mpr (Or.inl hp))
        · intro h2
          exact hrestparts.2.2 (List.mem_append.mpr (Or.inl (List.mem_append.mpr (Or.inr h2))))
            (List.mem_append.mpr (Or.inl hp))
        · intro h2
          exact hrestparts.2.2 (List.mem_append.mpr (Or.inr h2)) (List.mem_append.mpr (Or.inl hp))
      by_cases hnf : (edgesOf F.pre ++ (F.hk, a.rootPid) :: edgesOf F.post).length = I
      case neg =>
        -- parent not full: insert (s, b) after the hole and stop
        have hins : interInsertKV I (edgesOf F.pre ++ (F.hk, a.rootPid) :: edgesOf F.post) s b.rootPid =
            some (edgesOf F.pre ++ (F.hk, a.rootPid) :: (s, b.rootPid) :: edgesOf F.post) :=
          interInsertKV_placement I (edgesOf F.pre) (edgesOf F.post) F.hk a.rootPid s b.rootPid
            hnf hhkorE hpostall
        have hstep : propagate t (f + 1) (some F.pid) s a.rootPid b.rootPid =
            setParent (setNode t F.pid (BNode.internal
              (edgesOf F.pre ++ (F.hk, a.rootPid) :: (s, b.rootPid) :: edgesOf F.post)
              (parentPidOf C' none) I)) b.rootPid (some F.pid) := by
          simp only [propagate, hx]
          rw [if_pos hnf, hins]
        rw [hstep]
        set items1 := edgesOf F.pre ++ (F.hk, a.rootPid) :: (s, b.rootPid) :: edgesOf F.post with hitems1
        set tmid := setNode t F.pid (BNode.internal items1 (parentPidOf C' none) I) with htmid
        set t1 := setParent tmid b.rootPid (some F.pid) with ht1
        set h := ATree.anode F.pid (F.pre ++ (F.hk, a) :: (s, b) :: F.post) with hdefh
        have hL1 : t1.leafMaxSize = L := by rw [ht1, setParent_leafMax, htmid]; exact hL
        have hI1 : t1.internalMaxSize = I := by rw [ht1, setParent_interMax, htmid]; exact hI2
        have hlen1 : t1.pages.length = t.pages.length := by
          rw [ht1, setParent_pagesLength, htmid]
          simp [setNode]
        have hframe1 : ∀ p, p ≠ F.pid → p ≠ b.rootPid → t1.getNode p = t.getNode p := by
          intro p h1 h2
          rw [ht1, getNode_setParent_other _ _ _ _ h2, htmid, getNode_setNode_other _ _ _ _ h1]
        have hnodeF : t1.getNode F.pid = some (BNode.internal items1 (parentPidOf C' none) I) := by
          rw [ht1, getNode_setParent_other _ _ _ _ (Ne.symm hbR_ne_Fpid), htmid]
          exact getNode_setNode_self t F.pid _ hFpid_lt
        have hedgesh : edgesOf (F.pre ++ (F.hk, a) :: (s, b) :: F.post) = items1 := by
          rw [hitems1, edgesOf_append]
          rfl
        have hdech : DecT t1 (parentPidOf C' none) h := by
          rw [hdefh]
          constructor
          · rw [hedgesh, hI1]
            exact hnodeF
          · rw [DecL_iff_mem]
            intro c hc
            rcases List.mem_append.mp hc with hm | hm
            · refine DecT_frame t t1 (by rw [hL1, hL]) (by rw [hI1, hI2]) c.2 (some F.pid) ?_ (hsidepre c hm)
              · intro p hp
                have hmem : p ∈ pidsC F.pre := (mem_pidsC F.pre p).mpr ⟨c, hm, hp⟩
                refine hframe1 p ?_ ?_
                · intro he
                  exact hFpid_notin (by rw [← he]; simp [hmem])
                · intro he
                  exact (hb_disj_sides b.rootPid (rootPid_mem_pids b)).1 (he ▸ hmem)
            · rcases List.mem_cons.mp hm with hm2 | hm2
              · rw [hm2]
                refine DecT_frame t t1 (by rw [hL1, hL]) (by rw [hI1, hI2]) a (some F.pid) ?_ hda
                · intro p hp
                  refine hframe1 p ?_ ?_
                  · intro he
                    exact hFpid_notin (by rw [← he]; simp [hp])
                  · intro he
                    exact hbR_notin_a (he ▸ hp)
              · rcases List.mem_cons.mp hm2 with hm3 | hm3
                · rw [hm3]
                  have hdb1 : DecT tmid junk b := by
                    refine DecT_frame t tmid rfl rfl b junk ?_ hdb
                    intro p hp
                    rw [htmid]
                    refine getNode_setNode_other t F.pid p _ ?_
                    intro he
                    exact hFpid_notin (by rw [← he]; simp [hp])
                  exact DecT_setParent tmid b junk (some F.pid) hdb1 habparts.2.1
                · refine DecT_frame t t1 (by rw [hL1, hL]) (by rw [hI1, hI2]) c.2 (some F.pid) ?_ (hsidepost c hm3)
                  · intro p hp
                    have hmem : p ∈ pidsC F.post := (mem_pidsC F.post p).mpr ⟨c, hm3, hp⟩
                    refine hframe1 p ?_ ?_
                    · intro he
                      exact hFpid_notin (by rw [← he]; simp [hmem])
                    · intro he
                      exact (hb_disj_sides b.rootPid (rootPid_mem_pids b)).2.1 (he ▸ hmem)
        have hspC1 : spineDec t1 none C' F.pid := by
          refine spineDec_frame t t1 none (by rw [hL1, hL]) (by rw [hI1, hI2]) C' F.pid ?_ hspC'
          intro p hp
          refine hframe1 p ?_ ?_
          · intro he
            exact hFpid_notin (by rw [← he]; simp [hp])
          · intro he
            exact (hb_disj_sides b.rootPid (rootPid_mem_pids b)).2.2 (he ▸ hp)
        have hgoodh : GoodT L I lo' hi' h := by
          rw [hdefh, goodT_node_iff]
          refine ⟨by simp; omega, ?_, hext2, hext3, hext4, hext1⟩
          have hlt : F.pre.length + 1 + F.post.length < I := by
            rw [hlen0] at hnf
            omega
          simp
          omega
        refine ⟨plug C' h, ⟨hL1, hI1, ?_, ?_, ?_, ?_, ?_⟩, ?_, by omega⟩
        · rw [ht1, setParent_root, htmid, show (setNode t F.pid
            (BNode.internal items1 (parentPidOf C' none) I)).root = t.root from rfl, hroot]
          rw [show parentHole (F :: C') a.rootPid = parentHole C' F.pid from rfl]
          rw [show F.pid = h.rootPid from rfl, parentHole_plug]
        · exact plug_dec t1 C' h none hspC1 hdech
        · exact plug_good L I C' lo' hi' h hsgC' hgoodh
        · have hperm : (plug C' h).pids.Perm
              (F.pid :: (((pidsC F.pre ++ pidsC F.post) ++ spinePids C') ++ (a.pids ++ b.pids))) := by
            rw [← Multiset.coe_eq_coe, plug_pids_perm C' h]
            rw [show h.pids = F.pid :: pidsC (F.pre ++ (F.hk, a) :: (s, b) :: F.post) from rfl]
            rw [pidsC_append, show pidsC ((F.hk, a) :: (s, b) :: F.post) =
              a.pids ++ (b.pids ++ pidsC F.post) from rfl]
            rw [Multiset.coe_eq_coe, List.perm_iff_count]
            intro x
            simp [List.count_append, List.count_cons]
            ring
          exact hperm.nodup_iff.mpr hbig
        · intro p hp
          have hperm : (plug C' h).pids.Perm
              (F.pid :: (((pidsC F.pre ++ pidsC F.post) ++ spinePids C') ++ (a.pids ++ b.pids))) := by
            rw [← Multiset.coe_eq_coe, plug_pids_perm C' h]
            rw [show h.pids = F.pid :: pidsC (F.pre ++ (F.hk, a) :: (s, b) :: F.post) from rfl]
            rw [pidsC_append, show pidsC ((F.hk, a) :: (s, b) :: F.post) =
              a.pids ++ (b.pids ++ pidsC F.post) from rfl]
            rw [Multiset.coe_eq_coe, List.perm_iff_count]
            intro x
            simp [List.count_append, List.count_cons]
            ring
          rw [hlen1]
          have hp2 := hperm.mem_iff.mp hp
          rcases List.mem_cons.mp hp2 with h2 | h2
          · rw [h2]; exact hFpid_lt
          · rcases List.mem_append.mp h2 with h3 | h3
            · rcases List.mem_append.mp h3 with h4 | h4
              · rcases List.mem_append.mp h4 with h5 | h5
                · exact hbnd2 p (by tauto)
                · exact hbnd2 p (by tauto)
              · exact hbnd2 p (by tauto)
            · rcases List.mem_append.mp h3 with h4 | h4
              · exact hbnd2 p (by tauto)
              · exact hbnd2 p (by tauto)
        · rw [plug_toList]
          rw [show h.toList = toListC (F.pre ++ (F.hk, a) :: (s, b) :: F.post) from rfl]
          rw [toListC_append, show toListC ((F.hk, a) :: (s, b) :: F.post) =
            a.toList ++ (b.toList ++ toListC F.post) from rfl]
          rw [show spineFlat (F :: C') (a.toList ++ b.toList) =
            spineFlat C' (toListC F.pre ++ (a.toList ++ b.toList) ++ toListC F.post) from rfl]
          rw [spineFlat_eq]
          simp
      case pos =>
        -- parent full: split it in place, push the median up, recurse
        set q := I - (I + 1) / 2 + 1 with hqdef
        set csC : List (Nat × ATree) := F.pre ++ (F.hk, a) :: (s, b) :: F.post with hcsC
        set aCs : List (Nat × ATree) := csC.take q with haCsDef
        set bCs : List (Nat × ATree) := csC.drop q with hbCsDef
        have hacsbcs : aCs ++ bCs = csC := by
          rw [haCsDef, hbCsDef]
          exact List.take_append_drop q csC
        have hIfull : F.pre.length + 1 + F.post.length = I := by
          rw [← hlen0]
          exact hnf
        have hlen_csC : csC.length = I + 1 := by
          rw [hcsC]
          simp
          omega
        have hq2 : 2 ≤ q ∧ q ≤ I - 1 := by
          rw [hqdef]
          omega
        have haCs_len : aCs.length = q := by
          rw [haCsDef, List.length_take, hlen_csC]
          omega
        have hbCs_len : bCs.length = I + 1 - q := by
          rw [hbCsDef, List.length_drop, hlen_csC]
        have haneq : aCs ≠ [] := by
          intro h
          rw [h] at haCs_len
          simp at haCs_len
          omega
        have hbneq : bCs ≠ [] := by
          intro h
          rw [h] at hbCs_len
          simp at hbCs_len
          omega
        obtain ⟨a0, aTail, haCons⟩ := List.exists_cons_of_ne_nil haneq
        obtain ⟨d, bRest, hbCons⟩ := List.exists_cons_of_ne_nil hbneq
        -- pid bookkeeping for the children of the extended frame
        have hpidsCsC : pidsC csC = pidsC F.pre ++ (a.pids ++ (b.pids ++ pidsC F.post)) := by
          rw [hcsC, pidsC_append]
          rfl
        have hpids_ab : pidsC aCs ++ pidsC bCs = pidsC csC := by
          rw [← pidsC_append, hacsbcs]
        have hndCspine : (pidsC csC ++ spinePids C').Nodup := by
          have hperm2 : (pidsC csC ++ spinePids C').Perm
              (((pidsC F.pre ++ pidsC F.post) ++ spinePids C') ++ (a.pids ++ b.pids)) := by
            rw [hpidsCsC, List.perm_iff_count]
            intro x
            simp [List.count_append]
            ring
          exact hperm2.nodup_iff.mpr hrest_nodup
        have hnd_csC : (pidsC csC).Nodup := (List.nodup_append.mp hndCspine).1
        have hdisj_cs_spine : ∀ p ∈ pidsC csC, p ∉ spinePids C' :=
          fun p hp hq => (List.nodup_append.mp hndCspine).2.2 hp hq
        have hnd_ab : (pidsC aCs ++ pidsC bCs).Nodup := by
          rw [hpids_ab]
          exact hnd_csC
        have hnd_bCs : (pidsC bCs).Nodup := (List.nodup_append.mp hnd_ab).2.1
        have hdisj_ab : ∀ p ∈ pidsC aCs, p ∉ pidsC bCs :=
          fun p hp hq => (List.nodup_append.mp hnd_ab).2.2 hp hq
        have hmem_csC : ∀ p, p ∈ pidsC csC ↔
            (p ∈ pidsC F.pre ∨ p ∈ a.pids ∨ p ∈ b.pids ∨ p ∈ pidsC F.post) := by
          intro p
          rw [hpidsCsC]
          simp
        have hlt_csC : ∀ p ∈ pidsC csC, p < t.pages.length := by
          intro p hp
          rcases (hmem_csC p).mp hp with h | h | h | h
          · exact hbnd2 p (by tauto)
          · exact hbnd2 p (by tauto)
          · exact hbnd2 p (by tauto)
          · exact hbnd2 p (by tauto)
        have hne_F : ∀ p ∈ pidsC csC, p ≠ F.pid := by
          intro p hp he
          subst he
          rcases (hmem_csC F.pid).mp hp with h | h | h | h <;>
            exact hFpid_notin (by simp [h])
        have hacs_sub : ∀ c ∈ aCs, c ∈ csC := by
          intro c hc
          rw [← hacsbcs]
          exact List.mem_append.mpr (Or.inl hc)
        have hbcs_sub : ∀ c ∈ bCs, c ∈ csC := by
          intro c hc
          rw [← hacsbcs]
          exact List.mem_append.mpr (Or.inr hc)
        -- the split equation at entry level
        have hedgesCsC : edgesOf csC =
            edgesOf F.pre ++ (F.hk, a.rootPid) :: (s, b.rootPid) :: edgesOf F.post := by
          rw [hcsC, edgesOf_append]
          rfl
        have htakeE : (edgesOf csC).take q = edgesOf aCs := by
          rw [haCsDef]
          simp [edgesOf, List.map_take]
        have hdropE : (edgesOf csC).drop q = edgesOf bCs := by
          rw [hbCsDef]
          simp [edgesOf, List.map_drop]
        have hr : splitInternalItems I (edgesOf F.pre ++ (F.hk, a.rootPid) :: edgesOf F.post)
            s b.rootPid = (edgesOf aCs, edgesOf bCs) := by
          rw [splitInternalItems_eq I hI (edgesOf F.pre) (edgesOf F.post) F.hk a.rootPid s
            b.rootPid hnf hhkorE hpostall, ← hedgesCsC, ← hqdef, htakeE, hdropE]
        have hstep : propagate t (f + 1) (some F.pid) s a.rootPid b.rootPid =
            propagate ((edgesOf bCs).foldl (fun acc p => setParent acc p.2 (some t.pages.length))
                (setParent
                  (setNode
                    { t with pages := t.pages ++
                        [BNode.internal (edgesOf bCs) none t.internalMaxSize] }
                    F.pid (BNode.internal (edgesOf aCs) (parentPidOf C' none) I))
                  b.rootPid (some F.pid)))
              f (parentPidOf C' none) ((edgesOf bCs).getD 0 (0, 0)).1 F.pid t.pages.length := by
          simp only [propagate, hx]
          rw [if_neg (not_not_intro hnf), hr]
        rw [hstep]
        set nnode : BNode := BNode.internal (edgesOf bCs) none t.internalMaxSize with hnnode
        set t1 : Tree := { t with pages := t.pages ++ [nnode] } with ht1
        set t2 : Tree := setNode t1 F.pid (BNode.internal (edgesOf aCs) (parentPidOf C' none) I)
          with ht2
        set t3 : Tree := setParent t2 b.rootPid (some F.pid) with ht3
        have hL3 : t3.leafMaxSize = t.leafMaxSize := by
          rw [ht3, setParent_leafMax, ht2, ht1]
          rfl
        have hI3 : t3.internalMaxSize = t.internalMaxSize := by
          rw [ht3, setParent_interMax, ht2, ht1]
          rfl
        have hlen3 : t3.pages.length = t.pages.length + 1 := by
          rw [ht3, setParent_pagesLength, ht2, ht1]
          simp [setNode]
        have hframe3 : ∀ p, p < t.pages.length → p ≠ F.pid → p ≠ b.rootPid →
            t3.getNode p = t.getNode p := by
          intro p h1 h2 h3
          rw [ht3, getNode_setParent_other _ _ _ _ h3, ht2, getNode_setNode_other _ _ _ _ h2,
            ht1, getNode_grow t nnode p h1]
        have hnodeF3 : t3.getNode F.pid =
            some (BNode.internal (edgesOf aCs) (parentPidOf C' none) I) := by
          rw [ht3, getNode_setParent_other _ _ _ _ (Ne.symm hbR_ne_Fpid), ht2]
          refine getNode_setNode_self t1 F.pid _ ?_
          rw [ht1]
          simp
          omega
        have hnodeNew3 : t3.getNode t.pages.length = some nnode := by
          rw [ht3, getNode_setParent_other _ _ _ _ (by omega : t.pages.length ≠ b.rootPid),
            ht2, getNode_setNode_other _ _ _ _ (by omega : t.pages.length ≠ F.pid), ht1]
          exact getNode_grow_new t nnode
        -- every child of the extended frame decodes in t3 under F.pid
        have hdecT3 : ∀ c ∈ csC, DecT t3 (some F.pid) c.2 := by
          intro c hc
          rw [hcsC] at hc
          rcases List.mem_append.mp hc with hm | hm
          · refine DecT_frame t t3 hL3 hI3 c.2 (some F.pid) ?_ (hsidepre c hm)
            intro p hp
            have hmemPre : p ∈ pidsC F.pre := (mem_pidsC F.pre p).mpr ⟨c, hm, hp⟩
            refine hframe3 p (hbnd2 p (by tauto)) ?_ ?_
            · intro he
              exact hFpid_notin (by rw [← he]; simp [hmemPre])
            · intro he
              exact (hb_disj_sides b.rootPid (rootPid_mem_pids b)).1 (he ▸ hmemPre)
          · rcases List.mem_cons.mp hm with hm2 | hm2
            · rw [hm2]
              refine DecT_frame t t3 hL3 hI3 a (some F.pid) ?_ hda
              intro p hp
              refine hframe3 p (hbnd2 p (by tauto)) ?_ ?_
              · intro he
                exact hFpid_notin (by rw [← he]; simp [hp])
              · intro he
                exact hbR_notin_a (he ▸ hp)
            · rcases List.mem_cons.mp hm2 with hm3 | hm3
              · rw [hm3]
                have hdb1 : DecT t1 junk b := by
                  refine DecT_frame t t1 rfl rfl b junk ?_ hdb
                  intro p hp
                  rw [ht1]
                  exact getNode_grow t nnode p (hbnd2 p (by tauto))
                have hdb2 : DecT t2 junk b := by
                  refine DecT_frame t1 t2 rfl rfl b junk ?_ hdb1
                  intro p hp
                  refine getNode_setNode_other t1 F.pid p _ ?_
                  intro he
                  exact hFpid_notin (by rw [← he]; simp [hp])
                exact DecT_setParent t2 b junk (some F.pid) hdb2 habparts.2.1
              · refine DecT_frame t t3 hL3 hI3 c.2 (some F.pid) ?_ (hsidepost c hm3)
                intro p hp
                have hmemPost : p ∈ pidsC F.post := (mem_pidsC F.post p).mpr ⟨c, hm3, hp⟩
                refine hframe3 p (hbnd2 p (by tauto)) ?_ ?_
                · intro he
                  exact hFpid_notin (by rw [← he]; simp [hmemPost])
                · intro he
                  exact (hb_disj_sides b.rootPid (rootPid_mem_pids b)).2.1 (he ▸ hmemPost)
        have hdec3b : ∀ c ∈ bCs, ∃ par0, DecT t3 par0 c.2 :=
          fun c hc => ⟨some F.pid, hdecT3 c (hbcs_sub c hc)⟩
        obtain ⟨t4, hfold_eq, hframe4, hdec4, hL4, hI4, hlen4, hroot4⟩ :=
          reparent_fold t.pages.length bCs t3 hnd_bCs hdec3b
        rw [hfold_eq]
        have hkey : ((edgesOf bCs).getD 0 (0, 0)).1 = d.1 := by
          rw [hbCons]
          rfl
        rw [hkey]
        have hL4' : t4.leafMaxSize = L := by rw [hL4, hL3]; exact hL
        have hI4' : t4.internalMaxSize = I := by rw [hI4, hI3]; exact hI2
        have hlen4' : t4.pages.length = t.pages.length + 1 := by rw [hlen4]; exact hlen3
        have hbCs_root_mem : ∀ c ∈ bCs, c.2.rootPid ∈ pidsC bCs :=
          fun c hc => (mem_pidsC bCs _).mpr ⟨c, hc, rootPid_mem_pids c.2⟩
        have hbCs_root_memC : ∀ c ∈ bCs, c.2.rootPid ∈ pidsC csC := by
          intro c hc
          rw [← hpids_ab]
          exact List.mem_append.mpr (Or.inr (hbCs_root_mem c hc))
        have hframe4F : t4.getNode F.pid = t3.getNode F.pid :=
          hframe4 F.pid (fun c hc he => (hne_F c.2.rootPid (hbCs_root_memC c hc)) he.symm)
        have hframe4N : t4.getNode t.pages.length = t3.getNode t.pages.length :=
          hframe4 t.pages.length (fun c hc he => by
            have := hlt_csC c.2.rootPid (hbCs_root_memC c hc)
            omega)
        have hframe4A : ∀ p ∈ pidsC aCs, t4.getNode p = t3.getNode p := by
          intro p hp
          refine hframe4 p ?_
          intro c hc he
          exact hdisj_ab p hp (he ▸ hbCs_root_mem c hc)
        have hframe4S : ∀ p ∈ spinePids C', t4.getNode p = t3.getNode p := by
          intro p hp
          refine hframe4 p ?_
          intro c hc he
          exact hdisj_cs_spine c.2.rootPid (hbCs_root_memC c hc) (he ▸ hp)
        have hroot4' : t4.root = some (parentHole C' F.pid) := by
          rw [hroot4, ht3, setParent_root, ht2,
            show (setNode t1 F.pid
              (BNode.internal (edgesOf aCs) (parentPidOf C' none) I)).root = t1.root from rfl,
            ht1, show Tree.root { t with pages := t.pages ++ [nnode] } = t.root from rfl, hroot]
          rfl
        have hspC4 : spineDec t4 none C' F.pid := by
          refine spineDec_frame t t4 none (by rw [hL4', hL]) (by rw [hI4', hI2]) C' F.pid ?_ hspC'
          intro p hp
          rw [hframe4S p hp]
          refine hframe3 p (hbnd2 p (by tauto)) ?_ ?_
          · intro he
            exact hFpid_notin (by rw [← he]; simp [hp])
          · intro he
            exact (hb_disj_sides b.rootPid (rootPid_mem_pids b)).2.2 (he ▸ hp)
        have hdecA : DecT t4 (parentPidOf C' none) (ATree.anode F.pid aCs) := by
          refine ⟨?_, ?_⟩
          · rw [hI4', hframe4F, hnodeF3]
          · rw [DecL_iff_mem]
            intro c hc
            refine DecT_frame t3 t4 hL4 hI4 c.2 (some F.pid) ?_ (hdecT3 c (hacs_sub c hc))
            intro p hp
            exact hframe4A p ((mem_pidsC aCs p).mpr ⟨c, hc, hp⟩)
        have hdecB : DecT t4 none (ATree.anode t.pages.length bCs) := by
          refine ⟨?_, ?_⟩
          · rw [hI4', hframe4N, hnodeNew3, hnnode, hI2]
          · rw [DecL_iff_mem]
            exact hdec4
        -- key bookkeeping across the split point
        have hkeysplit : tailKeys csC = tailKeys aCs ++ bCs.map Prod.fst := by
          have h1 : csC.map Prod.fst = aCs.map Prod.fst ++ bCs.map Prod.fst := by
            rw [← List.map_append, hacsbcs]
          rw [show tailKeys csC = (csC.map Prod.fst).tail from rfl,
            show tailKeys aCs = (aCs.map Prod.fst).tail from rfl, h1, haCons]
          simp
        have hpwAll : List.Pairwise (· < ·) (tailKeys aCs ++ bCs.map Prod.fst) := by
          rw [← hkeysplit]
          exact List.chain'_iff_pairwise.mp hext2
        have hpwParts := List.pairwise_append.mp hpwAll
        have hd1_mem : d.1 ∈ bCs.map Prod.fst := by
          rw [hbCons]
          simp
        have hd1_tail : d.1 ∈ tailKeys csC := by
          rw [hkeysplit]
          exact List.mem_append.mpr (Or.inr hd1_mem)
        have hpwB : List.Pairwise (· < ·) (d.1 :: bRest.map Prod.fst) := by
          have h := hpwParts.2.1
          rw [hbCons, List.map_cons] at h
          exact h
        have hpwB2 := List.pairwise_cons.mp hpwB
        have htailB : tailKeys bCs = bRest.map Prod.fst := by
          rw [hbCons]
          rfl
        have hheadA : headKey aCs = headKey csC := by
          rw [← hacsbcs, haCons]
          simp [headKey]
        have hdecomp := goodSeq_decomp L I aCs d bRest lo' hi' (by
          rw [show aCs ++ d :: bRest = csC from by rw [← hacsbcs, hbCons]]
          exact hext1)
        have hgA : GoodT L I lo' (some d.1) (ATree.anode F.pid aCs) := by
          rw [goodT_node_iff]
          refine ⟨by omega, by omega, ?_, ?_, ?_, hdecomp.1⟩
          · exact List.chain'_iff_pairwise.mpr hpwParts.1
          · intro kk hkk
            refine ⟨(hext3 kk (by
              rw [hkeysplit]
              exact List.mem_append.mpr (Or.inl hkk))).1, ?_⟩
            exact hpwParts.2.2 kk hkk d.1 hd1_mem
          · intro l hl
            rw [hheadA]
            exact hext4 l hl
        have hchLoA : chLo lo' aCs d.1 = some d.1 := by
          rw [haCons]
          rfl
        have hgd : GoodT L I (some d.1) (chHi hi' bRest) d.2 := by
          have h := hdecomp.2.1
          rw [hchLoA] at h
          exact h
        have hgseqB : GoodSeq L I (some d.1) hi' bCs := by
          rw [hbCons]
          cases bRest with
          | nil =>
            show GoodT L I (some d.1) hi' d.2
            exact hgd
          | cons e eRest =>
            show GoodT L I (some d.1) (some e.1) d.2 ∧ GoodSeq L I (some e.1) hi' (e :: eRest)
            exact ⟨hgd, hdecomp.2.2⟩
        have hgB : GoodT L I (some d.1) hi' (ATree.anode t.pages.length bCs) := by
          rw [goodT_node_iff]
          refine ⟨by omega, by omega, ?_, ?_, ?_, hgseqB⟩
          · rw [htailB]
            exact List.chain'_iff_pairwise.mpr hpwB2.2
          · intro kk hkk
            rw [htailB] at hkk
            refine ⟨hpwB2.1 kk hkk, ?_⟩
            refine (hext3 kk ?_).2
            rw [hkeysplit, hbCons, List.map_cons]
            exact List.mem_append.mpr (Or.inr (List.mem_cons.mpr (Or.inr hkk)))
          · intro l hl
            obtain rfl : d.1 = l := Option.some.inj hl
            rw [hbCons]
            rfl
        have hsd := hext3 d.1 hd1_tail
        -- distinctness and bounds for the new pending pair
        have hfresh : t.pages.length ∉
            F.pid :: (((pidsC F.pre ++ pidsC F.post) ++ spinePids C') ++ (a.pids ++ b.pids)) := by
          intro hmem
          rcases List.mem_cons.mp hmem with h | h
          · have := hFpid_lt
            omega
          · rcases List.mem_append.mp h with h2 | h2
            · rcases List.mem_append.mp h2 with h3 | h3
              · rcases List.mem_append.mp h3 with h4 | h4
                · have := hbnd2 t.pages.length (by tauto)
                  omega
                · have := hbnd2 t.pages.length (by tauto)
                  omega
              · have := hbnd2 t.pages.length (by tauto)
                omega
            · rcases List.mem_append.mp h2 with h3 | h3
              · have := hbnd2 t.pages.length (by tauto)
                omega
              · have := hbnd2 t.pages.length (by tauto)
                omega
        have hN2 : (t.pages.length :: F.pid ::
            (((pidsC F.pre ++ pidsC F.post) ++ spinePids C') ++ (a.pids ++ b.pids))).Nodup :=
          List.nodup_cons.mpr ⟨hfresh, hbig⟩
        have hpermT : (spinePids C' ++ ((F.pid :: pidsC aCs) ++ (t.pages.length :: pidsC bCs))).Perm
            (t.pages.length :: F.pid ::
              (((pidsC F.pre ++ pidsC F.post) ++ spinePids C') ++ (a.pids ++ b.pids))) := by
          have hmid : (spinePids C' ++ ((F.pid :: pidsC aCs) ++ (t.pages.length :: pidsC bCs))).Perm
              (F.pid :: t.pages.length :: (spinePids C' ++ (pidsC aCs ++ pidsC bCs))) := by
            rw [List.perm_iff_count]
            intro x
            simp [List.count_append, List.count_cons]
            ring
          refine hmid.trans ?_
          rw [hpids_ab, hpidsCsC]
          rw [List.perm_iff_count]
          intro x
          simp [List.count_append, List.count_cons]
          ring
        have hnodup' : (spinePids C' ++
            ((ATree.anode F.pid aCs).pids ++ (ATree.anode t.pages.length bCs).pids)).Nodup := by
          rw [show (ATree.anode F.pid aCs).pids = F.pid :: pidsC aCs from rfl,
            show (ATree.anode t.pages.length bCs).pids = t.pages.length :: pidsC bCs from rfl]
          exact hpermT.nodup_iff.mpr hN2
        have hbound' : ∀ p ∈ spinePids C' ++
            ((ATree.anode F.pid aCs).pids ++ (ATree.anode t.pages.length bCs).pids),
            p < t4.pages.length := by
          intro p hp
          rw [hlen4']
          rw [show (ATree.anode F.pid aCs).pids = F.pid :: pidsC aCs from rfl,
            show (ATree.anode t.pages.length bCs).pids = t.pages.length :: pidsC bCs from rfl] at hp
          rcases List.mem_append.mp hp with h | h
          · have := hbnd2 p (by tauto)
            omega
          · rcases List.mem_append.mp h with h2 | h2
            · rcases List.mem_cons.mp h2 with h3 | h3
              · have := hFpid_lt
                omega
              · have := hlt_csC p (by rw [← hpids_ab]; exact List.mem_append.mpr (Or.inl h3))
                omega
            · rcases List.mem_cons.mp h2 with h3 | h3
              · omega
              · have := hlt_csC p (by rw [← hpids_ab]; exact List.mem_append.mpr (Or.inr h3))
                omega
        have hinv' : PropInv L I t4 C' (ATree.anode F.pid aCs) d.1
            (ATree.anode t.pages.length bCs) lo' hi' :=
          ⟨hL4', hI4', hroot4', hspC4, hdecA, ⟨none, hdecB⟩, hsgC', hgA, hgB,
            hsd.1, hsd.2, hnodup', hbound'⟩
        have hflt : C'.length < f := by
          have := hfuel
          simp at this
          omega
        obtain ⟨τ', hwf', htl', hlen'⟩ := ih f t4 (ATree.anode F.pid aCs)
          (ATree.anode t.pages.length bCs) d.1 lo' hi' hinv' hflt
        have hwf2 : TreeWF L I
            (propagate t4 f (parentPidOf C' none) d.1 F.pid t.pages.length) τ' := hwf'
        have hlen2 : t4.pages.length ≤
            (propagate t4 f (parentPidOf C' none) d.1 F.pid t.pages.length).pages.length := hlen'
        refine ⟨τ', hwf2, ?_, ?_⟩
        · rw [htl']
          rw [show spineFlat (F :: C') (a.toList ++ b.toList) =
            spineFlat C' (toListC F.pre ++ (a.toList ++ b.toList) ++ toListC F.post) from rfl]
          rw [spineFlat_eq, spineFlat_eq]
          rw [show (ATree.anode F.pid aCs).toList = toListC aCs from rfl,
            show (ATree.anode t.pages.length bCs).toList = toListC bCs from rfl,
            ← toListC_append, hacsbcs, hcsC, toListC_append,
            show toListC ((F.hk, a) :: (s, b) :: F.post) =
              a.toList ++ (b.toList ++ toListC F.post) from rfl]
          simp
        · have hle : t.pages.length ≤ t4.pages.length := by omega
          exact le_trans hle hlen2

theorem spinePids_length (C : List Fr) : C.length ≤ (spinePids C).length := by
  induction C with
  | nil => simp [spinePids]
  | cons F CC ih =>
    rw [show spinePids (F :: CC) = frPids F ++ spinePids CC from rfl, List.length_append]
    have h1 : 1 ≤ (frPids F).length := by rw [frPids]; simp
    simp only [List.length_cons]
    omega

theorem chain_take_drop (items : List (Nat × Nat)) (n : Nat)
    (hch : List.Chain' (· < ·) (items.map Prod.fst)) :
    List.Chain' (· < ·) ((items.take n).map Prod.fst) ∧
    List.Chain' (· < ·) ((items.drop n).map Prod.fst) ∧
    (∀ p ∈ items.take n, ∀ q ∈ items.drop n, p.1 < q.1) := by
  have hpw := List.chain'_iff_pairwise.mp hch
  rw [show items.map Prod.fst = (items.take n).map Prod.fst ++ (items.drop n).map Prod.fst from by
    rw [← List.map_append, List.take_append_drop]] at hpw
  have h := List.pairwise_append.mp hpw
  refine ⟨List.chain'_iff_pairwise.mpr h.1, List.chain'_iff_pairwise.mpr h.2.1, ?_⟩
  intro p hp q hq
  exact h.2.2 p.1 (List.mem_map_of_mem Prod.fst hp) q.1 (List.mem_map_of_mem Prod.fst hq)

theorem insRevAux_append (e : Nat × Nat) :
    ∀ (l1 l2 : List (Nat × Nat)), (∀ p ∈ l2.head?, ¬ e.1 < p.1) →
    insRevAux e (l1 ++ l2) = insRevAux e l1 ++ l2 := by
  intro l1
  induction l1 with
  | nil =>
    intro l2 h2
    cases l2 with
    | nil => rfl
    | cons y ys =>
      rw [List.nil_append, insRevAux_stop e y ys (h2 y (by simp))]
      rfl
  | cons x xs ih =>
    intro l2 h2
    rw [List.cons_append]
    by_cases hc : e.1 < x.1
    · rw [show insRevAux e (x :: (xs ++ l2)) =
        (if e.1 < x.1 then x :: insRevAux e (xs ++ l2) else e :: x :: (xs ++ l2)) from rfl,
        if_pos hc, ih l2 h2,
        show insRevAux e (x :: xs) =
          (if e.1 < x.1 then x :: insRevAux e xs else e :: x :: xs) from rfl,
        if_pos hc, List.cons_append]
    · rw [insRevAux_stop e x (xs ++ l2) hc, insRevAux_stop e x xs hc]
      rfl

/-- Ordered insert into a sorted concatenation lands in the middle block
when the left block is below the key and the right block above it. -/
theorem insList_concat (A mid B : List (Nat × Nat)) (k v : Nat)
    (hA : ∀ p ∈ A, p.1 < k) (hB : ∀ p ∈ B, k < p.1) :
    insList (A ++ mid ++ B) k v = A ++ insList mid k v ++ B := by
  rw [insList, insList]
  rw [show (A ++ mid ++ B).reverse = B.reverse ++ (mid.reverse ++ A.reverse) from by simp]
  rw [insRevAux_pass (k, v) B.reverse (mid.reverse ++ A.reverse)
    (fun q hq => hB q (List.mem_reverse.mp hq))]
  have hstep := insRevAux_append (k, v) mid.reverse A.reverse
    (fun p hp => by
      show ¬ k < p.1
      have hp2 : p ∈ A := List.mem_reverse.mp (List.mem_of_mem_head? hp)
      have := hA p hp2
      omega)
  rw [hstep]
  simp

/-- Rewriting the located leaf in place (contents staying within the leaf
interval) rebuilds a well-formed tree around the unchanged spine. -/
theorem hole_leaf_set (L I : Nat) (t : Tree) (C : List Fr) (lid : Nat)
    (items2 : List (Nat × Nat)) (nx : Option Nat) (llo lhi : Option Nat)
    (hL : t.leafMaxSize = L) (hI2 : t.internalMaxSize = I)
    (hroot : t.root = some (parentHole C lid))
    (hsp : spineDec t none C lid)
    (hsg : spineGood L I none none C llo lhi)
    (hg : GoodT L I llo lhi (.aleaf lid items2))
    (hnd : (spinePids C ++ [lid]).Nodup)
    (hbnd : ∀ p ∈ spinePids C ++ [lid], p < t.pages.length) :
    TreeWF L I (setNode t lid (BNode.leaf items2 nx (parentPidOf C none) L))
      (plug C (.aleaf lid items2)) ∧
    (plug C (.aleaf lid items2)).toList = spineFlat C items2 ∧
    (setNode t lid (BNode.leaf items2 nx (parentPidOf C none) L)).pages.length
      = t.pages.length ∧
    spineDec (setNode t lid (BNode.leaf items2 nx (parentPidOf C none) L)) none C lid ∧
    (setNode t lid (BNode.leaf items2 nx (parentPidOf C none) L)).root
      = some (parentHole C lid) ∧
    (setNode t lid (BNode.leaf items2 nx (parentPidOf C none) L)).getNode lid
      = some (BNode.leaf items2 nx (parentPidOf C none) L) := by
  set t' := setNode t lid (BNode.leaf items2 nx (parentPidOf C none) L) with ht'
  have hlid_lt : lid < t.pages.length := hbnd lid (by simp)
  have hdisj : ∀ p ∈ spinePids C, p ≠ lid := by
    intro p hp he
    exact (List.nodup_append.mp hnd).2.2 hp (by simp [he])
  have hframe : ∀ p, p ≠ lid → t'.getNode p = t.getNode p := by
    intro p h1
    rw [ht']
    exact getNode_setNode_other t lid p _ h1
  have hL' : t'.leafMaxSize = L := by rw [ht']; exact hL
  have hI' : t'.internalMaxSize = I := by rw [ht']; exact hI2
  have hlen' : t'.pages.length = t.pages.length := by rw [ht']; simp [setNode]
  have hx' : t'.getNode lid = some (BNode.leaf items2 nx (parentPidOf C none) L) := by
    rw [ht']
    exact getNode_setNode_self t lid _ hlid_lt
  have hroot' : t'.root = some (parentHole C lid) := by
    rw [show t'.root = t.root from by rw [ht']; rfl, hroot]
  have hsp' : spineDec t' none C lid := by
    refine spineDec_frame t t' none (by rw [hL', hL]) (by rw [hI', hI2]) C lid ?_ hsp
    intro p hp
    exact hframe p (hdisj p hp)
  have hdec' : DecT t' (parentPidOf C none) (ATree.aleaf lid items2) := by
    refine ⟨nx, ?_⟩
    rw [show t'.leafMaxSize = t.leafMaxSize from rfl, hL]
    exact hx'
  have hperm : (plug C (ATree.aleaf lid items2)).pids.Perm (spinePids C ++ [lid]) := by
    have h := plug_pids_perm C (ATree.aleaf lid items2)
    rw [show (ATree.aleaf lid items2).pids = [lid] from rfl] at h
    exact Multiset.coe_eq_coe.mp h
  refine ⟨⟨hL', hI', ?_, ?_, ?_, ?_, ?_⟩, ?_, hlen', hsp', hroot', hx'⟩
  · rw [hroot']
    exact congrArg some (parentHole_plug C (ATree.aleaf lid items2))
  · exact plug_dec t' C (ATree.aleaf lid items2) none hsp' hdec'
  · exact plug_good L I C llo lhi (ATree.aleaf lid items2) hsg hg
  · exact hperm.nodup_iff.mpr hnd
  · intro p hp
    rw [hlen']
    exact hbnd p (hperm.mem_iff.mp hp)
  · rw [plug_toList, spineFlat_eq]
    rfl

/-- SplitPage on a located full leaf rebuilds a well-formed tree with the
flat contents unchanged. -/
theorem splitPage_ok (L I : Nat) (hL2 : 2 ≤ L) (hI : 3 ≤ I)
    (t : Tree) (C : List Fr) (lid : Nat) (items : List (Nat × Nat)) (nx : Option Nat)
    (llo lhi : Option Nat) (fuel : Nat)
    (hL : t.leafMaxSize = L) (hI2 : t.internalMaxSize = I)
    (hroot : t.root = some (parentHole C lid))
    (hx : t.getNode lid = some (BNode.leaf items nx (parentPidOf C none) L))
    (hsp : spineDec t none C lid)
    (hsg : spineGood L I none none C llo lhi)
    (hg : GoodT L I llo lhi (.aleaf lid items))
    (hfull : items.length = L)
    (hnd : (spinePids C ++ [lid]).Nodup)
    (hbnd : ∀ p ∈ spinePids C ++ [lid], p < t.pages.length)
    (hfuel : t.pages.length < fuel) :
    ∃ τ', TreeWF L I (splitPage t fuel lid) τ' ∧
      τ'.toList = spineFlat C items ∧
      t.pages.length ≤ (splitPage t fuel lid).pages.length := by
  have hg' : items.length ≤ L ∧ List.Chain' (· < ·) (items.map Prod.fst) ∧
      (∀ p ∈ items, okLo llo p.1 ∧ okHi lhi p.1) := hg
  set minSz := minSizeOf L with hminSz
  have hms1 : 1 ≤ minSz := by rw [hminSz, minSizeOf]; omega
  have hms2 : minSz ≤ L - 1 := by rw [hminSz, minSizeOf]; omega
  set keep : List (Nat × Nat) := items.take minSz with hkeep
  set moved : List (Nat × Nat) := items.drop minSz with hmoved
  have hkeeplen : keep.length = minSz := by
    rw [hkeep, List.length_take]
    omega
  have hmovedlen : moved.length = L - minSz := by
    rw [hmoved, List.length_drop, hfull]
  have hmovedne : moved ≠ [] := by
    intro h
    rw [h] at hmovedlen
    simp at hmovedlen
    omega
  have hkeepne : keep ≠ [] := by
    intro h
    rw [h] at hkeeplen
    simp at hkeeplen
    omega
  obtain ⟨m0, mrest, hmcons⟩ := List.exists_cons_of_ne_nil hmovedne
  obtain ⟨k0, krest, hkcons⟩ := List.exists_cons_of_ne_nil hkeepne
  have hchsplit := chain_take_drop items minSz hg'.2.1
  have hkeepsub : ∀ p ∈ keep, p ∈ items := by
    intro p hp
    rw [hkeep] at hp
    exact List.take_subset minSz items hp
  have hmovedsub : ∀ p ∈ moved, p ∈ items := by
    intro p hp
    rw [hmoved] at hp
    exact List.drop_subset minSz items hp
  have hm0mem : m0 ∈ moved := by rw [hmcons]; simp
  have hk0mem : k0 ∈ keep := by rw [hkcons]; simp
  have hlid_lt : lid < t.pages.length := hbnd lid (by simp)
  have hdisj : ∀ p ∈ spinePids C, p ≠ lid := by
    intro p hp he
    exact (List.nodup_append.mp hnd).2.2 hp (by simp [he])
  have hstep : splitPage t fuel lid =
      propagate (setNode { t with pages := t.pages ++ [BNode.leaf moved nx none t.leafMaxSize] }
          lid (BNode.leaf keep (some t.pages.length) (parentPidOf C none) L))
        fuel (parentPidOf C none) ((moved.getD 0 (0, 0)).1) lid t.pages.length := by
    simp only [splitPage, hx]
  rw [hstep]
  set nleaf : BNode := BNode.leaf moved nx none t.leafMaxSize with hnleaf
  set t1 : Tree := { t with pages := t.pages ++ [nleaf] } with ht1
  set t2 : Tree := setNode t1 lid
    (BNode.leaf keep (some t.pages.length) (parentPidOf C none) L) with ht2
  have hL2t : t2.leafMaxSize = L := by rw [ht2, ht1]; exact hL
  have hI2t : t2.internalMaxSize = I := by rw [ht2, ht1]; exact hI2
  have hlen2 : t2.pages.length = t.pages.length + 1 := by
    rw [ht2, ht1]
    simp [setNode]
  have hframe2 : ∀ p, p < t.pages.length → p ≠ lid → t2.getNode p = t.getNode p := by
    intro p h1 h2
    rw [ht2, getNode_setNode_other _ _ _ _ h2, ht1, getNode_grow t nleaf p h1]
  have hnode2lid : t2.getNode lid =
      some (BNode.leaf keep (some t.pages.length) (parentPidOf C none) L) := by
    rw [ht2]
    refine getNode_setNode_self t1 lid _ ?_
    rw [ht1]
    simp
    omega
  have hnode2new : t2.getNode t.pages.length = some nleaf := by
    rw [ht2, getNode_setNode_other _ _ _ _ (by omega : t.pages.length ≠ lid), ht1]
    exact getNode_grow_new t nleaf
  have hroot2 : t2.root = some (parentHole C lid) := by
    rw [show t2.root = t.root from by rw [ht2, ht1]; rfl, hroot]
  have hsp2 : spineDec t2 none C lid := by
    refine spineDec_frame t t2 none (by rw [hL2t, hL]) (by rw [hI2t, hI2]) C lid ?_ hsp
    intro p hp
    exact hframe2 p (hbnd p (by simp [hp])) (hdisj p hp)
  have hcross : ∀ p ∈ keep, p.1 < m0.1 := by
    intro p hp
    refine hchsplit.2.2 p ?_ m0 ?_
    · rw [← hkeep]; exact hp
    · rw [← hmoved]; exact hm0mem
  have hmovedlo : ∀ p ∈ moved, m0.1 ≤ p.1 := by
    intro p hp
    have hpw : List.Pairwise (· < ·) ((m0 :: mrest).map Prod.fst) := by
      rw [← hmcons]
      exact List.chain'_iff_pairwise.mp hchsplit.2.1
    rw [List.map_cons] at hpw
    have h2 := (List.pairwise_cons.mp hpw).1
    rw [hmcons] at hp
    rcases List.mem_cons.mp hp with h | h
    · rw [h]
    · have := h2 p.1 (List.mem_map_of_mem Prod.fst h)
      omega
  have hgA : GoodT L I llo (some m0.1) (ATree.aleaf lid keep) := by
    refine ⟨by omega, hchsplit.1, ?_⟩
    intro p hp
    have hp2 : p ∈ keep := hp
    refine ⟨(hg'.2.2 p (hkeepsub p hp2)).1, ?_⟩
    show p.1 < m0.1
    exact hcross p hp2
  have hgB : GoodT L I (some m0.1) lhi (ATree.aleaf t.pages.length moved) := by
    refine ⟨by omega, hchsplit.2.1, ?_⟩
    intro p hp
    have hp2 : p ∈ moved := hp
    refine ⟨?_, (hg'.2.2 p (hmovedsub p hp2)).2⟩
    show m0.1 ≤ p.1
    exact hmovedlo p hp2
  have hslo : strictLo llo m0.1 := by
    cases hllo : llo with
    | none => trivial
    | some l =>
      show l < m0.1
      have h1 := (hg'.2.2 k0 (hkeepsub k0 hk0mem)).1
      rw [hllo] at h1
      have h2 : l ≤ k0.1 := h1
      have h3 := hcross k0 hk0mem
      omega
  have hshi : okHi lhi m0.1 := (hg'.2.2 m0 (hmovedsub m0 hm0mem)).2
  have hfresh : t.pages.length ∉ spinePids C ++ [lid] := by
    intro hmem
    have := hbnd t.pages.length hmem
    omega
  have hinv : PropInv L I t2 C (ATree.aleaf lid keep) m0.1
      (ATree.aleaf t.pages.length moved) llo lhi := by
    refine ⟨hL2t, hI2t, hroot2, hsp2, ?_, ⟨none, ?_⟩, hsg, hgA, hgB, hslo, hshi, ?_, ?_⟩
    · refine ⟨some t.pages.length, ?_⟩
      rw [show t2.leafMaxSize = L from hL2t]
      exact hnode2lid
    · refine ⟨nx, ?_⟩
      rw [show t2.leafMaxSize = t.leafMaxSize from rfl, ← hnleaf]
      exact hnode2new
    · rw [show (ATree.aleaf lid keep).pids = [lid] from rfl,
        show (ATree.aleaf t.pages.length moved).pids = [t.pages.length] from rfl]
      have hperm2 : (spinePids C ++ ([lid] ++ [t.pages.length])).Perm
          (t.pages.length :: (spinePids C ++ [lid])) := by
        rw [List.perm_iff_count]
        intro x
        simp [List.count_append, List.count_cons]
        ring
      exact hperm2.nodup_iff.mpr (List.nodup_cons.mpr ⟨hfresh, hnd⟩)
    · intro p hp
      rw [hlen2]
      rw [show (ATree.aleaf lid keep).pids = [lid] from rfl,
        show (ATree.aleaf t.pages.length moved).pids = [t.pages.length] from rfl] at hp
      rcases List.mem_append.mp hp with h | h
      · have := hbnd p (by simp [h])
        omega
      · rcases List.mem_append.mp h with h2 | h2
        · have hpl : p = lid := by simpa using h2
          have := hbnd p (by simp [hpl])
          omega
        · have : p = t.pages.length := by simpa using h2
          omega
  have hClen : C.length < fuel := by
    have h1 := spinePids_length C
    have h2 := nodup_lt_length (spinePids C ++ [lid]) t.pages.length hnd hbnd
    simp at h2
    omega
  rw [show ((moved.getD 0 (0, 0)).1) = m0.1 from by rw [hmcons]; rfl]
  obtain ⟨τ', hwf, htl, hlen⟩ := propagate_ok L I hI C fuel t2 (ATree.aleaf lid keep)
    (ATree.aleaf t.pages.length moved) m0.1 llo lhi hinv hClen
  have hwf2 : TreeWF L I (propagate t2 fuel (parentPidOf C none) m0.1 lid t.pages.length) τ' :=
    hwf
  have hlen3 : t2.pages.length ≤
      (propagate t2 fuel (parentPidOf C none) m0.1 lid t.pages.length).pages.length := hlen
  refine ⟨τ', hwf2, ?_, by omega⟩
  rw [htl, show (ATree.aleaf lid keep).toList = keep from rfl,
    show (ATree.aleaf t.pages.length moved).toList = moved from rfl,
    hkeep, hmoved, List.take_append_drop]

set_option maxHeartbeats 1000000 in
/-- BPlusTree::Insert on a well-formed tree: a true return inserts the pair
into the flat contents (the key was absent from the whole tree); a false
return leaves the flat contents unchanged, also through the full-leaf split
of a failed pessimistic insert. -/
theorem insert_wf (L I K V : Nat) (hL2 : 2 ≤ L) (hI : 3 ≤ I)
    (t : Tree) (τ : ATree) (hwf : TreeWF L I t τ) :
    ∃ τ', TreeWF L I (insert t K V).2 τ' ∧
      t.pages.length ≤ (insert t K V).2.pages.length ∧
      (((insert t K V).1 = true ∧ (∀ p ∈ τ.toList, p.1 ≠ K) ∧
          τ'.toList = insList τ.toList K V) ∨
       ((insert t K V).1 = false ∧ τ'.toList = τ.toList)) := by
  obtain ⟨hL, hI2, hroot, hdec, hgood, hnd, hbnd⟩ := hwf
  obtain ⟨C, lid, litems, llo, lhi, nx, hplug, hsp, hx, hsg, hlg, hlk1, hlk2, hsl, hsr, hdesc⟩ :=
    locate L I K t hL τ none none none hdec hgood trivial trivial
  have hfuel : τ.height < treeFuel t := by
    have h1 := good_height_lt L I τ none none hgood
    have h2 := nodup_lt_length τ.pids t.pages.length hnd hbnd
    rw [treeFuel]
    omega
  have hd := hdesc (treeFuel t) hfuel
  have hperm : τ.pids.Perm (spinePids C ++ [lid]) := by
    have h := plug_pids_perm C (ATree.aleaf lid litems)
    rw [show (ATree.aleaf lid litems).pids = [lid] from rfl] at h
    rw [hplug]
    exact Multiset.coe_eq_coe.mp h
  have hndC : (spinePids C ++ [lid]).Nodup := hperm.nodup_iff.mp hnd
  have hbndC : ∀ p ∈ spinePids C ++ [lid], p < t.pages.length :=
    fun p hp => hbnd p (hperm.mem_iff.mpr hp)
  have hrootC : t.root = some (parentHole C lid) := by
    rw [hroot, hplug, ← parentHole_plug C (ATree.aleaf lid litems)]
    rfl
  have hlgparts : litems.length ≤ L ∧ List.Chain' (· < ·) (litems.map Prod.fst) ∧
      (∀ p ∈ litems, okLo llo p.1 ∧ okHi lhi p.1) := hlg
  have htoflat : τ.toList = spineLeft C ++ litems ++ spineRight C := by
    rw [hplug, plug_toList]
    rfl
  have hnoK : K ∉ litems.map Prod.fst → ∀ p ∈ τ.toList, p.1 ≠ K := by
    intro hmem p hp
    rw [htoflat] at hp
    rcases List.mem_append.mp hp with h | h
    · rcases List.mem_append.mp h with h2 | h2
      · have := hsl p h2
        omega
      · intro he
        exact hmem (he ▸ List.mem_map_of_mem Prod.fst h2)
    · have := hsr p h
      omega
  by_cases hmem : K ∈ litems.map Prod.fst
  · -- the key is present: every path returns false with contents unchanged
    have hany : litems.any (fun p => p.1 == K) = true := by
      rw [List.any_eq_true]
      obtain ⟨p, hp, hp2⟩ := List.mem_map.mp hmem
      exact ⟨p, hp, by simp [hp2]⟩
    by_cases hopt : litems.length < L - 1
    · have hstep : insert t K V = (false, t) := by
        simp only [insert, hroot, Option.isNone_some, Bool.false_eq_true, if_false, hd, hx]
        rw [if_pos hopt]
        unfold leafInsertKV
        rw [if_neg (by omega : ¬ litems.length = L), hany]
        rw [if_pos rfl]
      rw [hstep]
      exact ⟨τ, ⟨hL, hI2, hroot, hdec, hgood, hnd, hbnd⟩, le_refl _, Or.inr ⟨rfl, rfl⟩⟩
    · by_cases hfull : litems.length = L
      · -- pessimistic duplicate on a full leaf: split with contents unchanged
        have hstep : insert t K V = (false, splitPage t (treeFuel t) lid) := by
          simp only [insert, hroot, Option.isNone_some, Bool.false_eq_true, if_false, hd, hx]
          rw [if_neg hopt]
          unfold leafInsertKV
          rw [if_pos hfull]
          show (if litems.length = L then (false, splitPage t (treeFuel t) lid)
            else (false, t)) = (false, splitPage t (treeFuel t) lid)
          rw [if_pos hfull]
        rw [hstep]
        obtain ⟨τ', hwf2, htl2, hlen2⟩ := splitPage_ok L I hL2 hI t C lid litems nx llo lhi
          (treeFuel t) hL hI2 hrootC hx hsp hsg hlg hfull hndC hbndC (by rw [treeFuel]; omega)
        refine ⟨τ', hwf2, hlen2, Or.inr ⟨rfl, ?_⟩⟩
        rw [htl2, htoflat, spineFlat_eq]
      · have hstep : insert t K V = (false, t) := by
          simp only [insert, hroot, Option.isNone_some, Bool.false_eq_true, if_false, hd, hx]
          rw [if_neg hopt]
          unfold leafInsertKV
          rw [if_neg hfull, hany]
          rw [if_pos rfl]
          show (if litems.length = L then (false, splitPage t (treeFuel t) lid)
            else (false, t)) = (false, t)
          rw [if_neg hfull]
        rw [hstep]
        exact ⟨τ, ⟨hL, hI2, hroot, hdec, hgood, hnd, hbnd⟩, le_refl _, Or.inr ⟨rfl, rfl⟩⟩
  · -- the key is absent
    have hany : litems.any (fun p => p.1 == K) = false := by
      rw [List.any_eq_false]
      intro p hp
      simp only [beq_iff_eq]
      intro he
      exact hmem (he ▸ List.mem_map_of_mem Prod.fst hp)
    have hfacts := insList_facts litems K V hlgparts.2.1
      (fun p hp he => hmem (he ▸ List.mem_map_of_mem Prod.fst hp))
    have hboundsNew : ∀ p ∈ insList litems K V, okLo llo p.1 ∧ okHi lhi p.1 := by
      intro p hp
      rcases hfacts.2.1 p hp with h | h
      · rw [h]
        exact ⟨hlk1, hlk2⟩
      · exact hlgparts.2.2 p h
    have htlEq : ∀ τ2 : ATree, τ2.toList = spineFlat C (insList litems K V) →
        τ2.toList = insList τ.toList K V := by
      intro τ2 h2
      rw [h2, spineFlat_eq, htoflat,
        insList_concat (spineLeft C) litems (spineRight C) K V
          (fun p hp => hsl p hp) (fun p hp => hsr p hp)]
    by_cases hopt : litems.length < L - 1
    · have hstep : insert t K V = (true, setNode t lid
          (BNode.leaf (insList litems K V) nx (parentPidOf C none) L)) := by
        simp only [insert, hroot, Option.isNone_some, Bool.false_eq_true, if_false, hd, hx]
        rw [if_pos hopt]
        unfold leafInsertKV
        rw [if_neg (by omega : ¬ litems.length = L), hany]
        simp only [Bool.false_eq_true, if_false]
        rfl
      rw [hstep]
      have hg2 : GoodT L I llo lhi (ATree.aleaf lid (insList litems K V)) :=
        ⟨by rw [hfacts.2.2.1]; omega, hfacts.1, hboundsNew⟩
      obtain ⟨hwf2, htl2, hlen2, _, _, _⟩ := hole_leaf_set L I t C lid (insList litems K V)
        nx llo lhi hL hI2 hrootC hsp hsg hg2 hndC hbndC
      exact ⟨plug C (ATree.aleaf lid (insList litems K V)), hwf2, le_of_eq hlen2.symm,
        Or.inl ⟨rfl, hnoK hmem, htlEq _ htl2⟩⟩
    · by_cases hfull : litems.length = L
      · -- a full leaf rejects the insert, then the quirk split applies
        have hstep : insert t K V = (false, splitPage t (treeFuel t) lid) := by
          simp only [insert, hroot, Option.isNone_some, Bool.false_eq_true, if_false, hd, hx]
          rw [if_neg hopt]
          unfold leafInsertKV
          rw [if_pos hfull]
          show (if litems.length = L then (false, splitPage t (treeFuel t) lid)
            else (false, t)) = (false, splitPage t (treeFuel t) lid)
          rw [if_pos hfull]
        rw [hstep]
        obtain ⟨τ', hwf2, htl2, hlen2⟩ := splitPage_ok L I hL2 hI t C lid litems nx llo lhi
          (treeFuel t) hL hI2 hrootC hx hsp hsg hlg hfull hndC hbndC (by rw [treeFuel]; omega)
        refine ⟨τ', hwf2, hlen2, Or.inr ⟨rfl, ?_⟩⟩
        rw [htl2, htoflat, spineFlat_eq]
      · by_cases hsplit : (insList litems K V).length = L
        · have hstep : insert t K V =
              (true, splitPage (setNode t lid
                  (BNode.leaf (insList litems K V) nx (parentPidOf C none) L))
                (treeFuel (setNode t lid
                  (BNode.leaf (insList litems K V) nx (parentPidOf C none) L))) lid) := by
            simp only [insert, hroot, Option.isNone_some, Bool.false_eq_true, if_false, hd, hx]
            rw [if_neg hopt]
            unfold leafInsertKV
            rw [if_neg hfull, hany]
            simp only [Bool.false_eq_true, if_false]
            show (if (insList litems K V).length = L then
                (true, splitPage (setNode t lid
                    (BNode.leaf (insList litems K V) nx (parentPidOf C none) L))
                  (treeFuel (setNode t lid
                    (BNode.leaf (insList litems K V) nx (parentPidOf C none) L))) lid)
              else (true, setNode t lid
                (BNode.leaf (insList litems K V) nx (parentPidOf C none) L))) = _
            rw [if_pos hsplit]
          rw [hstep]
          have hg2 : GoodT L I llo lhi (ATree.aleaf lid (insList litems K V)) :=
            ⟨by rw [hfacts.2.2.1]; omega, hfacts.1, hboundsNew⟩
          obtain ⟨hwf1, htl1, hlen1, hsp1, hroot1, hx1⟩ := hole_leaf_set L I t C lid
            (insList litems K V) nx llo lhi hL hI2 hrootC hsp hsg hg2 hndC hbndC
          obtain ⟨hL1, hI1, _, _, _, _, _⟩ := hwf1
          obtain ⟨τ', hwf2, htl2, hlen2⟩ := splitPage_ok L I hL2 hI
            (setNode t lid (BNode.leaf (insList litems K V) nx (parentPidOf C none) L))
            C lid (insList litems K V) nx llo lhi
            (treeFuel (setNode t lid (BNode.leaf (insList litems K V) nx (parentPidOf C none) L)))
            hL1 hI1 hroot1 hx1 hsp1 hsg hg2 hsplit hndC
            (by rw [hlen1]; exact hbndC) (by rw [treeFuel]; omega)
          refine ⟨τ', hwf2, le_trans (le_of_eq hlen1.symm) hlen2, Or.inl ⟨rfl, hnoK hmem, ?_⟩⟩
          exact htlEq τ' htl2
        · have hstep : insert t K V = (true, setNode t lid
              (BNode.leaf (insList litems K V) nx (parentPidOf C none) L)) := by
            simp only [insert, hroot, Option.isNone_some, Bool.false_eq_true, if_false, hd, hx]
            rw [if_neg hopt]
            unfold leafInsertKV
            rw [if_neg hfull, hany]
            simp only [Bool.false_eq_true, if_false]
            show (if (insList litems K V).length = L then
                (true, splitPage (setNode t lid
                    (BNode.leaf (insList litems K V) nx (parentPidOf C none) L))
                  (treeFuel (setNode t lid
                    (BNode.leaf (insList litems K V) nx (parentPidOf C none) L))) lid)
              else (true, setNode t lid
                (BNode.leaf (insList litems K V) nx (parentPidOf C none) L))) = _
            rw [if_neg hsplit]
          rw [hstep]
          have hg2 : GoodT L I llo lhi (ATree.aleaf lid (insList litems K V)) :=
            ⟨by rw [hfacts.2.2.1]; omega, hfacts.1, hboundsNew⟩
          obtain ⟨hwf2, htl2, hlen2, _, _, _⟩ := hole_leaf_set L I t C lid (insList litems K V)
            nx llo lhi hL hI2 hrootC hsp hsg hg2 hndC hbndC
          exact ⟨plug C (ATree.aleaf lid (insList litems K V)), hwf2, le_of_eq hlen2.symm,
            Or.inl ⟨rfl, hnoK hmem, htlEq _ htl2⟩⟩

theorem set_at_append (l1 l2 : List (Nat × Nat)) (x y : Nat × Nat) :
    (l1 ++ x :: l2).set l1.length y = l1 ++ y :: l2 := by
  induction l1 with
  | nil => rfl
  | cons a l1 ih => simp [List.set, ih]

theorem eraseIdx_at_append (l1 l2 : List (Nat × Nat)) (x : Nat × Nat) :
    (l1 ++ x :: l2).eraseIdx l1.length = l1 ++ l2 := by
  induction l1 with
  | nil => rfl
  | cons a l1 ih => simp [List.eraseIdx, ih]

theorem findIdx_go_at (p : Nat × Nat → Bool) :
    ∀ (l1 : List (Nat × Nat)) (x : Nat × Nat) (l2 : List (Nat × Nat)) (i : Nat),
    (∀ q ∈ l1, p q = false) → p x = true →
    List.findIdx? p (l1 ++ x :: l2) i = some (i + l1.length) := by
  intro l1
  induction l1 with
  | nil =>
    intro x l2 i _ hx
    rw [List.nil_append, List.findIdx?_cons, if_pos hx]
    simp
  | cons a l1 ih =>
    intro x l2 i h1 hx
    rw [List.cons_append, List.findIdx?_cons, if_neg (by rw [h1 a (by simp)]; simp),
      ih x l2 (i + 1) (fun q hq => h1 q (by simp [hq])) hx]
    simp
    omega

/-- InternalPage::FindValue on the parent hits the hole edge. -/
theorem interFindValue_at (E1 E2 : List (Nat × Nat)) (hk pid : Nat)
    (h1 : ∀ q ∈ E1, q.2 ≠ pid) :
    interFindValue (E1 ++ (hk, pid) :: E2) pid = some E1.length := by
  unfold interFindValue
  rw [findIdx_go_at (fun p => p.2 == pid) E1 (hk, pid) E2 0
    (fun q hq => by simpa using h1 q hq) (by simp)]
  simp

/-- InternalPage::GetSibling on the parent: the neighbours of the hole. -/
theorem interGetSibling_at (E1 E2 : List (Nat × Nat)) (hk pid : Nat)
    (h1 : ∀ q ∈ E1, q.2 ≠ pid) :
    interGetSibling (E1 ++ (hk, pid) :: E2) pid =
      ((E1.getLast?).map Prod.snd, (E2.head?).map Prod.snd) := by
  unfold interGetSibling
  rw [interFindValue_at E1 E2 hk pid h1, Option.getD_some]
  show (if 0 < E1.length then
      some ((E1 ++ (hk, pid) :: E2).getD (E1.length - 1) (0, 0)).2 else none,
    if E1.length + 1 < (E1 ++ (hk, pid) :: E2).length then
      some ((E1 ++ (hk, pid) :: E2).getD (E1.length + 1) (0, 0)).2 else none) =
    ((E1.getLast?).map Prod.snd, (E2.head?).map Prod.snd)
  have hlen : (E1 ++ (hk, pid) :: E2).length = E1.length + 1 + E2.length := by
    simp
    omega
  have hleft : (if 0 < E1.length then
      some ((E1 ++ (hk, pid) :: E2).getD (E1.length - 1) (0, 0)).2 else none) =
      (E1.getLast?).map Prod.snd := by
    rcases List.eq_nil_or_concat E1 with h | ⟨E1', e, h⟩
    · subst h
      rfl
    · subst h
      simp only [List.concat_eq_append]
      rw [if_pos (by simp)]
      have hget : ((E1' ++ [e]) ++ (hk, pid) :: E2).getD ((E1' ++ [e]).length - 1) (0, 0) = e := by
        rw [show (E1' ++ [e]).length - 1 = E1'.length from by simp,
          show (E1' ++ [e]) ++ (hk, pid) :: E2 = E1' ++ e :: ((hk, pid) :: E2) from by simp]
        rw [List.getD_eq_getElem?_getD, List.getElem?_append_right (le_refl E1'.length)]
        simp
      rw [hget, List.getLast?_concat]
      rfl
  have hright : (if E1.length + 1 < (E1 ++ (hk, pid) :: E2).length then
      some ((E1 ++ (hk, pid) :: E2).getD (E1.length + 1) (0, 0)).2 else none) =
      (E2.head?).map Prod.snd := by
    cases E2 with
    | nil =>
      rw [if_neg (by rw [hlen]; simp)]
      rfl
    | cons e2 E2' =>
      rw [if_pos (by rw [hlen]; simp)]
      have hget : (E1 ++ (hk, pid) :: e2 :: E2').getD (E1.length + 1) (0, 0) = e2 := by
        rw [show E1 ++ (hk, pid) :: e2 :: E2' = (E1 ++ [(hk, pid)]) ++ e2 :: E2' from by simp]
        rw [List.getD_eq_getElem?_getD,
          List.getElem?_append_right (by simp : (E1 ++ [(hk, pid)]).length ≤ E1.length + 1)]
        simp
      rw [hget]
      rfl
  rw [hleft, hright]

/-- Ordered insert of a key below the whole list lands at the front. -/
theorem insList_front (l : List (Nat × Nat)) (k v : Nat)
    (h : ∀ p ∈ l, k < p.1) : insList l k v = (k, v) :: l := by
  rw [insList, show l.reverse = l.reverse ++ [] from by simp,
    insRevAux_pass (k, v) l.reverse [] (fun q hq => h q (List.mem_reverse.mp hq))]
  simp [insRevAux]

theorem strictLo_trans (lo : Option Nat) (s k : Nat)
    (h1 : strictLo lo s) (h2 : s < k) : strictLo lo k := by
  cases lo with
  | none => trivial
  | some l =>
    show l < k
    have : l < s := h1
    omega

theorem goodSeq_headkey (L I : Nat) (lo hi : Option Nat) (k' : Nat) :
    ∀ (c : Nat × ATree) (rest : List (Nat × ATree)),
    GoodSeq L I lo hi (c :: rest) → GoodSeq L I lo hi ((k', c.2) :: rest) := by
  intro c rest h
  cases rest with
  | nil => exact h
  | cons c2 rest2 =>
    have h2 : GoodT L I lo (some c2.1) c.2 ∧ GoodSeq L I (some c2.1) hi (c2 :: rest2) := h
    exact ⟨h2.1, h2.2⟩

/-- Gluing two child runs at a separator anchored as the right run's stored
head key. -/
theorem goodSeq_concat (L I : Nat) :
    ∀ (cs1 cs2 : List (Nat × ATree)) (lo hi : Option Nat) (s : Nat),
    GoodSeq L I lo (some s) cs1 →
    GoodSeq L I (some s) hi cs2 →
    headKey cs2 = s →
    cs1 ≠ [] → cs2 ≠ [] →
    GoodSeq L I lo hi (cs1 ++ cs2) := by
  intro cs1
  induction cs1 with
  | nil => intro cs2 lo hi s _ _ _ hne _; exact absurd rfl hne
  | cons c cs1' ih =>
    intro cs2 lo hi s h1 h2 h3 _ hne2
    cases cs1' with
    | nil =>
      obtain ⟨d, rest, hd⟩ := List.exists_cons_of_ne_nil hne2
      subst hd
      have hds : d.1 = s := h3
      have h1' : GoodT L I lo (some s) c.2 := h1
      show GoodT L I lo (some d.1) c.2 ∧ GoodSeq L I (some d.1) hi (d :: rest)
      rw [hds]
      exact ⟨h1', h2⟩
    | cons c2 cs1'' =>
      have h1' : GoodT L I lo (some c2.1) c.2 ∧
          GoodSeq L I (some c2.1) (some s) (c2 :: cs1'') := h1
      have hih := ih cs2 (some c2.1) hi s h1'.2 h2 h3 (by simp) hne2
      show GoodT L I lo (some c2.1) c.2 ∧ GoodSeq L I (some c2.1) hi (c2 :: (cs1'' ++ cs2))
      exact ⟨h1'.1, hih⟩

/-- The invariant of RedistributePage: a single (possibly under-filled but
otherwise well-formed) hole hangs under the intact spine. -/
def HoleInv (L I : Nat) (t : Tree) (C : List Fr) (h : ATree)
    (lo hi : Option Nat) : Prop :=
  t.leafMaxSize = L ∧
  t.internalMaxSize = I ∧
  t.root = some (parentHole C h.rootPid) ∧
  spineDec t none C h.rootPid ∧
  DecT t (parentPidOf C none) h ∧
  spineGood L I none none C lo hi ∧
  GoodT L I lo hi h ∧
  (spinePids C ++ h.pids).Nodup ∧
  (∀ p ∈ spinePids C ++ h.pids, p < t.pages.length)

/-- A hole in bounds plugs back to a well-formed whole tree. -/
theorem hole_rebuild (L I : Nat) (t : Tree) (C : List Fr) (h : ATree)
    (lo hi : Option Nat) (hinv : HoleInv L I t C h lo hi) :
    ∃ τ', TreeWF L I t τ' ∧ τ'.toList = spineFlat C h.toList := by
  obtain ⟨hL, hI2, hroot, hsp, hdec, hsg, hg, hnd, hbnd⟩ := hinv
  have hperm : (plug C h).pids.Perm (spinePids C ++ h.pids) :=
    Multiset.coe_eq_coe.mp (plug_pids_perm C h)
  refine ⟨plug C h, ⟨hL, hI2, ?_, ?_, ?_, ?_, ?_⟩, ?_⟩
  · rw [hroot]
    exact congrArg some (parentHole_plug C h)
  · exact plug_dec t C h none hsp hdec
  · exact plug_good L I C lo hi h hsg hg
  · exact hperm.nodup_iff.mpr hnd
  · intro p hp
    exact hbnd p (hperm.mem_iff.mp hp)
  · rw [plug_toList, spineFlat_eq]

theorem tail_append_of_ne_nil (Y Z : List Nat) (h : Y ≠ []) :
    (Y ++ Z).tail = Y.tail ++ Z := by
  cases Y with
  | nil => exact absurd rfl h
  | cons a l => simp

theorem pairwise_sub_mid (P A : List Nat) (x y : Nat)
    (h : List.Pairwise (· < ·) (P ++ x :: A))
    (hy1 : ∀ q ∈ P, q < y) (hy2 : ∀ q ∈ A, y < q) :
    List.Pairwise (· < ·) (P ++ y :: A) := by
  rw [List.pairwise_append] at h ⊢
  refine ⟨h.1, ?_, ?_⟩
  · rw [List.pairwise_cons]
    exact ⟨hy2, (List.pairwise_cons.mp h.2.1).2⟩
  · intro a ha b hb
    rcases List.mem_cons.mp hb with h3 | h3
    · rw [h3]
      exact hy1 a ha
    · exact h.2.2 a ha b (List.mem_cons.mpr (Or.inr h3))

theorem tail_concat_le (P : List Nat) (k : Nat)
    (hpw : List.Pairwise (· < ·) ((P ++ [k]).tail)) :
    ∀ q ∈ (P ++ [k]).tail, q ≤ k := by
  cases P with
  | nil =>
    intro q hq
    simp at hq
  | cons p0 P' =>
    intro q hq
    simp only [List.cons_append, List.tail_cons] at hq hpw
    rcases List.mem_append.mp hq with h | h
    · have := (List.pairwise_append.mp hpw).2.2 q h k (by simp)
      omega
    · have : q = k := by simpa using h
      omega

theorem headKey_append_left (cs1 cs2 : List (Nat × ATree)) (h : cs1 ≠ []) :
    headKey (cs1 ++ cs2) = headKey cs1 := by
  cases cs1 with
  | nil => exact absurd rfl h
  | cons c l => rfl

/-- Two adjacent well-formed leaves concatenate to one within the outer
bounds. -/
theorem merged_leaf_good (L I : Nat) (p1 p2 npid : Nat)
    (items1 items2 : List (Nat × Nat)) (lo hi : Option Nat) (s : Nat)
    (hg1 : GoodT L I lo (some s) (.aleaf p1 items1))
    (hg2 : GoodT L I (some s) hi (.aleaf p2 items2))
    (hlen : items1.length + items2.length ≤ L)
    (hs1 : strictLo lo s) (hs2 : okHi hi s) :
    GoodT L I lo hi (.aleaf npid (items1 ++ items2)) := by
  have h1 : items1.length ≤ L ∧ List.Chain' (· < ·) (items1.map Prod.fst) ∧
      (∀ p ∈ items1, okLo lo p.1 ∧ okHi (some s) p.1) := hg1
  have h2 : items2.length ≤ L ∧ List.Chain' (· < ·) (items2.map Prod.fst) ∧
      (∀ p ∈ items2, okLo (some s) p.1 ∧ okHi hi p.1) := hg2
  refine ⟨by simp; omega, ?_, ?_⟩
  · rw [List.map_append, List.chain'_append]
    refine ⟨h1.2.1, h2.2.1, ?_⟩
    intro x hx y hy
    rw [List.getLast?_map] at hx
    rw [List.head?_map] at hy
    obtain ⟨px, hpx, hpx2⟩ := Option.map_eq_some'.mp hx
    obtain ⟨py, hpy, hpy2⟩ := Option.map_eq_some'.mp hy
    have hx3 : px.1 < s := (h1.2.2 px (List.mem_of_mem_getLast? hpx)).2
    have hy3 : s ≤ py.1 := (h2.2.2 py (List.mem_of_mem_head? hpy)).1
    omega
  · intro p hp
    rcases List.mem_append.mp hp with h | h
    · exact ⟨(h1.2.2 p h).1, okHi_weaken hi s p.1 hs2 (h1.2.2 p h).2⟩
    · refine ⟨?_, (h2.2.2 p h).2⟩
      have hsp : s ≤ p.1 := (h2.2.2 p h).1
      cases lo with
      | none => trivial
      | some l =>
        show l ≤ p.1
        have hls : l < s := hs1
        omega

/-- Two adjacent well-formed internal nodes concatenate to one (the right
node's stored head key is anchored to the separator, so its head key
becomes a correct interior separator). -/
theorem merged_good (L I : Nat) (p1 p2 npid : Nat)
    (cs1 cs2 : List (Nat × ATree)) (lo hi : Option Nat) (s : Nat)
    (hg1 : GoodT L I lo (some s) (.anode p1 cs1))
    (hg2 : GoodT L I (some s) hi (.anode p2 cs2))
    (hlen : cs1.length + cs2.length ≤ I)
    (hs1 : strictLo lo s) (hs2 : okHi hi s) :
    GoodT L I lo hi (.anode npid (cs1 ++ cs2)) := by
  have h1 : 1 ≤ cs1.length ∧ cs1.length ≤ I ∧ List.Chain' (· < ·) (tailKeys cs1) ∧
      (∀ k ∈ tailKeys cs1, strictLo lo k ∧ okHi (some s) k) ∧
      (∀ l, lo = some l → headKey cs1 = l) ∧ GoodSeq L I lo (some s) cs1 := hg1
  have h2 : 1 ≤ cs2.length ∧ cs2.length ≤ I ∧ List.Chain' (· < ·) (tailKeys cs2) ∧
      (∀ k ∈ tailKeys cs2, strictLo (some s) k ∧ okHi hi k) ∧
      (∀ l, some s = some l → headKey cs2 = l) ∧ GoodSeq L I (some s) hi cs2 := hg2
  have hne1 : cs1 ≠ [] := by
    intro h
    have := h1.1
    rw [h] at this
    simp at this
  have hne2 : cs2 ≠ [] := by
    intro h
    have := h2.1
    rw [h] at this
    simp at this
  have hhead2 : headKey cs2 = s := h2.2.2.2.2.1 s rfl
  have hkeysplit : tailKeys (cs1 ++ cs2) = tailKeys cs1 ++ cs2.map Prod.fst := by
    obtain ⟨c0, cs1', hc⟩ := List.exists_cons_of_ne_nil hne1
    rw [show tailKeys (cs1 ++ cs2) = ((cs1 ++ cs2).map Prod.fst).tail from rfl,
      show tailKeys cs1 = (cs1.map Prod.fst).tail from rfl, List.map_append, hc]
    simp
  have hmap2 : cs2.map Prod.fst = s :: tailKeys cs2 := by
    obtain ⟨d, rest, hd⟩ := List.exists_cons_of_ne_nil hne2
    rw [hd] at hhead2
    have hds : d.1 = s := hhead2
    rw [hd, List.map_cons, hds]
    rfl
  refine ⟨by simp; omega, by simp; omega, ?_, ?_, ?_, ?_⟩
  · rw [hkeysplit, hmap2]
    rw [List.chain'_iff_pairwise, List.pairwise_append]
    refine ⟨List.chain'_iff_pairwise.mp h1.2.2.1, ?_, ?_⟩
    · rw [List.pairwise_cons]
      exact ⟨fun k hk => (h2.2.2.2.1 k hk).1, List.chain'_iff_pairwise.mp h2.2.2.1⟩
    · intro a ha b hb
      have ha2 : a < s := (h1.2.2.2.1 a ha).2
      rcases List.mem_cons.mp hb with h3 | h3
      · omega
      · have : s < b := (h2.2.2.2.1 b h3).1
        omega
  · intro kk hkk
    rw [hkeysplit, hmap2] at hkk
    rcases List.mem_append.mp hkk with h3 | h3
    · exact ⟨(h1.2.2.2.1 kk h3).1, okHi_weaken hi s kk hs2 (h1.2.2.2.1 kk h3).2⟩
    · rcases List.mem_cons.mp h3 with h4 | h4
      · rw [h4]
        exact ⟨hs1, hs2⟩
      · exact ⟨strictLo_trans lo s kk hs1 (h2.2.2.2.1 kk h4).1, (h2.2.2.2.1 kk h4).2⟩
  · intro l hl
    rw [headKey_append_left cs1 cs2 hne1]
    exact h1.2.2.2.2.1 l hl
  · exact goodSeq_concat L I cs1 cs2 lo hi s h1.2.2.2.2.2 h2.2.2.2.2.2 hhead2 hne1 hne2

theorem spineFlat_frame (C' : List Fr) (F : Fr) (h : ATree) (X : List (Nat × Nat))
    (hX : X = toListC (F.pre ++ (F.hk, h) :: F.post)) :
    spineFlat C' X = spineFlat (F :: C') h.toList := by
  rw [hX, show spineFlat (F :: C') h.toList =
    spineFlat C' (toListC F.pre ++ h.toList ++ toListC F.post) from rfl, toListC_append,
    show toListC ((F.hk, h) :: F.post) = h.toList ++ toListC F.post from rfl,
    spineFlat_eq, spineFlat_eq]
  simp

/-- The canonical flattening of the pid bookkeeping at an innermost
frame. -/
theorem hole_pids_facts (t : Tree) (F : Fr) (C' : List Fr) (h : ATree)
    (hnd : (spinePids (F :: C') ++ h.pids).Nodup)
    (hbnd : ∀ p ∈ spinePids (F :: C') ++ h.pids, p < t.pages.length) :
    (F.pid :: (pidsC F.pre ++ (pidsC F.post ++ (spinePids C' ++ h.pids)))).Nodup ∧
    (∀ p ∈ F.pid :: (pidsC F.pre ++ (pidsC F.post ++ (spinePids C' ++ h.pids))),
      p < t.pages.length) := by
  have hperm : (spinePids (F :: C') ++ h.pids).Perm
      (F.pid :: (pidsC F.pre ++ (pidsC F.post ++ (spinePids C' ++ h.pids)))) := by
    rw [show spinePids (F :: C') = frPids F ++ spinePids C' from rfl, frPids,
      List.perm_iff_count]
    intro x
    simp only [List.count_append, List.count_cons]
    ring
  exact ⟨hperm.nodup_iff.mp hnd, fun p hp => hbnd p (hperm.mem_iff.mpr hp)⟩

theorem hole_pids_parts (Fpid : Nat) (P1 P2 S H : List Nat)
    (hndB : (Fpid :: (P1 ++ (P2 ++ (S ++ H)))).Nodup) :
    Fpid ∉ P1 ∧ Fpid ∉ P2 ∧ Fpid ∉ S ∧ Fpid ∉ H ∧
    P1.Nodup ∧ P2.Nodup ∧ S.Nodup ∧ H.Nodup ∧
    (∀ q ∈ P1, q ∉ P2 ∧ q ∉ S ∧ q ∉ H) ∧
    (∀ q ∈ P2, q ∉ S ∧ q ∉ H) ∧
    (∀ q ∈ S, q ∉ H) := by
  obtain ⟨hF, hrest⟩ := List.nodup_cons.mp hndB
  have ha := List.nodup_append.mp hrest
  have hb := List.nodup_append.mp ha.2.1
  have hc := List.nodup_append.mp hb.2.1
  refine ⟨fun hm => hF (by simp [hm]), fun hm => hF (by simp [hm]),
    fun hm => hF (by simp [hm]), fun hm => hF (by simp [hm]),
    ha.1, hb.1, hc.1, hc.2.1, ?_, ?_, ?_⟩
  · intro q hq
    refine ⟨?_, ?_, ?_⟩
    · intro hm
      exact ha.2.2 hq (by simp [hm])
    · intro hm
      exact ha.2.2 hq (by simp [hm])
    · intro hm
      exact ha.2.2 hq (by simp [hm])
  · intro q hq
    refine ⟨?_, ?_⟩
    · intro hm
      exact hb.2.2 hq (by simp [hm])
    · intro hm
      exact hb.2.2 hq (by simp [hm])
  · intro q hq hm
    exact hc.2.2 hq hm

set_option maxHeartbeats 1600000 in
/-- BorrowFromSibling, left leaf sibling: the sibling's last entry moves to
the front of the under-filled leaf, the separator becomes the moved key,
and the frame rebuilds into a well-formed hole at the parent. -/
theorem bll_ok (L I : Nat) (hL2 : 2 ≤ L) (hI : 3 ≤ I)
    (t : Tree) (F : Fr) (C' : List Fr) (pid : Nat) (items : List (Nat × Nat))
    (lo hi : Option Nat)
    (hinv : HoleInv L I t (F :: C') (.aleaf pid items) lo hi)
    (hund : items.length < minSizeOf L)
    (pre' : List (Nat × ATree)) (kl lsid : Nat) (litems : List (Nat × Nat))
    (hpre : F.pre = pre' ++ [(kl, .aleaf lsid litems)])
    (hsz : minSizeOf L < litems.length) :
    ∃ t' newCs lo' hi',
      borrowLeft t pid F.pid lsid = some t' ∧
      HoleInv L I t' C' (.anode F.pid newCs) lo' hi' ∧
      toListC newCs = toListC (F.pre ++ (F.hk, .aleaf pid items) :: F.post) ∧
      t'.pages.length = t.pages.length := by
  obtain ⟨hL, hI2, hroot, hsp, hdec, hsg, hg, hnd, hbnd⟩ := hinv
  obtain ⟨hxF, hsidepre, hsidepost, hspC'⟩ := hsp
  obtain ⟨lo', hi', hsgC', hfrok, hlo, hhi⟩ := hsg
  obtain ⟨hf1, hf2, hf3, hf4, hf5, hf6⟩ := hfrok
  rw [hI2] at hxF
  rw [show (ATree.aleaf pid items).rootPid = pid from rfl] at hxF hroot
  obtain ⟨nx, hxp⟩ := hdec
  rw [hL] at hxp
  have hlsdec : DecT t (some F.pid) (ATree.aleaf lsid litems) :=
    hsidepre (kl, ATree.aleaf lsid litems) (by rw [hpre]; simp)
  obtain ⟨lnx, hxl⟩ := hlsdec
  rw [hL] at hxl
  have hmsz : minSizeOf L = (L + 1) / 2 := rfl
  -- decompose the sibling from the right
  have hlne : litems ≠ [] := by
    intro h
    rw [h] at hsz
    simp at hsz
  obtain ⟨lits', lst, hlit0⟩ := (List.eq_nil_or_concat litems).resolve_left hlne
  have hlit : litems = lits' ++ [lst] := by rw [hlit0]; simp
  have hlitlen : 2 ≤ litems.length := by omega
  have hlits'ne : lits' ≠ [] := by
    intro h
    rw [hlit, h] at hlitlen
    simp at hlitlen
  obtain ⟨l0, lrest, hl0⟩ := List.exists_cons_of_ne_nil hlits'ne
  -- interval bookkeeping
  have hloe : lo = some F.hk := by
    rw [hlo, hpre]
    cases pre' with
    | nil => rfl
    | cons p ps => rfl
  rw [hloe, hhi] at hg
  have hgparts : items.length ≤ L ∧ List.Chain' (· < ·) (items.map Prod.fst) ∧
      (∀ p ∈ items, okLo (some F.hk) p.1 ∧ okHi (chHi hi' F.post) p.1) := hg
  have hdecompL := goodSeq_decomp L I pre' (kl, ATree.aleaf lsid litems) [] lo' (some F.hk)
    (by rw [← hpre]; exact hf5)
  have hlsgood : GoodT L I (chLo lo' pre' kl) (some F.hk) (ATree.aleaf lsid litems) :=
    hdecompL.2.1
  have hlsparts : litems.length ≤ L ∧ List.Chain' (· < ·) (litems.map Prod.fst) ∧
      (∀ p ∈ litems, okLo (chLo lo' pre' kl) p.1 ∧ okHi (some F.hk) p.1) := hlsgood
  have hlstmem : lst ∈ litems := by rw [hlit]; simp
  have hl0mem : l0 ∈ litems := by rw [hlit, hl0]; simp
  have hlst_lt_hk : lst.1 < F.hk := (hlsparts.2.2 lst hlstmem).2
  have hitems_gt : ∀ p ∈ items, lst.1 < p.1 := by
    intro p hp
    have h1 : F.hk ≤ p.1 := (hgparts.2.2 p hp).1
    omega
  have hlpw : List.Pairwise (· < ·) (lits'.map Prod.fst ++ [lst.1]) := by
    have h := List.chain'_iff_pairwise.mp hlsparts.2.1
    rw [hlit] at h
    simpa using h
  have hl0_lt_lst : l0.1 < lst.1 := by
    refine (List.pairwise_append.mp hlpw).2.2 l0.1 ?_ lst.1 (by simp)
    rw [hl0]
    simp
  have hlits'_lt_lst : ∀ p ∈ lits', p.1 < lst.1 := by
    intro p hp
    exact (List.pairwise_append.mp hlpw).2.2 p.1 (List.mem_map_of_mem Prod.fst hp) lst.1 (by simp)
  have hkl_le_l0 : pre' ≠ [] → kl ≤ l0.1 := by
    intro hne
    have h := (hlsparts.2.2 l0 hl0mem).1
    cases hpc : pre' with
    | nil => exact absurd hpc hne
    | cons p ps =>
      rw [hpc] at h
      exact h
  -- the parent's key line
  have hQsplit : frTailKeys F =
      ((pre'.map Prod.fst ++ [kl]).tail) ++ F.hk :: (F.post.map Prod.fst) := by
    rw [frTailKeys, hpre,
      show (pre' ++ [(kl, ATree.aleaf lsid litems)]).map Prod.fst =
        pre'.map Prod.fst ++ [kl] from by simp]
    exact tail_append_of_ne_nil _ _ (by simp)
  have hhk_mem : F.hk ∈ frTailKeys F := by
    rw [hQsplit]
    simp
  have hhk_bounds := hf3 F.hk hhk_mem
  have hfpw : List.Pairwise (· < ·)
      (((pre'.map Prod.fst ++ [kl]).tail) ++ F.hk :: (F.post.map Prod.fst)) := by
    rw [← hQsplit]
    exact List.chain'_iff_pairwise.mp hf2
  have hQle : ∀ q ∈ (pre'.map Prod.fst ++ [kl]).tail, q ≤ kl :=
    tail_concat_le (pre'.map Prod.fst) kl (List.pairwise_append.mp hfpw).1
  have hhk_lt_post : ∀ d ∈ (F.post.map Prod.fst), F.hk < d := by
    intro d hd
    exact (List.pairwise_cons.mp (List.pairwise_append.mp hfpw).2.1).1 d hd
  have hkl_mem : pre' ≠ [] → kl ∈ frTailKeys F := by
    intro hne
    rw [hQsplit]
    cases hpc : pre' with
    | nil => exact absurd hpc hne
    | cons p ps => simp
  have hslo_lst : strictLo lo' lst.1 := by
    cases hlo' : lo' with
    | none => trivial
    | some l =>
      show l < lst.1
      cases hpc : pre' with
      | nil =>
        have h := (hlsparts.2.2 l0 hl0mem).1
        rw [hpc] at h
        rw [hlo'] at h
        have : l ≤ l0.1 := h
        omega
      | cons p ps =>
        have hkl := hf3 kl (hkl_mem (by rw [hpc]; simp))
        rw [hlo'] at hkl
        have h1 : l < kl := hkl.1
        have h2 : kl ≤ l0.1 := hkl_le_l0 (by rw [hpc]; simp)
        omega
  have hchHi_hk : okHi (chHi hi' F.post) F.hk := by
    cases hpost : F.post with
    | nil => exact hhk_bounds.2
    | cons d post' =>
      show F.hk < d.1
      refine hhk_lt_post d.1 ?_
      rw [hpost]
      simp
  have hshi_lst : okHi (chHi hi' F.post) lst.1 :=
    okHi_weaken (chHi hi' F.post) F.hk lst.1 hchHi_hk hlst_lt_hk
  -- pid bookkeeping
  obtain ⟨hndB, hbndB⟩ := hole_pids_facts t F C' (ATree.aleaf pid items) hnd hbnd
  rw [show (ATree.aleaf pid items).pids = [pid] from rfl] at hndB hbndB
  obtain ⟨hFp1, hFp2, hFps, hFph, hndP1, hndP2, hndS, hndH, hdisj1, hdisj2, hdisj3⟩ :=
    hole_pids_parts F.pid (pidsC F.pre) (pidsC F.post) (spinePids C') [pid] hndB
  have hpidspre : pidsC F.pre = pidsC pre' ++ [lsid] := by
    rw [hpre, pidsC_append]
    rfl
  have hlsid_pre : lsid ∈ pidsC F.pre := by
    rw [hpidspre]
    simp
  have hFpid_lt : F.pid < t.pages.length := hbndB F.pid (by simp)
  have hpid_lt : pid < t.pages.length := hbndB pid (by simp)
  have hlsid_lt : lsid < t.pages.length := hbndB lsid (by simp [hlsid_pre])
  have hpid_ne_F : pid ≠ F.pid := by
    intro he
    exact hFph (by rw [← he]; simp)
  have hlsid_ne_F : lsid ≠ F.pid := by
    intro he
    exact hFp1 (he ▸ hlsid_pre)
  have hpid_ne_ls : pid ≠ lsid := by
    intro he
    exact (hdisj1 lsid hlsid_pre).2.2 (by rw [← he]; simp)
  have hE1ne : ∀ q ∈ edgesOf F.pre, q.2 ≠ pid := by
    intro q hq he
    obtain ⟨c, hc, hc2⟩ := List.mem_map.mp hq
    have hmem : c.2.rootPid ∈ pidsC F.pre :=
      (mem_pidsC F.pre c.2.rootPid).mpr ⟨c, hc, rootPid_mem_pids c.2⟩
    refine (hdisj1 c.2.rootPid hmem).2.2 ?_
    rw [show c.2.rootPid = q.2 from by rw [← hc2], he]
    simp
  -- computing borrowLeft
  have hgetD : litems.getD (litems.length - 1) (0, 0) = lst := by
    rw [hlit, show (lits' ++ [lst]).length - 1 = lits'.length from by simp, getD_at_append]
    rfl
  have hinsEq : leafInsertKV L items lst.1 lst.2 = some ((lst.1, lst.2) :: items) := by
    unfold leafInsertKV
    rw [if_neg (by omega : ¬ items.length = L)]
    rw [show items.any (fun p => p.1 == lst.1) = false from by
      rw [List.any_eq_false]
      intro p hp
      simp only [beq_iff_eq]
      have := hitems_gt p hp
      omega]
    rw [if_neg (by simp)]
    show some (insList items lst.1 lst.2) = some ((lst.1, lst.2) :: items)
    rw [insList_front items lst.1 lst.2 hitems_gt]
  have hsk : setKeyAt (edgesOf F.pre ++ (F.hk, pid) :: edgesOf F.post)
      (edgesOf F.pre).length lst.1 = edgesOf F.pre ++ (lst.1, pid) :: edgesOf F.post := by
    unfold setKeyAt
    rw [getD_at_append]
    rw [show (((F.hk, pid) :: edgesOf F.post).getD 0 (0, 0)).2 = pid from rfl]
    exact set_at_append (edgesOf F.pre) (edgesOf F.post) (F.hk, pid) (lst.1, pid)
  set newCs : List (Nat × ATree) := pre' ++ (kl, ATree.aleaf lsid lits') ::
    (lst.1, ATree.aleaf pid ((lst.1, lst.2) :: items)) :: F.post with hnewCs
  set t' : Tree := setNode (setNode (setNode t pid
      (BNode.leaf ((lst.1, lst.2) :: items) nx (parentPidOf (F :: C') none) L))
      lsid (BNode.leaf lits' lnx (some F.pid) L))
      F.pid (BNode.internal (edgesOf F.pre ++ (lst.1, pid) :: edgesOf F.post)
        (parentPidOf C' none) I) with ht'
  have hbl : borrowLeft t pid F.pid lsid = some t' := by
    simp only [borrowLeft, hxp, hxl, hxF]
    rw [if_pos hsz]
    rw [hgetD, hinsEq, Option.getD_some,
      show (((lst.1, lst.2) :: items).getD 0 (0, 0)).1 = lst.1 from rfl,
      hlit, List.dropLast_concat,
      interFindValue_at (edgesOf F.pre) (edgesOf F.post) F.hk pid hE1ne, Option.getD_some,
      hsk]
  -- the new store
  have hL' : t'.leafMaxSize = L := by rw [ht']; exact hL
  have hI' : t'.internalMaxSize = I := by rw [ht']; exact hI2
  have hlen' : t'.pages.length = t.pages.length := by
    rw [ht']
    simp [setNode]
  have hframe' : ∀ p, p ≠ pid → p ≠ lsid → p ≠ F.pid → t'.getNode p = t.getNode p := by
    intro p h1 h2 h3
    rw [ht', getNode_setNode_other _ _ _ _ h3, getNode_setNode_other _ _ _ _ h2,
      getNode_setNode_other _ _ _ _ h1]
  have hxp' : t'.getNode pid =
      some (BNode.leaf ((lst.1, lst.2) :: items) nx (parentPidOf (F :: C') none) L) := by
    rw [ht', getNode_setNode_other _ _ _ _ hpid_ne_F, getNode_setNode_other _ _ _ _ hpid_ne_ls]
    exact getNode_setNode_self t pid _ hpid_lt
  have hxl' : t'.getNode lsid = some (BNode.leaf lits' lnx (some F.pid) L) := by
    rw [ht', getNode_setNode_other _ _ _ _ hlsid_ne_F]
    refine getNode_setNode_self _ lsid _ ?_
    simp [setNode]
    omega
  have hxF' : t'.getNode F.pid = some (BNode.internal
      (edgesOf F.pre ++ (lst.1, pid) :: edgesOf F.post) (parentPidOf C' none) I) := by
    rw [ht']
    refine getNode_setNode_self _ F.pid _ ?_
    simp [setNode]
    omega
  have hedges' : edgesOf newCs = edgesOf F.pre ++ (lst.1, pid) :: edgesOf F.post := by
    rw [hnewCs, edgesOf_append, hpre, edgesOf_append]
    simp [edgesOf]
    exact ⟨rfl, rfl⟩
  have hpidsnew : pidsC newCs = pidsC pre' ++ ([lsid] ++ ([pid] ++ pidsC F.post)) := by
    rw [hnewCs, pidsC_append]
    rfl
  -- decode of the rebuilt frame
  have hdecA : DecT t' (parentPidOf C' none) (ATree.anode F.pid newCs) := by
    refine ⟨?_, ?_⟩
    · rw [hI', hedges']
      exact hxF'
    · rw [DecL_iff_mem]
      intro c hc
      rw [hnewCs] at hc
      rcases List.mem_append.mp hc with hm | hm
      · have hcpre : c ∈ F.pre := by rw [hpre]; exact List.mem_append.mpr (Or.inl hm)
        refine DecT_frame t t' (by rw [hL', hL]) (by rw [hI', hI2]) c.2 (some F.pid) ?_
          (hsidepre c hcpre)
        intro p hp
        have hmemP : p ∈ pidsC F.pre := (mem_pidsC F.pre p).mpr ⟨c, hcpre, hp⟩
        have hmemP' : p ∈ pidsC pre' := (mem_pidsC pre' p).mpr ⟨c, hm, hp⟩
        have hnd2 : (pidsC pre' ++ [lsid]).Nodup := hpidspre ▸ hndP1
        refine hframe' p ?_ ?_ ?_
        · intro he
          exact (hdisj1 p hmemP).2.2 (by simp [he])
        · intro he
          exact (List.nodup_append.mp hnd2).2.2 hmemP' (by simp [he])
        · intro he
          exact hFp1 (he ▸ hmemP)
      · rcases List.mem_cons.mp hm with hm2 | hm2
        · rw [hm2]
          refine ⟨lnx, ?_⟩
          rw [show t'.leafMaxSize = L from hL']
          exact hxl'
        · rcases List.mem_cons.mp hm2 with hm3 | hm3
          · rw [hm3]
            refine ⟨nx, ?_⟩
            rw [show t'.leafMaxSize = L from hL']
            exact hxp'
          · refine DecT_frame t t' (by rw [hL', hL]) (by rw [hI', hI2]) c.2 (some F.pid) ?_
              (hsidepost c hm3)
            intro p hp
            have hmemP : p ∈ pidsC F.post := (mem_pidsC F.post p).mpr ⟨c, hm3, hp⟩
            refine hframe' p ?_ ?_ ?_
            · intro he
              exact (hdisj2 p hmemP).2 (by simp [he])
            · intro he
              exact (hdisj1 lsid hlsid_pre).1 (he ▸ hmemP)
            · intro he
              exact hFp2 (he ▸ hmemP)
  have hspC'2 : spineDec t' none C' F.pid := by
    refine spineDec_frame t t' none (by rw [hL', hL]) (by rw [hI', hI2]) C' F.pid ?_ hspC'
    intro p hp
    refine hframe' p ?_ ?_ ?_
    · intro he
      exact hdisj3 p hp (by simp [he])
    · intro he
      exact (hdisj1 lsid hlsid_pre).2.1 (he ▸ hp)
    · intro he
      exact hFps (he ▸ hp)
  -- the rebuilt frame is search-good
  have hnewtail : tailKeys newCs =
      ((pre'.map Prod.fst ++ [kl]).tail) ++ lst.1 :: (F.post.map Prod.fst) := by
    rw [hnewCs, tailKeys_frame2,
      show pre'.map Prod.fst ++ kl :: lst.1 :: (F.post.map Prod.fst) =
        (pre'.map Prod.fst ++ [kl]) ++ lst.1 :: (F.post.map Prod.fst) from by simp]
    exact tail_append_of_ne_nil _ _ (by simp)
  have hnewpw : List.Pairwise (· < ·) (tailKeys newCs) := by
    rw [hnewtail]
    refine pairwise_sub_mid _ _ F.hk lst.1 hfpw ?_ ?_
    · intro q hq
      have h1 := hQle q hq
      have h2 : pre' ≠ [] := by
        intro hp0
        rw [hp0] at hq
        simp at hq
      have h3 := hkl_le_l0 h2
      omega
    · intro q hq
      have := hhk_lt_post q hq
      omega
  have hnewbounds : ∀ kk ∈ tailKeys newCs, strictLo lo' kk ∧ okHi hi' kk := by
    rw [hnewtail]
    intro kk hkk
    rcases List.mem_append.mp hkk with h | h
    · refine hf3 kk ?_
      rw [hQsplit]
      exact List.mem_append.mpr (Or.inl h)
    · rcases List.mem_cons.mp h with h2 | h2
      · rw [h2]
        refine ⟨hslo_lst, ?_⟩
        exact okHi_weaken hi' F.hk lst.1 hhk_bounds.2 hlst_lt_hk
      · refine hf3 kk ?_
        rw [hQsplit]
        exact List.mem_append.mpr (Or.inr (by simp [h2]))
  have hheadEq : headKey newCs = frHeadKey F := by
    rw [hnewCs, headKey_eq_mapHead, frHeadKey, hpre]
    cases pre' with
    | nil => rfl
    | cons p0 ps => rfl
  have hlsgood' : GoodT L I (chLo lo' pre' kl) (some lst.1) (ATree.aleaf lsid lits') := by
    refine ⟨?_, ?_, ?_⟩
    · have := hlsparts.1
      rw [hlit] at this
      simp at this
      omega
    · have h := hlsparts.2.1
      rw [hlit] at h
      rw [List.map_append] at h
      exact (List.chain'_append.mp h).1
    · intro p hp
      have hpmem : p ∈ litems := by rw [hlit]; exact List.mem_append.mpr (Or.inl hp)
      refine ⟨(hlsparts.2.2 p hpmem).1, ?_⟩
      show p.1 < lst.1
      exact hlits'_lt_lst p hp
  have hhgood' : GoodT L I (some lst.1) (chHi hi' F.post)
      (ATree.aleaf pid ((lst.1, lst.2) :: items)) := by
    refine ⟨?_, ?_, ?_⟩
    · simp
      omega
    · rw [List.map_cons, List.chain'_cons']
      refine ⟨?_, hgparts.2.1⟩
      intro y hy
      obtain ⟨py, hpy, hpy2⟩ := Option.map_eq_some'.mp (by rw [← List.head?_map]; exact hy)
      have := hitems_gt py (List.mem_of_mem_head? hpy)
      omega
    · intro p hp
      rcases List.mem_cons.mp hp with h | h
      · rw [h]
        exact ⟨le_refl _, hshi_lst⟩
      · refine ⟨?_, (hgparts.2.2 p h).2⟩
        show lst.1 ≤ p.1
        have := hitems_gt p h
        omega
  have hgoodA : GoodT L I lo' hi' (ATree.anode F.pid newCs) := by
    rw [goodT_node_iff]
    have hlennew : newCs.length = F.pre.length + 1 + F.post.length := by
      rw [hnewCs, hpre]
      simp
      omega
    refine ⟨by rw [hlennew]; omega, by rw [hlennew]; omega,
      List.chain'_iff_pairwise.mpr hnewpw, hnewbounds, ?_, ?_⟩
    · intro l hl
      rw [hheadEq]
      exact hf4 l hl
    · rw [hnewCs]
      refine goodSeq_assemble L I pre' kl (ATree.aleaf lsid lits')
        ((lst.1, ATree.aleaf pid ((lst.1, lst.2) :: items)) :: F.post) lo' hi' hdecompL.1 ?_ ?_
      · exact hlsgood'
      · cases hpost : F.post with
        | nil =>
          show GoodT L I (some lst.1) hi' (ATree.aleaf pid ((lst.1, lst.2) :: items))
          rw [hpost] at hhgood'
          exact hhgood'
        | cons d post' =>
          have hf6' : GoodSeq L I (some d.1) hi' (d :: post') := by
            have h := hf6
            rw [hpost] at h
            exact h
          refine ⟨?_, hf6'⟩
          rw [hpost] at hhgood'
          exact hhgood'
  -- pids of the rebuilt frame
  have hpermN : (spinePids C' ++ (F.pid :: pidsC newCs)).Perm
      (F.pid :: (pidsC F.pre ++ (pidsC F.post ++ (spinePids C' ++ [pid])))) := by
    rw [hpidsnew, hpidspre, List.perm_iff_count]
    intro x
    simp only [List.count_append, List.count_cons]
    ring
  refine ⟨t', newCs, lo', hi', hbl, ⟨hL', hI', ?_, hspC'2, hdecA, hsgC', hgoodA, ?_, ?_⟩, ?_, hlen'⟩
  · rw [show t'.root = t.root from by rw [ht']; rfl, hroot]
    rfl
  · rw [show (ATree.anode F.pid newCs).pids = F.pid :: pidsC newCs from rfl]
    exact hpermN.nodup_iff.mpr hndB
  · intro p hp
    rw [show (ATree.anode F.pid newCs).pids = F.pid :: pidsC newCs from rfl] at hp
    rw [hlen']
    exact hbndB p (hpermN.mem_iff.mp hp)
  · rw [hnewCs, toListC_append, hpre, toListC_append, toListC_append]
    rw [show toListC ((kl, ATree.aleaf lsid lits') ::
        (lst.1, ATree.aleaf pid ((lst.1, lst.2) :: items)) :: F.post) =
      lits' ++ (((lst.1, lst.2) :: items) ++ toListC F.post) from rfl]
    rw [show toListC [(kl, ATree.aleaf lsid litems)] = litems ++ [] from rfl]
    rw [show toListC ((F.hk, ATree.aleaf pid items) :: F.post) =
      items ++ toListC F.post from rfl]
    rw [hlit]
    simp

set_option maxHeartbeats 1600000 in
/-- BorrowFromSibling, right leaf sibling: the sibling's first entry moves
to the back of the under-filled leaf, the sibling's separator in the parent
becomes its new first key, and the frame rebuilds into a well-formed hole
at the parent. -/
theorem brl_ok (L I : Nat) (hL2 : 2 ≤ L) (hI : 3 ≤ I)
    (t : Tree) (F : Fr) (C' : List Fr) (pid : Nat) (items : List (Nat × Nat))
    (lo hi : Option Nat)
    (hinv : HoleInv L I t (F :: C') (.aleaf pid items) lo hi)
    (hund : items.length < minSizeOf L)
    (kr rsid : Nat) (ritems : List (Nat × Nat)) (post'' : List (Nat × ATree))
    (hpost : F.post = (kr, .aleaf rsid ritems) :: post'')
    (hsz : minSizeOf L < ritems.length) :
    ∃ t' newCs lo' hi',
      borrowRight t pid F.pid rsid = some t' ∧
      HoleInv L I t' C' (.anode F.pid newCs) lo' hi' ∧
      toListC newCs = toListC (F.pre ++ (F.hk, .aleaf pid items) :: F.post) ∧
      t'.pages.length = t.pages.length := by
  obtain ⟨hL, hI2, hroot, hsp, hdec, hsg, hg, hnd, hbnd⟩ := hinv
  obtain ⟨hxF, hsidepre, hsidepost, hspC'⟩ := hsp
  obtain ⟨lo', hi', hsgC', hfrok, hlo, hhi⟩ := hsg
  obtain ⟨hf1, hf2, hf3, hf4, hf5, hf6⟩ := hfrok
  rw [hI2] at hxF
  rw [show (ATree.aleaf pid items).rootPid = pid from rfl] at hxF hroot
  obtain ⟨nx, hxp⟩ := hdec
  rw [hL] at hxp
  have hrsdec : DecT t (some F.pid) (ATree.aleaf rsid ritems) :=
    hsidepost (kr, ATree.aleaf rsid ritems) (by rw [hpost]; simp)
  obtain ⟨rnx, hxr⟩ := hrsdec
  rw [hL] at hxr
  have hmsz : minSizeOf L = (L + 1) / 2 := rfl
  have hritlen : 2 ≤ ritems.length := by omega
  obtain ⟨r0, rt0, hr0⟩ := List.exists_cons_of_ne_nil
    (show ritems ≠ [] from by intro h; rw [h] at hritlen; simp at hritlen)
  obtain ⟨r1, rrest2, hr1⟩ := List.exists_cons_of_ne_nil
    (show rt0 ≠ [] from by
      intro h
      rw [hr0, h] at hritlen
      simp at hritlen)
  have hrit : ritems = r0 :: r1 :: rrest2 := by rw [hr0, hr1]
  have hie : hi = some kr := by rw [hhi, hpost]; rfl
  rw [hie] at hg
  have hgparts : items.length ≤ L ∧ List.Chain' (· < ·) (items.map Prod.fst) ∧
      (∀ p ∈ items, okLo lo p.1 ∧ okHi (some kr) p.1) := hg
  have hf6' : GoodSeq L I (some kr) hi' ((kr, ATree.aleaf rsid ritems) :: post'') := by
    have h := hf6
    rw [hpost] at h
    exact h
  have hdecompR := goodSeq_decomp L I [] (kr, ATree.aleaf rsid ritems) post'' (some kr) hi'
    (by rw [List.nil_append]; exact hf6')
  have hrparts : ritems.length ≤ L ∧ List.Chain' (· < ·) (ritems.map Prod.fst) ∧
      (∀ p ∈ ritems, okLo (some kr) p.1 ∧ okHi (chHi hi' post'') p.1) := hdecompR.2.1
  have hkr_le_r0 : kr ≤ r0.1 := (hrparts.2.2 r0 (by rw [hrit]; simp)).1
  have hrpw : List.Pairwise (· < ·) (r0.1 :: r1.1 :: (rrest2.map Prod.fst)) := by
    have h := List.chain'_iff_pairwise.mp hrparts.2.1
    rw [hrit] at h
    simpa using h
  have hr0_lt_r1 : r0.1 < r1.1 := (List.pairwise_cons.mp hrpw).1 r1.1 (by simp)
  have hr1_lt_rest : ∀ q ∈ rrest2.map Prod.fst, r1.1 < q := by
    intro q hq
    exact (List.pairwise_cons.mp (List.pairwise_cons.mp hrpw).2).1 q hq
  have hitems_lt_kr : ∀ p ∈ items, p.1 < kr := fun p hp => (hgparts.2.2 p hp).2
  -- the parent's key line
  have hQsplit : frTailKeys F =
      ((F.pre.map Prod.fst ++ [F.hk]).tail) ++ kr :: (post''.map Prod.fst) := by
    rw [frTailKeys, hpost,
      show F.pre.map Prod.fst ++
          F.hk :: ((kr, ATree.aleaf rsid ritems) :: post'').map Prod.fst =
        (F.pre.map Prod.fst ++ [F.hk]) ++ kr :: post''.map Prod.fst from by simp]
    exact tail_append_of_ne_nil _ _ (by simp)
  have hkr_mem : kr ∈ frTailKeys F := by
    rw [hQsplit]
    simp
  have hkr_bounds := hf3 kr hkr_mem
  have hfpw2 : List.Pairwise (· < ·)
      (((F.pre.map Prod.fst ++ [F.hk]).tail) ++ kr :: (post''.map Prod.fst)) := by
    rw [← hQsplit]
    exact List.chain'_iff_pairwise.mp hf2
  have hQle : ∀ q ∈ (F.pre.map Prod.fst ++ [F.hk]).tail, q ≤ F.hk :=
    tail_concat_le (F.pre.map Prod.fst) F.hk (List.pairwise_append.mp hfpw2).1
  have hhk_mem2 : F.pre ≠ [] → F.hk ∈ (F.pre.map Prod.fst ++ [F.hk]).tail := by
    intro hne
    cases hpc : F.pre with
    | nil => exact absurd hpc hne
    | cons p ps => simp
  have hhk_lt_kr : F.pre ≠ [] → F.hk < kr := by
    intro hne
    exact (List.pairwise_append.mp hfpw2).2.2 F.hk (hhk_mem2 hne) kr (by simp)
  have hkr_lt_post : ∀ d ∈ (post''.map Prod.fst), kr < d := by
    intro d hd
    exact (List.pairwise_cons.mp (List.pairwise_append.mp hfpw2).2.1).1 d hd
  have hlo_lt_kr : ∀ l, lo = some l → l < kr := by
    intro l hl
    rw [hlo] at hl
    cases hpc : F.pre with
    | nil =>
      rw [hpc] at hl
      have hl2 : lo' = some l := hl
      have h := hkr_bounds.1
      rw [hl2] at h
      exact h
    | cons p ps =>
      rw [hpc] at hl
      have hl2 : F.hk = l := by
        have h3 : some F.hk = some l := hl
        injection h3
      rw [← hl2]
      exact hhk_lt_kr (by rw [hpc]; simp)
  -- pid bookkeeping
  obtain ⟨hndB, hbndB⟩ := hole_pids_facts t F C' (ATree.aleaf pid items) hnd hbnd
  rw [show (ATree.aleaf pid items).pids = [pid] from rfl] at hndB hbndB
  obtain ⟨hFp1, hFp2, hFps, hFph, hndP1, hndP2, hndS, hndH, hdisj1, hdisj2, hdisj3⟩ :=
    hole_pids_parts F.pid (pidsC F.pre) (pidsC F.post) (spinePids C') [pid] hndB
  have hpidspost : pidsC F.post = [rsid] ++ pidsC post'' := by
    rw [hpost]
    rfl
  have hrsid_post : rsid ∈ pidsC F.post := by
    rw [hpidspost]
    simp
  have hFpid_lt : F.pid < t.pages.length := hbndB F.pid (by simp)
  have hpid_lt : pid < t.pages.length := hbndB pid (by simp)
  have hrsid_lt : rsid < t.pages.length := hbndB rsid (by simp [hrsid_post])
  have hpid_ne_F : pid ≠ F.pid := by
    intro he
    exact hFph (by rw [← he]; simp)
  have hrsid_ne_F : rsid ≠ F.pid := by
    intro he
    exact hFp2 (he ▸ hrsid_post)
  have hpid_ne_rs : pid ≠ rsid := by
    intro he
    exact (hdisj2 rsid hrsid_post).2 (by rw [← he]; simp)
  have hE1ne : ∀ q ∈ edgesOf F.pre ++ [(F.hk, pid)], q.2 ≠ rsid := by
    intro q hq he
    rcases List.mem_append.mp hq with hm | hm
    · obtain ⟨c, hc, hc2⟩ := List.mem_map.mp hm
      have hmem : c.2.rootPid ∈ pidsC F.pre :=
        (mem_pidsC F.pre c.2.rootPid).mpr ⟨c, hc, rootPid_mem_pids c.2⟩
      refine (hdisj1 c.2.rootPid hmem).1 ?_
      rw [show c.2.rootPid = q.2 from by rw [← hc2], he]
      exact hrsid_post
    · have hqe : q = (F.hk, pid) := by simpa using hm
      rw [hqe] at he
      exact hpid_ne_rs he
  -- computing borrowRight
  have hrem : leafRemoveKey r0.1 ritems = (true, r1 :: rrest2) := by
    rw [hrit]
    simp [leafRemoveKey]
  have hedgespost : edgesOf F.post = (kr, rsid) :: edgesOf post'' := by
    rw [hpost]
    rfl
  have hpitems : edgesOf F.pre ++ (F.hk, pid) :: edgesOf F.post =
      (edgesOf F.pre ++ [(F.hk, pid)]) ++ (kr, rsid) :: edgesOf post'' := by
    rw [hedgespost]
    simp
  have hfind : interFindValue (edgesOf F.pre ++ (F.hk, pid) :: edgesOf F.post) rsid =
      some (edgesOf F.pre ++ [(F.hk, pid)]).length := by
    rw [hpitems]
    exact interFindValue_at _ _ kr rsid hE1ne
  have hsk : setKeyAt (edgesOf F.pre ++ (F.hk, pid) :: edgesOf F.post)
      ((edgesOf F.pre ++ [(F.hk, pid)]).length) r1.1 =
      edgesOf F.pre ++ (F.hk, pid) :: (r1.1, rsid) :: edgesOf post'' := by
    unfold setKeyAt
    rw [hpitems, getD_at_append]
    rw [show (((kr, rsid) :: edgesOf post'').getD 0 (0, 0)).2 = rsid from rfl]
    rw [set_at_append (edgesOf F.pre ++ [(F.hk, pid)]) (edgesOf post'') (kr, rsid) (r1.1, rsid)]
    simp
  set newCs : List (Nat × ATree) := F.pre ++ (F.hk, ATree.aleaf pid (items ++ [r0])) ::
    (r1.1, ATree.aleaf rsid (r1 :: rrest2)) :: post'' with hnewCs
  set t' : Tree := setNode (setNode (setNode t pid
      (BNode.leaf (items ++ [r0]) nx (parentPidOf (F :: C') none) L))
      rsid (BNode.leaf (r1 :: rrest2) rnx (some F.pid) L))
      F.pid (BNode.internal (edgesOf F.pre ++ (F.hk, pid) :: (r1.1, rsid) :: edgesOf post'')
        (parentPidOf C' none) I) with ht'
  have hbl : borrowRight t pid F.pid rsid = some t' := by
    simp only [borrowRight, hxp, hxr, hxF]
    rw [if_pos hsz]
    rw [show ritems.getD 0 (0, 0) = r0 from by rw [hrit]; rfl, hrem,
      show ((true : Bool), r1 :: rrest2).2 = r1 :: rrest2 from rfl,
      show (r1 :: rrest2).getD 0 (0, 0) = r1 from rfl,
      hfind, Option.getD_some, hsk]
  -- the new store
  have hL' : t'.leafMaxSize = L := by rw [ht']; exact hL
  have hI' : t'.internalMaxSize = I := by rw [ht']; exact hI2
  have hlen' : t'.pages.length = t.pages.length := by
    rw [ht']
    simp [setNode]
  have hframe' : ∀ p, p ≠ pid → p ≠ rsid → p ≠ F.pid → t'.getNode p = t.getNode p := by
    intro p h1 h2 h3
    rw [ht', getNode_setNode_other _ _ _ _ h3, getNode_setNode_other _ _ _ _ h2,
      getNode_setNode_other _ _ _ _ h1]
  have hxp' : t'.getNode pid =
      some (BNode.leaf (items ++ [r0]) nx (parentPidOf (F :: C') none) L) := by
    rw [ht', getNode_setNode_other _ _ _ _ hpid_ne_F, getNode_setNode_other _ _ _ _ hpid_ne_rs]
    exact getNode_setNode_self t pid _ hpid_lt
  have hxr' : t'.getNode rsid = some (BNode.leaf (r1 :: rrest2) rnx (some F.pid) L) := by
    rw [ht', getNode_setNode_other _ _ _ _ hrsid_ne_F]
    refine getNode_setNode_self _ rsid _ ?_
    simp [setNode]
    omega
  have hxF' : t'.getNode F.pid = some (BNode.internal
      (edgesOf F.pre ++ (F.hk, pid) :: (r1.1, rsid) :: edgesOf post'')
      (parentPidOf C' none) I) := by
    rw [ht']
    refine getNode_setNode_self _ F.pid _ ?_
    simp [setNode]
    omega
  have hedges' : edgesOf newCs =
      edgesOf F.pre ++ (F.hk, pid) :: (r1.1, rsid) :: edgesOf post'' := by
    rw [hnewCs, edgesOf_append]
    rfl
  have hpidsnew : pidsC newCs = pidsC F.pre ++ ([pid] ++ ([rsid] ++ pidsC post'')) := by
    rw [hnewCs, pidsC_append]
    rfl
  have hndpost : ([rsid] ++ pidsC post'').Nodup := hpidspost ▸ hndP2
  -- decode of the rebuilt frame
  have hdecA : DecT t' (parentPidOf C' none) (ATree.anode F.pid newCs) := by
    refine ⟨?_, ?_⟩
    · rw [hI', hedges']
      exact hxF'
    · rw [DecL_iff_mem]
      intro c hc
      rw [hnewCs] at hc
      rcases List.mem_append.mp hc with hm | hm
      · refine DecT_frame t t' (by rw [hL', hL]) (by rw [hI', hI2]) c.2 (some F.pid) ?_
          (hsidepre c hm)
        intro p hp
        have hmemP : p ∈ pidsC F.pre := (mem_pidsC F.pre p).mpr ⟨c, hm, hp⟩
        refine hframe' p ?_ ?_ ?_
        · intro he
          exact (hdisj1 p hmemP).2.2 (by simp [he])
        · intro he
          exact (hdisj1 p hmemP).1 (he ▸ hrsid_post)
        · intro he
          exact hFp1 (he ▸ hmemP)
      · rcases List.mem_cons.mp hm with hm2 | hm2
        · rw [hm2]
          refine ⟨nx, ?_⟩
          rw [show t'.leafMaxSize = L from hL']
          exact hxp'
        · rcases List.mem_cons.mp hm2 with hm3 | hm3
          · rw [hm3]
            refine ⟨rnx, ?_⟩
            rw [show t'.leafMaxSize = L from hL']
            exact hxr'
          · refine DecT_frame t t' (by rw [hL', hL]) (by rw [hI', hI2]) c.2 (some F.pid) ?_
              (hsidepost c (by rw [hpost]; simp [hm3]))
            intro p hp
            have hmemP' : p ∈ pidsC post'' := (mem_pidsC post'' p).mpr ⟨c, hm3, hp⟩
            have hmemP : p ∈ pidsC F.post := by
              rw [hpidspost]
              exact List.mem_append.mpr (Or.inr hmemP')
            refine hframe' p ?_ ?_ ?_
            · intro he
              exact (hdisj2 p hmemP).2 (by simp [he])
            · intro he
              exact (List.nodup_append.mp hndpost).2.2 (show rsid ∈ [rsid] from by simp)
                (he ▸ hmemP')
            · intro he
              exact hFp2 (he ▸ hmemP)
  have hspC'2 : spineDec t' none C' F.pid := by
    refine spineDec_frame t t' none (by rw [hL', hL]) (by rw [hI', hI2]) C' F.pid ?_ hspC'
    intro p hp
    refine hframe' p ?_ ?_ ?_
    · intro he
      exact hdisj3 p hp (by simp [he])
    · intro he
      exact (hdisj2 rsid hrsid_post).1 (he ▸ hp)
    · intro he
      exact hFps (he ▸ hp)
  -- the rebuilt frame is search-good
  have hnewtail : tailKeys newCs =
      ((F.pre.map Prod.fst ++ [F.hk]).tail) ++ r1.1 :: (post''.map Prod.fst) := by
    rw [hnewCs, tailKeys_frame2,
      show F.pre.map Prod.fst ++ F.hk :: r1.1 :: (post''.map Prod.fst) =
        (F.pre.map Prod.fst ++ [F.hk]) ++ r1.1 :: (post''.map Prod.fst) from by simp]
    exact tail_append_of_ne_nil _ _ (by simp)
  have hnewpw : List.Pairwise (· < ·) (tailKeys newCs) := by
    rw [hnewtail]
    refine pairwise_sub_mid _ _ kr r1.1 hfpw2 ?_ ?_
    · intro q hq
      have h1 := hQle q hq
      have h2 : F.pre ≠ [] := by
        intro hp0
        rw [hp0] at hq
        simp at hq
      have h3 := hhk_lt_kr h2
      omega
    · intro q hq
      cases hp2 : post'' with
      | nil =>
        rw [hp2] at hq
        simp at hq
      | cons d rest =>
        rw [hp2] at hq
        rw [List.map_cons] at hq
        rcases List.mem_cons.mp hq with h | h
        · have h4 := (hrparts.2.2 r1 (by rw [hrit]; simp)).2
          rw [hp2] at h4
          have h5 : r1.1 < d.1 := h4
          omega
        · have h4 := (hrparts.2.2 r1 (by rw [hrit]; simp)).2
          rw [hp2] at h4
          have h5 : r1.1 < d.1 := h4
          have h6 : d.1 < q := by
            have h7 := (List.pairwise_cons.mp (List.pairwise_append.mp hfpw2).2.1).2
            rw [hp2, List.map_cons] at h7
            exact (List.pairwise_cons.mp h7).1 q h
          omega
  have hnewbounds : ∀ kk ∈ tailKeys newCs, strictLo lo' kk ∧ okHi hi' kk := by
    rw [hnewtail]
    intro kk hkk
    rcases List.mem_append.mp hkk with h | h
    · refine hf3 kk ?_
      rw [hQsplit]
      exact List.mem_append.mpr (Or.inl h)
    · rcases List.mem_cons.mp h with h2 | h2
      · rw [h2]
        refine ⟨strictLo_trans lo' kr r1.1 hkr_bounds.1 (by omega), ?_⟩
        cases hp2 : post'' with
        | nil =>
          have h4 := (hrparts.2.2 r1 (by rw [hrit]; simp)).2
          rw [hp2] at h4
          exact h4
        | cons d rest =>
          have h4 := (hrparts.2.2 r1 (by rw [hrit]; simp)).2
          rw [hp2] at h4
          have h5 : r1.1 < d.1 := h4
          have h6 := hf3 d.1 (by
            rw [hQsplit, hp2]
            exact List.mem_append.mpr (Or.inr (by simp)))
          exact okHi_weaken hi' d.1 r1.1 h6.2 h5
      · refine hf3 kk ?_
        rw [hQsplit]
        exact List.mem_append.mpr (Or.inr (by simp [h2]))
  have hheadEq : headKey newCs = frHeadKey F := by
    rw [hnewCs, headKey_eq_mapHead, frHeadKey, hpost]
    cases F.pre with
    | nil => rfl
    | cons p0 ps => rfl
  have hhgood' : GoodT L I lo (some r1.1) (ATree.aleaf pid (items ++ [r0])) := by
    refine ⟨?_, ?_, ?_⟩
    · simp
      omega
    · rw [List.map_append]
      refine List.chain'_iff_pairwise.mpr (List.pairwise_append.mpr
        ⟨List.chain'_iff_pairwise.mp hgparts.2.1, by simp, ?_⟩)
      intro x hx y hy
      have hyr : y = r0.1 := by simpa using hy
      obtain ⟨p, hp, hpe⟩ := List.mem_map.mp hx
      have h1 := hitems_lt_kr p hp
      rw [hyr, ← hpe]
      omega
    · intro p hp
      rcases List.mem_append.mp hp with h | h
      · refine ⟨(hgparts.2.2 p h).1, ?_⟩
        show p.1 < r1.1
        have := hitems_lt_kr p h
        omega
      · have hpr : p = r0 := by simpa using h
        rw [hpr]
        refine ⟨?_, ?_⟩
        · cases hlo2 : lo with
          | none => trivial
          | some l =>
            show l ≤ r0.1
            have := hlo_lt_kr l hlo2
            omega
        · show r0.1 < r1.1
          omega
  have hrgood' : GoodT L I (some r1.1) (chHi hi' post'')
      (ATree.aleaf rsid (r1 :: rrest2)) := by
    refine ⟨?_, ?_, ?_⟩
    · have h1 := hrparts.1
      rw [hrit] at h1
      simp at h1 ⊢
      omega
    · refine List.chain'_iff_pairwise.mpr ?_
      simp only [List.map_cons]
      exact hrpw.of_cons
    · intro p hp
      have hpmem : p ∈ ritems := by rw [hrit]; exact List.mem_cons.mpr (Or.inr hp)
      refine ⟨?_, (hrparts.2.2 p hpmem).2⟩
      rcases List.mem_cons.mp hp with h | h
      · rw [h]
        exact le_refl r1.1
      · show r1.1 ≤ p.1
        have := hr1_lt_rest p.1 (List.mem_map_of_mem Prod.fst h)
        omega
  have hgoodA : GoodT L I lo' hi' (ATree.anode F.pid newCs) := by
    rw [goodT_node_iff]
    have hlennew : newCs.length = F.pre.length + 1 + F.post.length := by
      rw [hnewCs, hpost]
      simp
      omega
    refine ⟨by rw [hlennew]; omega, by rw [hlennew]; omega,
      List.chain'_iff_pairwise.mpr hnewpw, hnewbounds, ?_, ?_⟩
    · intro l hl
      rw [hheadEq]
      exact hf4 l hl
    · rw [hnewCs]
      refine goodSeq_assemble L I F.pre F.hk (ATree.aleaf pid (items ++ [r0]))
        ((r1.1, ATree.aleaf rsid (r1 :: rrest2)) :: post'') lo' hi' hf5 ?_ ?_
      · have h2 : GoodT L I (chLo lo' F.pre F.hk) (some r1.1)
            (ATree.aleaf pid (items ++ [r0])) := by
          rw [← hlo]
          exact hhgood'
        exact h2
      · cases hp2 : post'' with
        | nil =>
          show GoodT L I (some r1.1) hi' (ATree.aleaf rsid (r1 :: rrest2))
          rw [hp2] at hrgood'
          exact hrgood'
        | cons d rest =>
          refine ⟨?_, ?_⟩
          · rw [hp2] at hrgood'
            exact hrgood'
          · have h3 := hdecompR.2.2
            rw [hp2] at h3
            exact h3
  -- pids of the rebuilt frame
  have hpermN : (spinePids C' ++ (F.pid :: pidsC newCs)).Perm
      (F.pid :: (pidsC F.pre ++ (pidsC F.post ++ (spinePids C' ++ [pid])))) := by
    rw [hpidsnew, hpidspost, List.perm_iff_count]
    intro x
    simp only [List.count_append, List.count_cons]
    ring
  refine ⟨t', newCs, lo', hi', hbl, ⟨hL', hI', ?_, hspC'2, hdecA, hsgC', hgoodA, ?_, ?_⟩, ?_, hlen'⟩
  · rw [show t'.root = t.root from by rw [ht']; rfl, hroot]
    rfl
  · rw [show (ATree.anode F.pid newCs).pids = F.pid :: pidsC newCs from rfl]
    exact hpermN.nodup_iff.mpr hndB
  · intro p hp
    rw [show (ATree.anode F.pid newCs).pids = F.pid :: pidsC newCs from rfl] at hp
    rw [hlen']
    exact hbndB p (hpermN.mem_iff.mp hp)
  · rw [hnewCs, toListC_append, toListC_append, hpost]
    rw [show toListC ((F.hk, ATree.aleaf pid (items ++ [r0])) ::
        (r1.1, ATree.aleaf rsid (r1 :: rrest2)) :: post'') =
      (items ++ [r0]) ++ ((r1 :: rrest2) ++ toListC post'') from rfl]
    rw [show toListC ((F.hk, ATree.aleaf pid items) ::
        (kr, ATree.aleaf rsid ritems) :: post'') =
      items ++ (ritems ++ toListC post'') from rfl]
    rw [hrit]
    simp

set_option maxHeartbeats 1600000 in
/-- BorrowFromSibling, left internal sibling: the sibling's last child moves
(reparented) to the front of the under-filled internal node, the node's
garbage key 0 is overwritten with the old separator, and the separator
becomes the moved child's key. -/
theorem bli_ok (L I : Nat) (hL2 : 2 ≤ L) (hI : 3 ≤ I)
    (t : Tree) (F : Fr) (C' : List Fr) (pid : Nat) (hcs : List (Nat × ATree))
    (lo hi : Option Nat)
    (hinv : HoleInv L I t (F :: C') (.anode pid hcs) lo hi)
    (hund : hcs.length < minSizeOf I)
    (pre' : List (Nat × ATree)) (kl lsid : Nat) (lcs : List (Nat × ATree))
    (hpre : F.pre = pre' ++ [(kl, .anode lsid lcs)])
    (hsz : minSizeOf I < lcs.length) :
    ∃ t' newCs lo' hi',
      borrowLeft t pid F.pid lsid = some t' ∧
      HoleInv L I t' C' (.anode F.pid newCs) lo' hi' ∧
      toListC newCs = toListC (F.pre ++ (F.hk, .anode pid hcs) :: F.post) ∧
      t'.pages.length = t.pages.length := by
  obtain ⟨hL, hI2, hroot, hsp, hdec, hsg, hg, hnd, hbnd⟩ := hinv
  obtain ⟨hxF, hsidepre, hsidepost, hspC'⟩ := hsp
  obtain ⟨lo', hi', hsgC', hfrok, hlo, hhi⟩ := hsg
  obtain ⟨hf1, hf2, hf3, hf4, hf5, hf6⟩ := hfrok
  rw [hI2] at hxF
  rw [show (ATree.anode pid hcs).rootPid = pid from rfl] at hxF hroot
  obtain ⟨hxp, hDecHcs⟩ := hdec
  rw [hI2] at hxp
  have hlsdec : DecT t (some F.pid) (ATree.anode lsid lcs) :=
    hsidepre (kl, ATree.anode lsid lcs) (by rw [hpre]; simp)
  obtain ⟨hxl, hDecLcs⟩ := hlsdec
  rw [hI2] at hxl
  have hmszI : minSizeOf I = (I + 1) / 2 := rfl
  have hlcslen : 2 ≤ lcs.length := by omega
  obtain ⟨lcs', lc, hlcs0⟩ := (List.eq_nil_or_concat lcs).resolve_left
    (by intro h; rw [h] at hlcslen; simp at hlcslen)
  have hlcs : lcs = lcs' ++ [lc] := by rw [hlcs0]; simp
  have hlcs'ne : lcs' ≠ [] := by
    intro h
    rw [hlcs, h] at hlcslen
    simp at hlcslen
  have hloe : lo = some F.hk := by
    rw [hlo, hpre]
    cases pre' with
    | nil => rfl
    | cons p ps => rfl
  rw [hloe, hhi] at hg
  rw [goodT_node_iff] at hg
  obtain ⟨hg1, hg2, hg3, hg4, hg5, hg6⟩ := hg
  obtain ⟨hc0, hcs'', hhcs⟩ := List.exists_cons_of_ne_nil
    (show hcs ≠ [] from by intro h; rw [h] at hg1; simp at hg1)
  have hdecompL := goodSeq_decomp L I pre' (kl, ATree.anode lsid lcs) [] lo' (some F.hk)
    (by rw [← hpre]; exact hf5)
  have hlsgood : GoodT L I (chLo lo' pre' kl) (some F.hk) (ATree.anode lsid lcs) :=
    hdecompL.2.1
  rw [goodT_node_iff] at hlsgood
  obtain ⟨hls1, hls2, hls3, hls4, hls5, hls6⟩ := hlsgood
  have hmaplcs : lcs.map Prod.fst = lcs'.map Prod.fst ++ [lc.1] := by rw [hlcs]; simp
  have htailK : tailKeys lcs = (lcs'.map Prod.fst).tail ++ [lc.1] := by
    rw [tailKeys, hmaplcs]
    refine tail_append_of_ne_nil _ _ ?_
    cases hlcp : lcs' with
    | nil => exact absurd hlcp hlcs'ne
    | cons a b => simp
  have hlc1_mem : lc.1 ∈ tailKeys lcs := by rw [htailK]; simp
  have hlc1_bounds := hls4 lc.1 hlc1_mem
  have hlc1_lt_hk : lc.1 < F.hk := hlc1_bounds.2
  have hkl_lt_lc1 : pre' ≠ [] → kl < lc.1 := by
    intro hne
    have h := hlc1_bounds.1
    cases hpc : pre' with
    | nil => exact absurd hpc hne
    | cons p ps =>
      rw [hpc] at h
      exact h
  -- the parent's key line
  have hQsplit : frTailKeys F =
      ((pre'.map Prod.fst ++ [kl]).tail) ++ F.hk :: (F.post.map Prod.fst) := by
    rw [frTailKeys, hpre,
      show (pre' ++ [(kl, ATree.anode lsid lcs)]).map Prod.fst =
        pre'.map Prod.fst ++ [kl] from by simp]
    exact tail_append_of_ne_nil _ _ (by simp)
  have hhk_mem : F.hk ∈ frTailKeys F := by
    rw [hQsplit]
    simp
  have hhk_bounds := hf3 F.hk hhk_mem
  have hfpw : List.Pairwise (· < ·)
      (((pre'.map Prod.fst ++ [kl]).tail) ++ F.hk :: (F.post.map Prod.fst)) := by
    rw [← hQsplit]
    exact List.chain'_iff_pairwise.mp hf2
  have hQle : ∀ q ∈ (pre'.map Prod.fst ++ [kl]).tail, q ≤ kl :=
    tail_concat_le (pre'.map Prod.fst) kl (List.pairwise_append.mp hfpw).1
  have hhk_lt_post : ∀ d ∈ (F.post.map Prod.fst), F.hk < d := by
    intro d hd
    exact (List.pairwise_cons.mp (List.pairwise_append.mp hfpw).2.1).1 d hd
  have hkl_mem : pre' ≠ [] → kl ∈ frTailKeys F := by
    intro hne
    rw [hQsplit]
    cases hpc : pre' with
    | nil => exact absurd hpc hne
    | cons p ps => simp
  have hslo_lc1 : strictLo lo' lc.1 := by
    cases hlo' : lo' with
    | none => trivial
    | some l =>
      show l < lc.1
      cases hpc : pre' with
      | nil =>
        have h := hlc1_bounds.1
        rw [hpc, hlo'] at h
        have h2 : l < lc.1 := h
        omega
      | cons p ps =>
        have hkl := hf3 kl (hkl_mem (by rw [hpc]; simp))
        rw [hlo'] at hkl
        have h1 : l < kl := hkl.1
        have h2 := hkl_lt_lc1 (by rw [hpc]; simp)
        omega
  have hchHi_hk : okHi (chHi hi' F.post) F.hk := by
    cases hpost : F.post with
    | nil => exact hhk_bounds.2
    | cons d post' =>
      show F.hk < d.1
      refine hhk_lt_post d.1 ?_
      rw [hpost]
      simp
  have hshi_lc1 : okHi (chHi hi' F.post) lc.1 :=
    okHi_weaken (chHi hi' F.post) F.hk lc.1 hchHi_hk hlc1_lt_hk
  -- pid bookkeeping
  obtain ⟨hndB, hbndB⟩ := hole_pids_facts t F C' (ATree.anode pid hcs) hnd hbnd
  rw [show (ATree.anode pid hcs).pids = pid :: pidsC hcs from rfl] at hndB hbndB
  obtain ⟨hFp1, hFp2, hFps, hFph, hndP1, hndP2, hndS, hndH, hdisj1, hdisj2, hdisj3⟩ :=
    hole_pids_parts F.pid (pidsC F.pre) (pidsC F.post) (spinePids C') (pid :: pidsC hcs) hndB
  have hpidspre : pidsC F.pre = pidsC pre' ++ (lsid :: pidsC lcs) := by
    rw [hpre, pidsC_append]
    simp [pidsC, ATree.pids]
  have hpidslcs : pidsC lcs = pidsC lcs' ++ lc.2.pids := by
    rw [hlcs, pidsC_append]
    simp [pidsC]
  have hpidshcs : pidsC hcs = hc0.2.pids ++ pidsC hcs'' := by rw [hhcs]; rfl
  set lcr := lc.2.rootPid with hlcr
  have hlsid_pre : lsid ∈ pidsC F.pre := by rw [hpidspre]; simp
  have hlcr_lcs : lcr ∈ pidsC lcs := by
    rw [hpidslcs]
    exact List.mem_append.mpr (Or.inr (rootPid_mem_pids lc.2))
  have hlcr_pre : lcr ∈ pidsC F.pre := by
    rw [hpidspre]
    exact List.mem_append.mpr (Or.inr (List.mem_cons.mpr (Or.inr hlcr_lcs)))
  have hndpre2 : (pidsC pre' ++ (lsid :: pidsC lcs)).Nodup := hpidspre ▸ hndP1
  have hndls : (lsid :: pidsC lcs).Nodup := (List.nodup_append.mp hndpre2).2.1
  have hndlcs : (pidsC lcs).Nodup := (List.nodup_cons.mp hndls).2
  have hndlcs2 : (pidsC lcs' ++ lc.2.pids).Nodup := hpidslcs ▸ hndlcs
  have hndlc2 : lc.2.pids.Nodup := (List.nodup_append.mp hndlcs2).2.1
  have hFpid_lt : F.pid < t.pages.length := hbndB F.pid (by simp)
  have hpid_lt : pid < t.pages.length := hbndB pid (by simp)
  have hlsid_lt : lsid < t.pages.length := hbndB lsid (by simp [hlsid_pre])
  have hlcr_lt : lcr < t.pages.length := hbndB lcr (by simp [hlcr_pre])
  have hpid_ne_F : pid ≠ F.pid := by
    intro he
    exact hFph (by rw [← he]; simp)
  have hlsid_ne_F : lsid ≠ F.pid := by
    intro he
    exact hFp1 (he ▸ hlsid_pre)
  have hlcr_ne_F : lcr ≠ F.pid := by
    intro he
    exact hFp1 (he ▸ hlcr_pre)
  have hpid_ne_ls : pid ≠ lsid := by
    intro he
    exact (hdisj1 lsid hlsid_pre).2.2 (by rw [← he]; simp)
  have hpid_ne_lcr : pid ≠ lcr := by
    intro he
    exact (hdisj1 lcr hlcr_pre).2.2 (by rw [← he]; simp)
  have hlsid_ne_lcr : lsid ≠ lcr := by
    intro he
    exact (List.nodup_cons.mp hndls).1 (he ▸ hlcr_lcs)
  -- membership-to-frame facts
  have hfromH : ∀ p ∈ pidsC hcs, p ≠ lcr ∧ p ≠ pid ∧ p ≠ lsid ∧ p ≠ F.pid := by
    intro p hp
    have hpH : p ∈ pid :: pidsC hcs := List.mem_cons.mpr (Or.inr hp)
    refine ⟨?_, ?_, ?_, ?_⟩
    · intro he
      exact (hdisj1 lcr hlcr_pre).2.2 (he ▸ hpH)
    · intro he
      exact (List.nodup_cons.mp hndH).1 (he ▸ hp)
    · intro he
      exact (hdisj1 lsid hlsid_pre).2.2 (he ▸ hpH)
    · intro he
      exact hFph (he ▸ hpH)
  have hfromPre' : ∀ p ∈ pidsC pre', p ≠ lcr ∧ p ≠ pid ∧ p ≠ lsid ∧ p ≠ F.pid := by
    intro p hp
    have hpP1 : p ∈ pidsC F.pre := by
      rw [hpidspre]
      exact List.mem_append.mpr (Or.inl hp)
    have hdisjp := (List.nodup_append.mp hndpre2).2.2
    refine ⟨?_, ?_, ?_, ?_⟩
    · intro he
      exact hdisjp hp (he ▸ List.mem_cons.mpr (Or.inr hlcr_lcs))
    · intro he
      exact (hdisj1 p hpP1).2.2 (by simp [he])
    · intro he
      exact hdisjp hp (by simp [he])
    · intro he
      exact hFp1 (he ▸ hpP1)
  have hfromLcs' : ∀ p ∈ pidsC lcs', p ≠ lcr ∧ p ≠ pid ∧ p ≠ lsid ∧ p ≠ F.pid := by
    intro p hp
    have hpL : p ∈ pidsC lcs := by
      rw [hpidslcs]
      exact List.mem_append.mpr (Or.inl hp)
    have hpP1 : p ∈ pidsC F.pre := by
      rw [hpidspre]
      exact List.mem_append.mpr (Or.inr (List.mem_cons.mpr (Or.inr hpL)))
    refine ⟨?_, ?_, ?_, ?_⟩
    · intro he
      exact (List.nodup_append.mp hndlcs2).2.2 hp (he ▸ rootPid_mem_pids lc.2)
    · intro he
      exact (hdisj1 p hpP1).2.2 (by simp [he])
    · intro he
      exact (List.nodup_cons.mp hndls).1 (he ▸ hpL)
    · intro he
      exact hFp1 (he ▸ hpP1)
  have hfromLc2 : ∀ p ∈ lc.2.pids, p ≠ pid ∧ p ≠ lsid ∧ p ≠ F.pid := by
    intro p hp
    have hpL : p ∈ pidsC lcs := by
      rw [hpidslcs]
      exact List.mem_append.mpr (Or.inr hp)
    have hpP1 : p ∈ pidsC F.pre := by
      rw [hpidspre]
      exact List.mem_append.mpr (Or.inr (List.mem_cons.mpr (Or.inr hpL)))
    refine ⟨?_, ?_, ?_⟩
    · intro he
      exact (hdisj1 p hpP1).2.2 (by simp [he])
    · intro he
      exact (List.nodup_cons.mp hndls).1 (he ▸ hpL)
    · intro he
      exact hFp1 (he ▸ hpP1)
  have hfromPost : ∀ p ∈ pidsC F.post, p ≠ lcr ∧ p ≠ pid ∧ p ≠ lsid ∧ p ≠ F.pid := by
    intro p hp
    refine ⟨?_, ?_, ?_, ?_⟩
    · intro he
      exact (hdisj1 lcr hlcr_pre).1 (he ▸ hp)
    · intro he
      exact (hdisj2 p hp).2 (by simp [he])
    · intro he
      exact (hdisj1 lsid hlsid_pre).1 (he ▸ hp)
    · intro he
      exact hFp2 (he ▸ hp)
  have hfromSpine : ∀ p ∈ spinePids C', p ≠ lcr ∧ p ≠ pid ∧ p ≠ lsid ∧ p ≠ F.pid := by
    intro p hp
    refine ⟨?_, ?_, ?_, ?_⟩
    · intro he
      exact (hdisj1 lcr hlcr_pre).2.1 (he ▸ hp)
    · intro he
      exact hdisj3 p hp (by simp [he])
    · intro he
      exact (hdisj1 lsid hlsid_pre).2.1 (he ▸ hp)
    · intro he
      exact hFps (he ▸ hp)
  have hE1ne : ∀ q ∈ edgesOf F.pre, q.2 ≠ pid := by
    intro q hq he
    obtain ⟨c, hc, hc2⟩ := List.mem_map.mp hq
    have hmem : c.2.rootPid ∈ pidsC F.pre :=
      (mem_pidsC F.pre c.2.rootPid).mpr ⟨c, hc, rootPid_mem_pids c.2⟩
    refine (hdisj1 c.2.rootPid hmem).2.2 ?_
    rw [show c.2.rootPid = q.2 from by rw [← hc2], he]
    simp
  -- computing borrowLeft
  have hedgeslcs : edgesOf lcs = edgesOf lcs' ++ [(lc.1, lcr)] := by
    rw [hlcs, edgesOf_append]
    rfl
  have hgetDl : (edgesOf lcs).getD ((edgesOf lcs).length - 1) (0, 0) = (lc.1, lcr) := by
    rw [hedgeslcs,
      show (edgesOf lcs' ++ [(lc.1, lcr)]).length - 1 = (edgesOf lcs').length from by simp,
      getD_at_append]
    rfl
  have hdropl : (edgesOf lcs).dropLast = edgesOf lcs' := by
    rw [hedgeslcs]
    exact List.dropLast_concat
  have hedgeshcs : edgesOf hcs = (hc0.1, hc0.2.rootPid) :: edgesOf hcs'' := by
    rw [hhcs]
    rfl
  have hfind : interFindValue (edgesOf F.pre ++ (F.hk, pid) :: edgesOf F.post) pid =
      some (edgesOf F.pre).length :=
    interFindValue_at (edgesOf F.pre) (edgesOf F.post) F.hk pid hE1ne
  have hgetDF : (edgesOf F.pre ++ (F.hk, pid) :: edgesOf F.post).getD
      (edgesOf F.pre).length (0, 0) = (F.hk, pid) := by
    rw [getD_at_append]
    rfl
  have hsetK0 : setKeyAt (edgesOf hcs) 0 F.hk = (F.hk, hc0.2.rootPid) :: edgesOf hcs'' := by
    rw [hedgeshcs]
    rfl
  have hsk : setKeyAt (edgesOf F.pre ++ (F.hk, pid) :: edgesOf F.post)
      (edgesOf F.pre).length lc.1 = edgesOf F.pre ++ (lc.1, pid) :: edgesOf F.post := by
    unfold setKeyAt
    rw [getD_at_append]
    rw [show (((F.hk, pid) :: edgesOf F.post).getD 0 (0, 0)).2 = pid from rfl]
    exact set_at_append (edgesOf F.pre) (edgesOf F.post) (F.hk, pid) (lc.1, pid)
  set newCs : List (Nat × ATree) := pre' ++ (kl, ATree.anode lsid lcs') ::
    (lc.1, ATree.anode pid ((lc.1, lc.2) :: (F.hk, hc0.2) :: hcs'')) :: F.post with hnewCs
  set t' : Tree := setNode (setNode (setNode (setParent t lcr (some pid)) pid
      (BNode.internal ((lc.1, lcr) :: (F.hk, hc0.2.rootPid) :: edgesOf hcs'')
        (parentPidOf (F :: C') none) I))
      lsid (BNode.internal (edgesOf lcs') (some F.pid) I))
      F.pid (BNode.internal (edgesOf F.pre ++ (lc.1, pid) :: edgesOf F.post)
        (parentPidOf C' none) I) with ht'
  have hbl : borrowLeft t pid F.pid lsid = some t' := by
    simp only [borrowLeft, hxp, hxl, hxF]
    rw [if_pos (show minSizeOf I < (edgesOf lcs).length from by simp [edgesOf]; omega)]
    rw [hgetDl, hfind, Option.getD_some, hgetDF,
      show ((F.hk, pid) : Nat × Nat).1 = F.hk from rfl,
      hsetK0,
      show ((lc.1, lcr) : Nat × Nat).2 = lcr from rfl,
      show ((lc.1, lcr) : Nat × Nat).1 = lc.1 from rfl,
      hdropl, hsk]
  -- the new store
  have hlen1 : (setParent t lcr (some pid)).pages.length = t.pages.length :=
    setParent_pagesLength t lcr (some pid)
  have hL' : t'.leafMaxSize = L := by
    rw [ht']
    show (setParent t lcr (some pid)).leafMaxSize = L
    rw [setParent_leafMax]
    exact hL
  have hI' : t'.internalMaxSize = I := by
    rw [ht']
    show (setParent t lcr (some pid)).internalMaxSize = I
    rw [setParent_interMax]
    exact hI2
  have hlen' : t'.pages.length = t.pages.length := by
    rw [ht']
    simp [setNode]
    exact hlen1
  have hframe1 : ∀ p, p ≠ pid → p ≠ lsid → p ≠ F.pid →
      t'.getNode p = (setParent t lcr (some pid)).getNode p := by
    intro p h1 h2 h3
    rw [ht', getNode_setNode_other _ _ _ _ h3, getNode_setNode_other _ _ _ _ h2,
      getNode_setNode_other _ _ _ _ h1]
  have hframe' : ∀ p, p ≠ lcr → p ≠ pid → p ≠ lsid → p ≠ F.pid →
      t'.getNode p = t.getNode p := by
    intro p h0 h1 h2 h3
    rw [hframe1 p h1 h2 h3]
    exact getNode_setParent_other t lcr (some pid) p h0
  have hxp' : t'.getNode pid = some (BNode.internal
      ((lc.1, lcr) :: (F.hk, hc0.2.rootPid) :: edgesOf hcs'')
      (parentPidOf (F :: C') none) I) := by
    rw [ht', getNode_setNode_other _ _ _ _ hpid_ne_F, getNode_setNode_other _ _ _ _ hpid_ne_ls]
    refine getNode_setNode_self _ pid _ ?_
    rw [hlen1]
    exact hpid_lt
  have hxl' : t'.getNode lsid = some (BNode.internal (edgesOf lcs') (some F.pid) I) := by
    rw [ht', getNode_setNode_other _ _ _ _ hlsid_ne_F]
    refine getNode_setNode_self _ lsid _ ?_
    simp [setNode]
    rw [hlen1]
    exact hlsid_lt
  have hxF' : t'.getNode F.pid = some (BNode.internal
      (edgesOf F.pre ++ (lc.1, pid) :: edgesOf F.post) (parentPidOf C' none) I) := by
    rw [ht']
    refine getNode_setNode_self _ F.pid _ ?_
    simp [setNode]
    rw [hlen1]
    exact hFpid_lt
  have hedges' : edgesOf newCs = edgesOf F.pre ++ (lc.1, pid) :: edgesOf F.post := by
    rw [hnewCs, edgesOf_append, hpre, edgesOf_append]
    simp [edgesOf]
    exact ⟨rfl, rfl⟩
  -- decode of the moved child and the rebuilt frame
  have hdec_lc : DecT t (some lsid) lc.2 :=
    (DecL_iff_mem t lsid lcs).mp hDecLcs lc (by rw [hlcs]; simp)
  have hdec_lc1 : DecT (setParent t lcr (some pid)) (some pid) lc.2 :=
    DecT_setParent t lc.2 (some lsid) (some pid) hdec_lc hndlc2
  have hdec_lc' : DecT t' (some pid) lc.2 := by
    refine DecT_frame (setParent t lcr (some pid)) t'
      (by rw [hL', setParent_leafMax, hL])
      (by rw [hI', setParent_interMax, hI2]) lc.2 (some pid) ?_ hdec_lc1
    intro p hp
    have h := hfromLc2 p hp
    exact hframe1 p h.1 h.2.1 h.2.2
  have hdecHole : DecT t' (some F.pid)
      (ATree.anode pid ((lc.1, lc.2) :: (F.hk, hc0.2) :: hcs'')) := by
    refine ⟨?_, ?_⟩
    · rw [hI']
      exact hxp'
    · rw [DecL_iff_mem]
      intro c hc
      rcases List.mem_cons.mp hc with hm | hm
      · rw [hm]
        exact hdec_lc'
      · rcases List.mem_cons.mp hm with hm2 | hm2
        · rw [hm2]
          refine DecT_frame t t' (by rw [hL', hL]) (by rw [hI', hI2]) hc0.2 (some pid) ?_
            ((DecL_iff_mem t pid hcs).mp hDecHcs hc0 (by rw [hhcs]; simp))
          intro p hp
          have hpH : p ∈ pidsC hcs := by
            rw [hpidshcs]
            exact List.mem_append.mpr (Or.inl hp)
          have h := hfromH p hpH
          exact hframe' p h.1 h.2.1 h.2.2.1 h.2.2.2
        · refine DecT_frame t t' (by rw [hL', hL]) (by rw [hI', hI2]) c.2 (some pid) ?_
            ((DecL_iff_mem t pid hcs).mp hDecHcs c (by rw [hhcs]; simp [hm2]))
          intro p hp
          have hpH : p ∈ pidsC hcs := by
            rw [hpidshcs]
            exact List.mem_append.mpr (Or.inr ((mem_pidsC hcs'' p).mpr ⟨c, hm2, hp⟩))
          have h := hfromH p hpH
          exact hframe' p h.1 h.2.1 h.2.2.1 h.2.2.2
  have hdecA : DecT t' (parentPidOf C' none) (ATree.anode F.pid newCs) := by
    refine ⟨?_, ?_⟩
    · rw [hI', hedges']
      exact hxF'
    · rw [DecL_iff_mem]
      intro c hc
      rw [hnewCs] at hc
      rcases List.mem_append.mp hc with hm | hm
      · have hcpre : c ∈ F.pre := by rw [hpre]; exact List.mem_append.mpr (Or.inl hm)
        refine DecT_frame t t' (by rw [hL', hL]) (by rw [hI', hI2]) c.2 (some F.pid) ?_
          (hsidepre c hcpre)
        intro p hp
        have h := hfromPre' p ((mem_pidsC pre' p).mpr ⟨c, hm, hp⟩)
        exact hframe' p h.1 h.2.1 h.2.2.1 h.2.2.2
      · rcases List.mem_cons.mp hm with hm2 | hm2
        · rw [hm2]
          refine ⟨?_, ?_⟩
          · rw [hI']
            exact hxl'
          · rw [DecL_iff_mem]
            intro c2 hc2
            refine DecT_frame t t' (by rw [hL', hL]) (by rw [hI', hI2]) c2.2 (some lsid) ?_
              ((DecL_iff_mem t lsid lcs).mp hDecLcs c2 (by rw [hlcs]; simp [hc2]))
            intro p hp
            have h := hfromLcs' p ((mem_pidsC lcs' p).mpr ⟨c2, hc2, hp⟩)
            exact hframe' p h.1 h.2.1 h.2.2.1 h.2.2.2
        · rcases List.mem_cons.mp hm2 with hm3 | hm3
          · rw [hm3]
            exact hdecHole
          · refine DecT_frame t t' (by rw [hL', hL]) (by rw [hI', hI2]) c.2 (some F.pid) ?_
              (hsidepost c hm3)
            intro p hp
            have h := hfromPost p ((mem_pidsC F.post p).mpr ⟨c, hm3, hp⟩)
            exact hframe' p h.1 h.2.1 h.2.2.1 h.2.2.2
  have hspC'2 : spineDec t' none C' F.pid := by
    refine spineDec_frame t t' none (by rw [hL', hL]) (by rw [hI', hI2]) C' F.pid ?_ hspC'
    intro p hp
    have h := hfromSpine p hp
    exact hframe' p h.1 h.2.1 h.2.2.1 h.2.2.2
  -- the rebuilt frame is search-good
  have hnewtail : tailKeys newCs =
      ((pre'.map Prod.fst ++ [kl]).tail) ++ lc.1 :: (F.post.map Prod.fst) := by
    rw [hnewCs, tailKeys_frame2,
      show pre'.map Prod.fst ++ kl :: lc.1 :: (F.post.map Prod.fst) =
        (pre'.map Prod.fst ++ [kl]) ++ lc.1 :: (F.post.map Prod.fst) from by simp]
    exact tail_append_of_ne_nil _ _ (by simp)
  have hnewpw : List.Pairwise (· < ·) (tailKeys newCs) := by
    rw [hnewtail]
    refine pairwise_sub_mid _ _ F.hk lc.1 hfpw ?_ ?_
    · intro q hq
      have h1 := hQle q hq
      have h2 : pre' ≠ [] := by
        intro hp0
        rw [hp0] at hq
        simp at hq
      have h3 := hkl_lt_lc1 h2
      omega
    · intro q hq
      have := hhk_lt_post q hq
      omega
  have hnewbounds : ∀ kk ∈ tailKeys newCs, strictLo lo' kk ∧ okHi hi' kk := by
    rw [hnewtail]
    intro kk hkk
    rcases List.mem_append.mp hkk with h | h
    · refine hf3 kk ?_
      rw [hQsplit]
      exact List.mem_append.mpr (Or.inl h)
    · rcases List.mem_cons.mp h with h2 | h2
      · rw [h2]
        exact ⟨hslo_lc1, okHi_weaken hi' F.hk lc.1 hhk_bounds.2 hlc1_lt_hk⟩
      · refine hf3 kk ?_
        rw [hQsplit]
        exact List.mem_append.mpr (Or.inr (by simp [h2]))
  have hheadEq : headKey newCs = frHeadKey F := by
    rw [hnewCs, headKey_eq_mapHead, frHeadKey, hpre]
    cases pre' with
    | nil => rfl
    | cons p0 ps => rfl
  have hchlo_lc : GoodT L I (some lc.1) (some F.hk) lc.2 := by
    have h := (goodSeq_decomp L I lcs' lc [] (chLo lo' pre' kl) (some F.hk)
      (by rw [← hlcs]; exact hls6)).2.1
    cases hlcp : lcs' with
    | nil => exact absurd hlcp hlcs'ne
    | cons a b =>
      rw [hlcp] at h
      exact h
  have hlsgood' : GoodT L I (chLo lo' pre' kl) (some lc.1) (ATree.anode lsid lcs') := by
    rw [goodT_node_iff]
    refine ⟨?_, ?_, ?_, ?_, ?_, ?_⟩
    · have h := hlcslen
      rw [hlcs] at h
      simp at h
      rw [hlcs] at hsz
      simp at hsz
      omega
    · have h := hls2
      rw [hlcs] at h
      simp at h
      omega
    · refine List.chain'_iff_pairwise.mpr ?_
      have h := List.chain'_iff_pairwise.mp hls3
      rw [htailK] at h
      exact (List.pairwise_append.mp h).1
    · intro k hk
      have hkmem : k ∈ tailKeys lcs := by
        rw [htailK]
        exact List.mem_append.mpr (Or.inl hk)
      refine ⟨(hls4 k hkmem).1, ?_⟩
      show k < lc.1
      have h := List.chain'_iff_pairwise.mp hls3
      rw [htailK] at h
      exact (List.pairwise_append.mp h).2.2 k hk lc.1 (by simp)
    · intro l hl
      have h2 := hls5 l hl
      rw [← h2, hlcs]
      exact (headKey_append_left lcs' [lc] hlcs'ne).symm
    · exact (goodSeq_decomp L I lcs' lc [] (chLo lo' pre' kl) (some F.hk)
        (by rw [← hlcs]; exact hls6)).1
  have hhole' : GoodT L I (some lc.1) (chHi hi' F.post)
      (ATree.anode pid ((lc.1, lc.2) :: (F.hk, hc0.2) :: hcs'')) := by
    rw [goodT_node_iff]
    refine ⟨by simp, ?_, ?_, ?_, ?_, ?_⟩
    · have h2 : hcs.length = 1 + hcs''.length := by rw [hhcs]; simp; omega
      simp
      omega
    · refine List.chain'_iff_pairwise.mpr ?_
      show List.Pairwise (· < ·) (F.hk :: hcs''.map Prod.fst)
      refine List.pairwise_cons.mpr ⟨?_, ?_⟩
      · intro k hk
        have hkt : k ∈ tailKeys hcs := by rw [hhcs]; exact hk
        exact (hg4 k hkt).1
      · have h := List.chain'_iff_pairwise.mp hg3
        rw [hhcs] at h
        exact h
    · intro k hk
      have hk2 : k ∈ F.hk :: hcs''.map Prod.fst := hk
      rcases List.mem_cons.mp hk2 with h | h
      · rw [h]
        exact ⟨show lc.1 < F.hk from hlc1_lt_hk, hchHi_hk⟩
      · have hkt : k ∈ tailKeys hcs := by rw [hhcs]; exact h
        refine ⟨?_, (hg4 k hkt).2⟩
        show lc.1 < k
        have h5 : F.hk < k := (hg4 k hkt).1
        omega
    · intro l hl
      show lc.1 = l
      exact Option.some.inj hl
    · show GoodT L I (some lc.1) (some F.hk) lc.2 ∧
        GoodSeq L I (some F.hk) (chHi hi' F.post) ((F.hk, hc0.2) :: hcs'')
      refine ⟨hchlo_lc, ?_⟩
      refine goodSeq_headkey L I (some F.hk) (chHi hi' F.post) F.hk hc0 hcs'' ?_
      have h := hg6
      rw [hhcs] at h
      exact h
  have hgoodA : GoodT L I lo' hi' (ATree.anode F.pid newCs) := by
    rw [goodT_node_iff]
    have hlennew : newCs.length = F.pre.length + 1 + F.post.length := by
      rw [hnewCs, hpre]
      simp
      omega
    refine ⟨by rw [hlennew]; omega, by rw [hlennew]; omega,
      List.chain'_iff_pairwise.mpr hnewpw, hnewbounds, ?_, ?_⟩
    · intro l hl
      rw [hheadEq]
      exact hf4 l hl
    · rw [hnewCs]
      refine goodSeq_assemble L I pre' kl (ATree.anode lsid lcs')
        ((lc.1, ATree.anode pid ((lc.1, lc.2) :: (F.hk, hc0.2) :: hcs'')) :: F.post)
        lo' hi' hdecompL.1 ?_ ?_
      · exact hlsgood'
      · cases hpost : F.post with
        | nil =>
          show GoodT L I (some lc.1) hi'
            (ATree.anode pid ((lc.1, lc.2) :: (F.hk, hc0.2) :: hcs''))
          rw [hpost] at hhole'
          exact hhole'
        | cons d post' =>
          have hf6' : GoodSeq L I (some d.1) hi' (d :: post') := by
            have h := hf6
            rw [hpost] at h
            exact h
          refine ⟨?_, hf6'⟩
          rw [hpost] at hhole'
          exact hhole'
  -- pids of the rebuilt frame
  have hpidsnewCs : pidsC newCs = pidsC pre' ++ ((lsid :: pidsC lcs') ++
      ((pid :: (lc.2.pids ++ (hc0.2.pids ++ pidsC hcs''))) ++ pidsC F.post)) := by
    rw [hnewCs, pidsC_append]
    rfl
  have hpermN : (spinePids C' ++ (F.pid :: pidsC newCs)).Perm
      (F.pid :: (pidsC F.pre ++ (pidsC F.post ++ (spinePids C' ++ (pid :: pidsC hcs))))) := by
    rw [hpidsnewCs, hpidspre, hpidslcs, hpidshcs, List.perm_iff_count]
    intro x
    simp only [List.count_append, List.count_cons]
    ring
  refine ⟨t', newCs, lo', hi', hbl, ⟨hL', hI', ?_, hspC'2, hdecA, hsgC', hgoodA, ?_, ?_⟩, ?_, hlen'⟩
  · have hrt : t'.root = t.root := by
      rw [ht']
      show (setParent t lcr (some pid)).root = t.root
      exact setParent_root t lcr (some pid)
    rw [hrt, hroot]
    rfl
  · rw [show (ATree.anode F.pid newCs).pids = F.pid :: pidsC newCs from rfl]
    exact hpermN.nodup_iff.mpr hndB
  · intro p hp
    rw [show (ATree.anode F.pid newCs).pids = F.pid :: pidsC newCs from rfl] at hp
    rw [hlen']
    exact hbndB p (hpermN.mem_iff.mp hp)
  · rw [hnewCs, toListC_append, hpre, toListC_append, toListC_append]
    rw [show toListC ((kl, ATree.anode lsid lcs') ::
        (lc.1, ATree.anode pid ((lc.1, lc.2) :: (F.hk, hc0.2) :: hcs'')) :: F.post) =
      toListC lcs' ++ ((lc.2.toList ++ (hc0.2.toList ++ toListC hcs'')) ++ toListC F.post)
      from rfl]
    rw [show toListC [(kl, ATree.anode lsid lcs)] = toListC lcs ++ [] from rfl]
    rw [show toListC ((F.hk, ATree.anode pid hcs) :: F.post) =
      toListC hcs ++ toListC F.post from rfl]
    rw [hlcs, toListC_append, hhcs]
    rw [show toListC [lc] = lc.2.toList ++ [] from rfl,
      show toListC (hc0 :: hcs'') = hc0.2.toList ++ toListC hcs'' from rfl]
    simp

end BPT

end BusTub
